import Mathlib

/-!
Verification of go-docx: section properties decoding, run styling and archive packing.

A shallow embedding of `structsect.go`, `apirun.go` and `pack.go`.

The Go code is driven by the standard library's `encoding/xml` decoder.  The decoder is
embedded at the level of its token stream: the text of a document is represented by the
list of raw tokens its tokenizer produces, followed by the error the tokenizer reports once
the list is exhausted (`io.EOF` for a clean end of input, anything else for a syntax or
reader error, which `encoding/xml` keeps returning from then on).  On top of the raw tokens
the embedding reproduces `Decoder.Token` (element stack, end-of-element markers pushed by
`unmarshalInterface`), `Decoder.Skip` and `Decoder.DecodeElement` as far as they reach the
`UnmarshalXML` methods of this repository.

Conventions: a Go method with a pointer receiver takes the receiver's state as its first
argument and returns the new state; a Go `error` result is an `Option GoError` (`none` is
`nil`); Go's `int` is a 64-bit integer, held in an `Int`.
-/

namespace GoDocx

/-! ## Errors -/

/-- Go `error` values that can reach the code of this repository. -/
inductive GoError where
  /-- The sentinel `io.EOF`. -/
  | EOF
  /-- A `*xml.SyntaxError` with its message and line. -/
  | SyntaxError (Msg : String) (Line : Nat)
  /-- A `*strconv.NumError`: failing function, input text and reason. -/
  | NumError (Func : String) (Num : String) (Err : String)
  /-- Any other error value (`errors.New`, `fmt.Errorf`, an error of the underlying
  reader), identified by its message. -/
  | ErrorString (s : String)
deriving DecidableEq, Repr

/-- The method `Error()` of an error value.  For a `NumError` Go quotes the input with
`strconv.Quote`; the embedding uses `String.quote`, which agrees with it on printable
ASCII. -/
def GoError.Error : GoError → String
  | .EOF => "EOF"
  | .SyntaxError msg line => "XML syntax error on line " ++ toString line ++ ": " ++ msg
  | .NumError fn num err => "strconv." ++ fn ++ ": parsing " ++ num.quote ++ ": " ++ err
  | .ErrorString s => s

/-- Go `strings.HasPrefix`. -/
def HasPrefix (s pre : String) : Bool :=
  pre.data.isPrefixOf s.data

/-! ## `encoding/xml` tokens -/

/-- Go `xml.Name`. -/
structure Name where
  Space : String := ""
  Local : String := ""
deriving DecidableEq, Repr

/-- Go `xml.Attr`. -/
structure Attr where
  Name : Name
  Value : String
deriving DecidableEq, Repr

/-- Go `xml.StartElement`. -/
structure StartElement where
  Name : Name
  Attr : List Attr
deriving DecidableEq, Repr

/-- Go `xml.Token`: the dynamic type of a token and its payload. -/
inductive Token where
  | StartElement (t : StartElement)
  | EndElement (Name : Name)
  | CharData (s : String)
  | Comment (s : String)
  | ProcInst (Target : String) (Inst : String)
  | Directive (s : String)
deriving DecidableEq, Repr

/-! ## `encoding/xml` decoder -/

/-- An entry of the decoder's element stack: an open element (`stkStart`) or an
end-of-element marker (`stkEOF`).  Namespace entries (`stkNs`) are left out: they sit below
the start entry they belong to, are popped together with it, and only drive the rewriting of
`Name.Space`, which no code of this repository reads. -/
inductive Stack where
  | stkStart (name : Name)
  | stkEOF
deriving DecidableEq, Repr

/-- State of a Go `xml.Decoder` in strict mode (the default of `xml.NewDecoder`). -/
structure Decoder where
  /-- Raw tokens the tokenizer still produces. -/
  input : List Token
  /-- Error the tokenizer reports once `input` is exhausted. -/
  inputErr : GoError := GoError.EOF
  /-- The element stack, top first. -/
  stk : List Stack := []
  /-- The sticky error `d.err`. -/
  err : Option GoError := none
  /-- The current line, used in syntax errors; the token-level embedding does not advance
  it. -/
  line : Nat := 1
deriving DecidableEq, Repr

/-- Go `xml.NewDecoder` on a reader whose text tokenizes to `input` and then reports
`inputErr`. -/
def NewDecoder (input : List Token) (inputErr : GoError) : Decoder :=
  { input := input, inputErr := inputErr }

/-- Go `(*Decoder).syntaxError`. -/
def Decoder.syntaxError (d : Decoder) (msg : String) : GoError :=
  GoError.SyntaxError msg d.line

/-- Go `(*Decoder).rawToken`, over the tokenized input: a pending error is returned again,
otherwise the next raw token, or the input's final error, which becomes pending. -/
def Decoder.rawToken (d : Decoder) : Except GoError Token × Decoder :=
  match d.err with
  | some e => (.error e, d)
  | none =>
    match d.input with
    | [] => (.error d.inputErr, { d with err := some d.inputErr })
    | t :: rest => (.ok t, { d with input := rest })

/-- Go `(*Decoder).pushElement`. -/
def Decoder.pushElement (d : Decoder) (name : Name) : Decoder :=
  { d with stk := Stack.stkStart name :: d.stk }

/-- Go `(*Decoder).popElement`: pops the top entry and checks it against the end tag; on a
mismatch records a syntax error in `d.err` and reports `false`. -/
def Decoder.popElement (d : Decoder) (name : Name) : Bool × Decoder :=
  match d.stk with
  | [] =>
    (false, { d with err := some (d.syntaxError ("unexpected end element </" ++ name.Local ++ ">")) })
  | Stack.stkEOF :: rest =>
    (false, { d with stk := rest,
                     err := some (d.syntaxError ("unexpected end element </" ++ name.Local ++ ">")) })
  | Stack.stkStart s :: rest =>
    if s.Local ≠ name.Local then
      (false, { d with stk := rest,
                       err := some (d.syntaxError ("element <" ++ s.Local ++ "> closed by </" ++ name.Local ++ ">")) })
    else if s.Space ≠ name.Space then
      (false, { d with stk := rest,
                       err := some (d.syntaxError ("element <" ++ s.Local ++ "> in space " ++ s.Space ++
                         " closed by </" ++ name.Local ++ "> in space " ++
                         (if name.Space = "" then "\"\"" else name.Space))) })
    else
      (true, { d with stk := rest })

/-- Go `(*Decoder).Token`: at an end-of-element marker it reports `io.EOF`; otherwise it
takes the next raw token, pushing a start element and matching an end element against the
stack.  A raw `io.EOF` inside an open element is reported as a syntax error. -/
def Decoder.Token (d : Decoder) : Except GoError Token × Decoder :=
  match d.stk with
  | Stack.stkEOF :: _ => (.error GoError.EOF, d)
  | _ =>
    match d.rawToken with
    | (.error err, d) =>
      if err = GoError.EOF ∧ d.stk ≠ [] ∧ d.stk.head? ≠ some Stack.stkEOF then
        (.error (d.syntaxError "unexpected EOF"), d)
      else
        (.error err, d)
    | (.ok (Token.StartElement t1), d) =>
      (.ok (Token.StartElement t1), d.pushElement t1.Name)
    | (.ok (Token.EndElement name), d) =>
      match d.popElement name with
      | (false, d) => (.error (d.err.getD GoError.EOF), d)
      | (true, d) => (.ok (Token.EndElement name), d)
    | (.ok t, d) => (.ok t, d)

/-- Go `(*Decoder).pushEOF`: puts an end-of-element marker right below the innermost open
element.  Go dereferences a nil pointer when no element is open; every call modelled here
follows a `Token` that returned a start element. -/
def pushEOFStack : List Stack → List Stack
  | [] => []
  | Stack.stkStart n :: rest => Stack.stkStart n :: Stack.stkEOF :: rest
  | Stack.stkEOF :: rest => Stack.stkEOF :: pushEOFStack rest

/-- Go `(*Decoder).pushEOF`. -/
def Decoder.pushEOF (d : Decoder) : Decoder :=
  { d with stk := pushEOFStack d.stk }

/-- Go `(*Decoder).popEOF`: removes the marker when it is on top of the stack. -/
def Decoder.popEOF (d : Decoder) : Bool × Decoder :=
  match d.stk with
  | Stack.stkEOF :: rest => (true, { d with stk := rest })
  | _ => (false, d)

/-- The loop of Go `(*Decoder).Skip`, with the nesting depth as its variable.  `none` only
when the fuel runs out. -/
def Decoder.SkipLoop : Nat → Nat → Decoder → Option (Option GoError × Decoder)
  | 0, _, _ => none
  | fuel + 1, depth, d =>
    match d.Token with
    | (.error err, d) => some (some err, d)
    | (.ok (Token.StartElement _), d) => Decoder.SkipLoop fuel (depth + 1) d
    | (.ok (Token.EndElement _), d) =>
      if depth = 0 then some (none, d) else Decoder.SkipLoop fuel (depth - 1) d
    | (.ok _, d) => Decoder.SkipLoop fuel depth d

/-- Go `(*Decoder).Skip`: reads tokens up to the end element matching the start element
already consumed.  Every round of the loop takes one raw token or returns, so the input
length bounds the rounds. -/
def Decoder.Skip (d : Decoder) : Option (Option GoError × Decoder) :=
  Decoder.SkipLoop (d.input.length + 1) 0 d

/-- The second half of Go `(*Decoder).unmarshalInterface`, after `UnmarshalXML` has
returned: `popEOF`, and the rejection of a method that returned before the element's end.
`receiverType` is the text `receiverType(val)` prints. -/
def Decoder.unmarshalDone {α : Type} (receiverType : String) (start : StartElement) :
    α × Decoder × Option GoError → α × Decoder × Option GoError
  | (val, d, some err) => (val, d.popEOF.2, some err)
  | (val, d, none) =>
    match d.popEOF with
    | (false, d) =>
      (val, d, some (GoError.ErrorString ("xml: " ++ receiverType ++
        ".UnmarshalXML did not consume entire <" ++ start.Name.Local ++ "> element")))
    | (true, d) => (val, d, none)

/-- Go `(*Decoder).unmarshalInterface`: runs a type's `UnmarshalXML` between `pushEOF` and
`popEOF`. -/
def Decoder.unmarshalInterface {α : Type}
    (UnmarshalXML : α → Decoder → StartElement → α × Decoder × Option GoError)
    (receiverType : String) (val : α) (d : Decoder) (start : StartElement) :
    α × Decoder × Option GoError :=
  Decoder.unmarshalDone receiverType start (UnmarshalXML val d.pushEOF start)

/-! ## `strconv.Atoi` -/

/-- Largest value of Go's `int` plus one: `int` has 64 bits. -/
def intCutoff : Nat := 2 ^ 63

/-- A value of Go's `int`. -/
def IsInt (n : Int) : Prop := -(intCutoff : Int) ≤ n ∧ n < (intCutoff : Int)

instance (n : Int) : Decidable (IsInt n) := by
  unfold IsInt; exact inferInstance

/-- The two reasons of a `strconv.NumError`: `ErrSyntax` and `ErrRange`. -/
inductive NumErr where
  | ErrSyntax
  | ErrRange
deriving DecidableEq, Repr

/-- The text of `ErrSyntax` and `ErrRange`. -/
def NumErr.Error : NumErr → String
  | .ErrSyntax => "invalid syntax"
  | .ErrRange => "value out of range"

/-- The digit loop of Go `strconv.ParseUint(s, 10, 64)`: the value read so far, and the
reason of a failure (`ErrSyntax` at the first byte that is no decimal digit, `ErrRange` as
soon as the value leaves 64 bits, with the value `1<<64 - 1`). -/
def ParseUintLoop : List Char → Nat → Nat × Option NumErr
  | [], n => (n, none)
  | c :: cs, n =>
    if 48 ≤ c.toNat ∧ c.toNat ≤ 57 then
      if n ≥ 2 ^ 64 / 10 + 1 then
        (2 ^ 64 - 1, some NumErr.ErrRange)
      else if n * 10 + (c.toNat - 48) > 2 ^ 64 - 1 then
        (2 ^ 64 - 1, some NumErr.ErrRange)
      else
        ParseUintLoop cs (n * 10 + (c.toNat - 48))
    else
      (0, some NumErr.ErrSyntax)

/-- Go `strconv.ParseUint(s, 10, 64)` on the characters of `s`. -/
def ParseUint (s : List Char) : Nat × Option NumErr :=
  match s with
  | [] => (0, some NumErr.ErrSyntax)
  | _ => ParseUintLoop s 0

/-- Go `strconv.Atoi`: value and error.  The embedding follows the general path
(`ParseInt(s, 10, 0)`); the fast path Go takes for short inputs computes the same result.
A character outside ASCII is, byte by byte, no digit in Go and no digit here. -/
def Atoi (s : String) : Int × Option GoError :=
  match s.data with
  | [] => (0, some (GoError.NumError "Atoi" s NumErr.ErrSyntax.Error))
  | c :: cs =>
    let neg : Bool := c = '-'
    let digits : List Char := if c = '+' ∨ c = '-' then cs else c :: cs
    match ParseUint digits with
    | (_, some NumErr.ErrSyntax) => (0, some (GoError.NumError "Atoi" s NumErr.ErrSyntax.Error))
    | (un, _) =>
      if neg = false ∧ un ≥ intCutoff then
        (((intCutoff - 1 : Nat) : Int), some (GoError.NumError "Atoi" s NumErr.ErrRange.Error))
      else if neg = true ∧ un > intCutoff then
        (-(intCutoff : Int), some (GoError.NumError "Atoi" s NumErr.ErrRange.Error))
      else
        (if neg then -(un : Int) else (un : Int), none)

/-! ## `structsect.go`: data model -/

/-- PgSz show the paper size. -/
structure PgSz where
  W : Int := 0
  H : Int := 0
deriving DecidableEq, Repr

/-- Go `HeaderReference`; the field `Type` is written `Type_`. -/
structure HeaderReference where
  Id : String := ""
  Type_ : String := ""
deriving DecidableEq, Repr

/-- Go `FooterReference`; the field `Type` is written `Type_`. -/
structure FooterReference where
  Id : String := ""
  Type_ : String := ""
deriving DecidableEq, Repr

/-- Go `Type` (the section type), written `SectType`. -/
structure SectType where
  Val : String := ""
deriving DecidableEq, Repr

/-- Go `PgMar`. -/
structure PgMar where
  Top : String := ""
  Right : String := ""
  Bottom : String := ""
  Left : String := ""
  Header : String := ""
  Footer : String := ""
  Gutter : String := ""
deriving DecidableEq, Repr

/-- Go `Cols`. -/
structure Cols where
  Space : String := ""
  Num : String := ""
deriving DecidableEq, Repr

/-- Go `DocGrid`. -/
structure DocGrid where
  LinePitch : String := ""
  CharSpace : String := ""
deriving DecidableEq, Repr

/-- SectPr show the properties of the document, like paper size.  A nil pointer is
`none`. -/
structure SectPr where
  XMLName : Name := {}
  PgSz : Option PgSz := none
  HeaderReference : Option HeaderReference := none
  FooterReference : Option FooterReference := none
  Type_ : Option SectType := none
  PgMar : Option PgMar := none
  Cols : Option Cols := none
  DocGrid : Option DocGrid := none
deriving DecidableEq, Repr

/-! ## `structsect.go`: leaf decoders -/

/-- The tail of every leaf decoder: `_, err = d.Token(); return err`. -/
def consumeToken {α : Type} (v : α) (d : Decoder) : α × Decoder × Option GoError :=
  match d.Token with
  | (.error err, d) => (v, d, some err)
  | (.ok _, d) => (v, d, none)

/-- The attribute loop of `HeaderReference.UnmarshalXML`. -/
def HeaderReference.setAttr (pgsz : HeaderReference) (attr : Attr) : HeaderReference :=
  if attr.Name.Local = "id" then { pgsz with Id := attr.Value }
  else if attr.Name.Local = "type" then { pgsz with Type_ := attr.Value }
  else pgsz

/-- Go `(*HeaderReference).UnmarshalXML`. -/
def HeaderReference.UnmarshalXML (pgsz : HeaderReference) (d : Decoder) (start : StartElement) :
    HeaderReference × Decoder × Option GoError :=
  consumeToken (start.Attr.foldl HeaderReference.setAttr pgsz) d

/-- The attribute loop of `FooterReference.UnmarshalXML`. -/
def FooterReference.setAttr (pgsz : FooterReference) (attr : Attr) : FooterReference :=
  if attr.Name.Local = "id" then { pgsz with Id := attr.Value }
  else if attr.Name.Local = "type" then { pgsz with Type_ := attr.Value }
  else pgsz

/-- Go `(*FooterReference).UnmarshalXML`. -/
def FooterReference.UnmarshalXML (pgsz : FooterReference) (d : Decoder) (start : StartElement) :
    FooterReference × Decoder × Option GoError :=
  consumeToken (start.Attr.foldl FooterReference.setAttr pgsz) d

/-- The attribute loop of `Type.UnmarshalXML`. -/
def SectType.setAttr (pgsz : SectType) (attr : Attr) : SectType :=
  if attr.Name.Local = "val" then { pgsz with Val := attr.Value }
  else pgsz

/-- Go `(*Type).UnmarshalXML`. -/
def SectType.UnmarshalXML (pgsz : SectType) (d : Decoder) (start : StartElement) :
    SectType × Decoder × Option GoError :=
  consumeToken (start.Attr.foldl SectType.setAttr pgsz) d

/-- The attribute loop of `PgMar.UnmarshalXML`. -/
def PgMar.setAttr (pgsz : PgMar) (attr : Attr) : PgMar :=
  if attr.Name.Local = "top" then { pgsz with Top := attr.Value }
  else if attr.Name.Local = "right" then { pgsz with Right := attr.Value }
  else if attr.Name.Local = "bottom" then { pgsz with Bottom := attr.Value }
  else if attr.Name.Local = "left" then { pgsz with Left := attr.Value }
  else if attr.Name.Local = "header" then { pgsz with Header := attr.Value }
  else if attr.Name.Local = "footer" then { pgsz with Footer := attr.Value }
  else if attr.Name.Local = "gutter" then { pgsz with Gutter := attr.Value }
  else pgsz

/-- Go `(*PgMar).UnmarshalXML`. -/
def PgMar.UnmarshalXML (pgsz : PgMar) (d : Decoder) (start : StartElement) :
    PgMar × Decoder × Option GoError :=
  consumeToken (start.Attr.foldl PgMar.setAttr pgsz) d

/-- The attribute loop of `Cols.UnmarshalXML`. -/
def Cols.setAttr (pgsz : Cols) (attr : Attr) : Cols :=
  if attr.Name.Local = "space" then { pgsz with Space := attr.Value }
  else if attr.Name.Local = "num" then { pgsz with Num := attr.Value }
  else pgsz

/-- Go `(*Cols).UnmarshalXML`. -/
def Cols.UnmarshalXML (pgsz : Cols) (d : Decoder) (start : StartElement) :
    Cols × Decoder × Option GoError :=
  consumeToken (start.Attr.foldl Cols.setAttr pgsz) d

/-- The attribute loop of `DocGrid.UnmarshalXML`. -/
def DocGrid.setAttr (pgsz : DocGrid) (attr : Attr) : DocGrid :=
  if attr.Name.Local = "linePitch" then { pgsz with LinePitch := attr.Value }
  else if attr.Name.Local = "charSpace" then { pgsz with CharSpace := attr.Value }
  else pgsz

/-- Go `(*DocGrid).UnmarshalXML`. -/
def DocGrid.UnmarshalXML (pgsz : DocGrid) (d : Decoder) (start : StartElement) :
    DocGrid × Decoder × Option GoError :=
  consumeToken (start.Attr.foldl DocGrid.setAttr pgsz) d

/-- The attribute loop of `PgSz.UnmarshalXML`: `pgsz.W, err = strconv.Atoi(attr.Value)`
assigns the field before the error is tested, and an error ends the loop. -/
def PgSz.attrLoop (pgsz : PgSz) : List Attr → PgSz × Option GoError
  | [] => (pgsz, none)
  | attr :: rest =>
    if attr.Name.Local = "w" then
      match Atoi attr.Value with
      | (n, some err) => ({ pgsz with W := n }, some err)
      | (n, none) => PgSz.attrLoop { pgsz with W := n } rest
    else if attr.Name.Local = "h" then
      match Atoi attr.Value with
      | (n, some err) => ({ pgsz with H := n }, some err)
      | (n, none) => PgSz.attrLoop { pgsz with H := n } rest
    else
      PgSz.attrLoop pgsz rest

/-- Go `(*PgSz).UnmarshalXML`. -/
def PgSz.UnmarshalXML (pgsz : PgSz) (d : Decoder) (start : StartElement) :
    PgSz × Decoder × Option GoError :=
  match PgSz.attrLoop pgsz start.Attr with
  | (pgsz, some err) => (pgsz, d, some err)
  | (pgsz, none) => consumeToken pgsz d

/-! ## `structsect.go`: the section decoder -/

/-- Go `(*Decoder).DecodeElement(&value, &tt)` for a value whose pointer type implements
`xml.Unmarshaler`: the reflective `unmarshal` hands over to `unmarshalInterface` at once. -/
def Decoder.DecodeElement {α : Type}
    (UnmarshalXML : α → Decoder → StartElement → α × Decoder × Option GoError)
    (receiverType : String) (value : α) (d : Decoder) (tt : StartElement) :
    α × Decoder × Option GoError :=
  d.unmarshalInterface UnmarshalXML receiverType value tt

/-- The test `err != nil && !strings.HasPrefix(err.Error(), "expected")`. -/
def fatal (err : Option GoError) : Bool :=
  match err with
  | none => false
  | some e => !HasPrefix e.Error "expected"

/-- What follows `err = d.DecodeElement(&value, &tt)` in each recognized case: a fatal error
is returned at once and the field is left alone; otherwise `store value` is the section with
the field set to `&value`, and the loop goes on. -/
def afterChild {α : Type} (sect : SectPr) (store : α → SectPr)
    (r : α × Decoder × Option GoError) : Option (SectPr × Decoder × Option GoError) :=
  if fatal r.2.2 then some (sect, r.2.1, r.2.2) else some (store r.1, r.2.1, none)

/-- The `switch tt.Name.Local` of `SectPr.UnmarshalXML`, one round for the start element
`tt`; each recognized case decodes into a fresh `value`.  An error in the result is the
error the method returns at once; without one the loop goes on.  `none` only when `Skip`
runs out of fuel. -/
def SectPr.dispatch (sect : SectPr) (d : Decoder) (tt : StartElement) :
    Option (SectPr × Decoder × Option GoError) :=
  if tt.Name.Local = "pgSz" then
    afterChild sect (fun value => { sect with PgSz := some value })
      (d.DecodeElement PgSz.UnmarshalXML "(*docx.PgSz)" {} tt)
  else if tt.Name.Local = "headerReference" then
    afterChild sect (fun value => { sect with HeaderReference := some value })
      (d.DecodeElement HeaderReference.UnmarshalXML "(*docx.HeaderReference)" {} tt)
  else if tt.Name.Local = "footerReference" then
    afterChild sect (fun value => { sect with FooterReference := some value })
      (d.DecodeElement FooterReference.UnmarshalXML "(*docx.FooterReference)" {} tt)
  else if tt.Name.Local = "type" then
    afterChild sect (fun value => { sect with Type_ := some value })
      (d.DecodeElement SectType.UnmarshalXML "(*docx.Type)" {} tt)
  else if tt.Name.Local = "pgMar" then
    afterChild sect (fun value => { sect with PgMar := some value })
      (d.DecodeElement PgMar.UnmarshalXML "(*docx.PgMar)" {} tt)
  else if tt.Name.Local = "cols" then
    afterChild sect (fun value => { sect with Cols := some value })
      (d.DecodeElement Cols.UnmarshalXML "(*docx.Cols)" {} tt)
  else if tt.Name.Local = "docGrid" then
    afterChild sect (fun value => { sect with DocGrid := some value })
      (d.DecodeElement DocGrid.UnmarshalXML "(*docx.DocGrid)" {} tt)
  else
    match d.Skip with
    | none => none
    | some (some err, d) => some (sect, d, some err)
    | some (none, d) => some (sect, d, none)

/-- The `for` loop of `SectPr.UnmarshalXML`.  `none` only when the fuel runs out. -/
def SectPr.UnmarshalXMLLoop : Nat → SectPr → Decoder → Option (SectPr × Decoder × Option GoError)
  | 0, _, _ => none
  | fuel + 1, sect, d =>
    match d.Token with
    | (.error err, d) =>
      if err = GoError.EOF then some (sect, d, none) else some (sect, d, some err)
    | (.ok (Token.StartElement tt), d) =>
      match SectPr.dispatch sect d tt with
      | none => none
      | some (sect, d, some err) => some (sect, d, some err)
      | some (sect, d, none) => SectPr.UnmarshalXMLLoop fuel sect d
    | (.ok _, d) => SectPr.UnmarshalXMLLoop fuel sect d

/-- Go `(*SectPr).UnmarshalXML`; the start element is not used.  Every round of the loop
takes at least one raw token or returns, so the input length bounds the rounds. -/
def SectPr.UnmarshalXML (sect : SectPr) (d : Decoder) (_ : StartElement) :
    Option (SectPr × Decoder × Option GoError) :=
  SectPr.UnmarshalXMLLoop (d.input.length + 1) sect d

/-- Go `(*Decoder).DecodeElement(&sect, &start)` for a `SectPr`: `unmarshalInterface` around
`SectPr.UnmarshalXML`. -/
def SectPr.DecodeElement (sect : SectPr) (d : Decoder) (start : StartElement) :
    Option (SectPr × Decoder × Option GoError) :=
  (SectPr.UnmarshalXML sect d.pushEOF start).map (Decoder.unmarshalDone "(*docx.SectPr)" start)

/-- The search for the first start element in Go `(*Decoder).unmarshal` when it is called
without one.  `none` only when the fuel runs out. -/
def Decoder.firstStart : Nat → Decoder → Option (Except GoError StartElement × Decoder)
  | 0, _ => none
  | fuel + 1, d =>
    match d.Token with
    | (.error err, d) => some (.error err, d)
    | (.ok (Token.StartElement t), d) => some (.ok t, d)
    | (.ok _, d) => Decoder.firstStart fuel d

/-- Go `xml.Unmarshal(data, &sect)` on a text that tokenizes to `data`: a new decoder, the
search for the root start element, and `DecodeElement` on it.  The result is the state of
`sect` and the returned error. -/
def Unmarshal (data : List Token) (sect : SectPr) : Option (SectPr × Option GoError) :=
  let d := NewDecoder data GoError.EOF
  match Decoder.firstStart (d.input.length + 1) d with
  | none => none
  | some (.error err, _) => some (sect, some err)
  | some (.ok start, d) =>
    match SectPr.DecodeElement sect d start with
    | none => none
    | some (sect, _, err) => some (sect, err)

/-! ## Well-formed content -/

/-- A token that is neither a start nor an end element. -/
inductive Misc where
  | CharData (s : String)
  | Comment (s : String)
  | ProcInst (Target : String) (Inst : String)
  | Directive (s : String)
deriving DecidableEq, Repr

/-- The token of a `Misc`. -/
def Misc.token : Misc → Token
  | .CharData s => Token.CharData s
  | .Comment s => Token.Comment s
  | .ProcInst t i => Token.ProcInst t i
  | .Directive s => Token.Directive s

/-- Well-formed element content: a sequence of siblings, each an element with its own
content or a token that is no element. -/
inductive Forest where
  | nil
  | element (name : Name) (attr : List Attr) (content : Forest) (next : Forest)
  | misc (m : Misc) (next : Forest)
deriving DecidableEq, Repr

/-- The raw tokens of a content: each element is its start tag, the tokens of its content
and the end tag of the same name. -/
def Forest.tokens : Forest → List Token
  | .nil => []
  | .element name attr content next =>
    Token.StartElement ⟨name, attr⟩ :: (content.tokens ++ Token.EndElement name :: next.tokens)
  | .misc m next => m.token :: next.tokens

/-- One content after another. -/
def Forest.append : Forest → Forest → Forest
  | .nil, g => g
  | .element name attr content next, g => .element name attr content (next.append g)
  | .misc m next, g => .misc m (next.append g)

/-- The local names `SectPr.UnmarshalXML` dispatches on. -/
def recognized : List String :=
  ["pgSz", "headerReference", "footerReference", "type", "pgMar", "cols", "docGrid"]

/-- The effect of one child element of well-formed section content on the section, as the
properties below establish it for `SectPr.UnmarshalXML`: a recognized child without content
sets its field to the value its attributes give to a fresh value, a recognized child with
content is an error (`none`), and any other element changes nothing. -/
def SectPr.child (sect : SectPr) (name : Name) (attr : List Attr) (content : Forest) :
    Option SectPr :=
  if name.Local = "pgSz" then
    if content = Forest.nil ∧ (PgSz.attrLoop {} attr).2 = none then
      some { sect with PgSz := some (PgSz.attrLoop {} attr).1 }
    else none
  else if name.Local = "headerReference" then
    if content = Forest.nil then
      some { sect with HeaderReference := some (attr.foldl HeaderReference.setAttr {}) }
    else none
  else if name.Local = "footerReference" then
    if content = Forest.nil then
      some { sect with FooterReference := some (attr.foldl FooterReference.setAttr {}) }
    else none
  else if name.Local = "type" then
    if content = Forest.nil then
      some { sect with Type_ := some (attr.foldl SectType.setAttr {}) }
    else none
  else if name.Local = "pgMar" then
    if content = Forest.nil then
      some { sect with PgMar := some (attr.foldl PgMar.setAttr {}) }
    else none
  else if name.Local = "cols" then
    if content = Forest.nil then
      some { sect with Cols := some (attr.foldl Cols.setAttr {}) }
    else none
  else if name.Local = "docGrid" then
    if content = Forest.nil then
      some { sect with DocGrid := some (attr.foldl DocGrid.setAttr {}) }
    else none
  else
    some sect

/-- The effect of well-formed section content on the section: the children in order, up to
the first error. -/
def SectPr.children (sect : SectPr) : Forest → Option SectPr
  | Forest.nil => some sect
  | Forest.element name attr content next =>
    match SectPr.child sect name attr content with
    | none => none
    | some sect => SectPr.children sect next
  | Forest.misc _ next => SectPr.children sect next

/-- The attributes of the last element of a content (siblings only, not descendants) whose
local name is `loc`. -/
def Forest.lastChild (loc : String) : Forest → Option (List Attr)
  | Forest.nil => none
  | Forest.element name attr _ next =>
    match Forest.lastChild loc next with
    | some a => some a
    | none => if name.Local = loc then some attr else none
  | Forest.misc _ next => Forest.lastChild loc next

/-- The value of a field after well-formed content: the value `val` builds from the
attributes of the last child of its kind, or the previous value `prev` when there is no such
child. -/
def lastOr {α : Type} (prev : Option α) (val : List Attr → α) : Option (List Attr) → Option α
  | none => prev
  | some attr => some (val attr)

/-- The value of the last attribute of a start tag whose local name is `loc`. -/
def lastAttr (loc : String) : List Attr → Option String
  | [] => none
  | a :: rest =>
    match lastAttr loc rest with
    | some v => some v
    | none => if a.Name.Local = loc then some a.Value else none

/-- The integer of the last attribute named `loc`, and 0 when there is none. -/
def lastInt (loc : String) (attrs : List Attr) : Int :=
  match lastAttr loc attrs with
  | none => 0
  | some v => (Atoi v).1

/-- The attributes of a start tag whose local name is one of `names`. -/
def keepAttrs (names : List String) (start : StartElement) : StartElement :=
  { start with Attr := start.Attr.filter (fun a => decide (a.Name.Local ∈ names)) }

/-! ## `apirun.go`: run styling -/

/-- Go `Color`: the run colour element. -/
structure Color where
  Val : String
deriving DecidableEq, Repr

/-- Go `Size`: the run size element. -/
structure Size where
  Val : String
deriving DecidableEq, Repr

/-- Go `Shade`: the run shading element. -/
structure Shade where
  Val : String
  Color : String
  Fill : String
deriving DecidableEq, Repr

/-- Go `Bold`: a flag element without attributes. -/
structure Bold where
deriving DecidableEq, Repr

/-- Go `Italic`: a flag element without attributes. -/
structure Italic where
deriving DecidableEq, Repr

/-- Go `Underline`. -/
structure Underline where
  Val : String
deriving DecidableEq, Repr

/-- Go `Highlight`. -/
structure Highlight where
  Val : String
deriving DecidableEq, Repr

/-- Go `Tab`: the tab marker. -/
structure Tab where
deriving DecidableEq, Repr

/-- Modelled from the spec: the declaration of `RunProperties` is not among the source files.
The spec gives it as "optional color, size, shade, bold flag, italic flag, underline,
highlight", each present or absent on its own; a nil pointer is `none`. -/
structure RunProperties where
  Color : Option Color := none
  Size : Option Size := none
  Shade : Option Shade := none
  Bold : Option Bold := none
  Italic : Option Italic := none
  Underline : Option Underline := none
  Highlight : Option Highlight := none
deriving DecidableEq, Repr

/-- An element of `Run.Children` (`[]interface{}` in Go): a tab marker, a text, or a value
of another kind, named by its kind. -/
inductive RunChild where
  | Tab (t : Tab)
  | Text (s : String)
  | Other (kind : String)
deriving DecidableEq, Repr

/-- Modelled from the spec: the declaration of `Run` is not among the source files.  The spec
gives it as owning "one RunProperties and an ordered sequence of content children". -/
structure Run where
  RunProperties : RunProperties := {}
  Children : List RunChild := []
deriving DecidableEq, Repr

/-- Color allows to set run color.  The method mutates its receiver and returns it: the
result is the receiver after the call. -/
def Run.Color (r : Run) (color : String) : Run :=
  { r with RunProperties := { r.RunProperties with Color := some { Val := color } } }

/-- Size allows to set run size. -/
def Run.Size (r : Run) (size : String) : Run :=
  { r with RunProperties := { r.RunProperties with Size := some { Val := size } } }

/-- Shade allows to set run shade. -/
def Run.Shade (r : Run) (val color fill : String) : Run :=
  { r with RunProperties :=
      { r.RunProperties with Shade := some { Val := val, Color := color, Fill := fill } } }

/-- Go `(*Run).Bold`. -/
def Run.Bold (r : Run) : Run :=
  { r with RunProperties := { r.RunProperties with Bold := some {} } }

/-- Go `(*Run).Italic`. -/
def Run.Italic (r : Run) : Run :=
  { r with RunProperties := { r.RunProperties with Italic := some {} } }

/-- Go `(*Run).Underline`. -/
def Run.Underline (r : Run) (val : String) : Run :=
  { r with RunProperties := { r.RunProperties with Underline := some { Val := val } } }

/-- Go `(*Run).Highlight`. -/
def Run.Highlight (r : Run) (val : String) : Run :=
  { r with RunProperties := { r.RunProperties with Highlight := some { Val := val } } }

/-- AddTab add a tab in front of the run (so the Go comment; the code appends). -/
def Run.AddTab (r : Run) : Run :=
  { r with Children := r.Children ++ [RunChild.Tab {}] }

/-- One call of a styling method, with its arguments. -/
inductive StyleCall where
  | Color (color : String)
  | Size (size : String)
  | Shade (val color fill : String)
  | Bold
  | Italic
  | Underline (val : String)
  | Highlight (val : String)
deriving DecidableEq, Repr

/-- The call made on a run. -/
def StyleCall.apply (r : Run) : StyleCall → Run
  | .Color color => r.Color color
  | .Size size => r.Size size
  | .Shade val color fill => r.Shade val color fill
  | .Bold => r.Bold
  | .Italic => r.Italic
  | .Underline val => r.Underline val
  | .Highlight val => r.Highlight val

/-- A chain of styling calls `r.A().B()...`, first call first. -/
def Run.chain (r : Run) (calls : List StyleCall) : Run :=
  calls.foldl StyleCall.apply r

/-- The value a `Color` call asks for. -/
def StyleCall.color : StyleCall → Option GoDocx.Color
  | .Color color => some { Val := color }
  | _ => none

/-- The value a `Size` call asks for. -/
def StyleCall.size : StyleCall → Option GoDocx.Size
  | .Size size => some { Val := size }
  | _ => none

/-- The value a `Shade` call asks for. -/
def StyleCall.shade : StyleCall → Option GoDocx.Shade
  | .Shade val color fill => some { Val := val, Color := color, Fill := fill }
  | _ => none

/-- The value a `Bold` call asks for. -/
def StyleCall.bold : StyleCall → Option GoDocx.Bold
  | .Bold => some {}
  | _ => none

/-- The value an `Italic` call asks for. -/
def StyleCall.italic : StyleCall → Option GoDocx.Italic
  | .Italic => some {}
  | _ => none

/-- The value an `Underline` call asks for. -/
def StyleCall.underline : StyleCall → Option GoDocx.Underline
  | .Underline val => some { Val := val }
  | _ => none

/-- The value a `Highlight` call asks for. -/
def StyleCall.highlight : StyleCall → Option GoDocx.Highlight
  | .Highlight val => some { Val := val }
  | _ => none

/-! ## `pack.go`: the archive -/

/-- A byte sequence. -/
abbrev Bytes := List UInt8

/-- Go `xml.Header`. -/
def xmlHeader : Bytes :=
  "<?xml version=\"1.0\" encoding=\"UTF-8\"?>\n".data.map (fun c => c.toNat.toUInt8)

/-- An open file of an `fs.FS`: the bytes its `Read` calls deliver, and the error that ends
them (`none` for `io.EOF`, the clean end). -/
structure File where
  data : Bytes
  err : Option GoError := none
deriving DecidableEq, Repr

/-- An `fs.FS` (or `embed.FS`), by its method `Open`. -/
abbrev FS := String → Except GoError File

/-- A value handed to `xml.Encoder.Encode` (the document tree, the relationships tree, whose
types are declared outside the source files), given by what encoding it does: the bytes the
encoder writes and the error `Encode` returns. -/
structure XMLData where
  xml : Bytes
  err : Option GoError := none
deriving DecidableEq, Repr

/-- Go `Media`, as far as `pack` uses it: the raw bytes.  The name stands for whatever
identifies the item. -/
structure Media where
  Name : String
  Data : Bytes
deriving DecidableEq, Repr

/-- The `io.Reader` values `pack` binds to paths: an opened template file, a `marshaller`
around a part, a `bytes.Reader` over media bytes. -/
inductive Reader where
  | file (f : File)
  | marshaller (data : XMLData)
  | bytesReader (b : Bytes)
deriving DecidableEq, Repr

/-- Go `Docx`, as far as `pack` uses it. -/
structure Docx where
  template : String
  tmpfslst : List String
  tmplfs : FS
  docRelation : XMLData
  Document : XMLData
  media : List Media

/-- Go `*zip.Writer`: the entries created so far, oldest first, each with the bytes written
to it, and the failures of the sink: `createErr` tells whether `Create` of a path fails in
the current state, `writeErr` whether a write of some bytes to the newest entry fails.  How
much of a failed write reached the archive is not modelled: a failed write leaves the entry
as it was. -/
structure ZipWriter where
  entries : List (String × Bytes)
  createErr : List (String × Bytes) → String → Option GoError
  writeErr : List (String × Bytes) → Bytes → Option GoError

/-- Go `(*zip.Writer).Create`: a new entry at the end; the name is not checked against the
entries already there. -/
def ZipWriter.Create (z : ZipWriter) (path : String) : ZipWriter × Option GoError :=
  match z.createErr z.entries path with
  | some err => (z, some err)
  | none => ({ z with entries := z.entries ++ [(path, [])] }, none)

/-- The entries after some bytes are added to the newest one. -/
def appendLast : List (String × Bytes) → Bytes → List (String × Bytes)
  | [], _ => []
  | [(k, b)], p => [(k, b ++ p)]
  | e :: e2 :: rest, p => e :: appendLast (e2 :: rest) p

/-- Go `Write` on the `io.Writer` that `Create` returned: the bytes go to the newest
entry. -/
def ZipWriter.Write (z : ZipWriter) (p : Bytes) : ZipWriter × Option GoError :=
  match z.writeErr z.entries p with
  | some err => (z, some err)
  | none => ({ z with entries := appendLast z.entries p }, none)

/-- WriteTo n is always 0 for we don't care that value.  The header is written with
`io.WriteString`, then `xml.NewEncoder(w).Encode(m.data)` writes the encoding; its error is a
failed write or the encoder's own error. -/
def marshaller.WriteTo (m : XMLData) (w : ZipWriter) : ZipWriter × Int × Option GoError :=
  match w.Write xmlHeader with
  | (w, some err) => (w, 0, some err)
  | (w, none) =>
    match w.Write m.xml with
    | (w, some err) => (w, 0, some err)
    | (w, none) => (w, 0, m.err)

/-- Go `io.Copy(w, r)`, result `err`.  A `marshaller` and a `bytes.Reader` implement
`io.WriterTo`, so `Copy` hands over to their `WriteTo`; a file is read to its end and
written.  Nothing is written for an empty source. -/
def Copy (w : ZipWriter) : Reader → ZipWriter × Option GoError
  | Reader.marshaller m =>
    match marshaller.WriteTo m w with
    | (w, _, err) => (w, err)
  | Reader.bytesReader b => if b = [] then (w, none) else w.Write b
  | Reader.file f =>
    if f.data = [] then (w, f.err)
    else
      match w.Write f.data with
      | (w, some err) => (w, some err)
      | (w, none) => (w, f.err)

/-- A Go `map[string]io.Reader`: the bindings, one per key, in the order the keys were first
assigned.  The order has no meaning in Go; iteration takes its own. -/
abbrev Files := List (String × Reader)

/-- The assignment `files[k] = v`: the binding of `k` is replaced, or added. -/
def Files.set (files : Files) (k : String) (v : Reader) : Files :=
  if files.any (fun e => e.1 = k) then files.map (fun e => if e.1 = k then (k, v) else e)
  else files ++ [(k, v)]

/-- The loop `for _, name := range f.tmpfslst` of `pack`: every name is opened in the file
system, at `path name`, and bound; the first failing `Open` ends `pack` with its error. -/
def openParts (fs : FS) (path : String → String) : List String → Files → Except GoError Files
  | [], files => .ok files
  | name :: rest, files =>
    match fs (path name) with
    | .error err => .error err
    | .ok file => openParts fs path rest (Files.set files name (Reader.file file))

/-- The loop `for path, r := range files` of `pack`, over the bindings in the order the
iteration takes them. -/
def writeParts : List (String × Reader) → ZipWriter → ZipWriter × Option GoError
  | [], z => (z, none)
  | (path, r) :: rest, z =>
    match z.Create path with
    | (z, some err) => (z, some err)
    | (z, none) =>
      match Copy z r with
      | (z, some err) => (z, some err)
      | (z, none) => writeParts rest z

/-- Go `(*Docx).pack`.  Three things it uses are not in the source files and are parameters:
the embedded file system `TemplateXMLFS`, the method `Media.String` that derives the archive
path of a media item, and `range`, the order in which Go iterates over the map (any
arrangement of its bindings).  The result is the zip writer after the call and the error. -/
def Docx.pack (TemplateXMLFS : FS) (mediaString : Media → String)
    (range : Files → List (String × Reader)) (f : Docx) (zipWriter : ZipWriter) :
    ZipWriter × Option GoError :=
  let opened :=
    if f.template ≠ "" then
      openParts TemplateXMLFS (fun name => "xml/" ++ f.template ++ "/" ++ name) f.tmpfslst []
    else
      openParts f.tmplfs (fun name => name) f.tmpfslst []
  match opened with
  | .error err => (zipWriter, some err)
  | .ok files =>
    let files := Files.set files "word/_rels/document.xml.rels" (Reader.marshaller f.docRelation)
    let files := Files.set files "word/document.xml" (Reader.marshaller f.Document)
    let files := f.media.foldl
      (fun files m => Files.set files (mediaString m) (Reader.bytesReader m.Data)) files
    writeParts (range files) zipWriter

/-- The archive paths `pack` binds, in the order of the bindings: the template part names,
the relationships part, the document part, the media paths. -/
def Docx.paths (mediaString : Media → String) (f : Docx) : List String :=
  f.tmpfslst ++ ["word/_rels/document.xml.rels", "word/document.xml"] ++ f.media.map mediaString

/-! ## `encoding/xml` encoder, on a section -/

/-- Go `strconv.formatBits` in base 10: the decimal digits of `u` in front of `a`, most
significant first.  (Go produces two digits per round; the digits are the same.) -/
def formatBits : Nat → Nat → List Char → List Char
  | 0, _, a => a
  | fuel + 1, u, a =>
    if u < 10 then Char.ofNat (48 + u) :: a
    else formatBits fuel (u / 10) (Char.ofNat (48 + u % 10) :: a)

/-- Go `strconv.Itoa`: a 64-bit value has at most 20 digits. -/
def Itoa (i : Int) : String :=
  if i < 0 then ⟨'-' :: formatBits 20 i.natAbs []⟩ else ⟨formatBits 20 i.natAbs []⟩

/-- Go `isInCharacterRange` of `encoding/xml`: the characters XML allows. -/
def isInCharacterRange (r : Char) : Bool :=
  decide (r.toNat = 0x09) || decide (r.toNat = 0x0A) || decide (r.toNat = 0x0D) ||
  (decide (0x20 ≤ r.toNat) && decide (r.toNat ≤ 0xD7FF)) ||
  (decide (0xE000 ≤ r.toNat) && decide (r.toNat ≤ 0xFFFD)) ||
  (decide (0x10000 ≤ r.toNat) && decide (r.toNat ≤ 0x10FFFF))

/-- The attribute value the tokenizer reads back from what the encoder's `EscapeString`
writes for `s`: `EscapeString` writes both quote characters, `&`, `<`, `>`, tab, newline
and carriage return as references, which the tokenizer resolves to the same characters,
writes U+FFFD for every character outside the XML character range, and copies the rest. -/
def attrText (s : String) : String :=
  ⟨s.data.map (fun c => if isInCharacterRange c then c else Char.ofNat 0xFFFD)⟩

/-- A text made of characters XML allows. -/
def validText (s : String) : Prop := ∀ c ∈ s.data, isInCharacterRange c = true

instance (s : String) : Decidable (validText s) := by
  unfold validText; exact inferInstance

/-- The attributes the encoder writes for a `PgSz`, as the tokenizer reads them: one per
field, in field order, named by the field's annotation. -/
def PgSz.attrs (v : PgSz) : List Attr :=
  [⟨⟨"w", "w"⟩, attrText (Itoa v.W)⟩, ⟨⟨"w", "h"⟩, attrText (Itoa v.H)⟩]

/-- The attributes the encoder writes for a `HeaderReference`. -/
def HeaderReference.attrs (v : HeaderReference) : List Attr :=
  [⟨⟨"r", "id"⟩, attrText v.Id⟩, ⟨⟨"w", "type"⟩, attrText v.Type_⟩]

/-- The attributes the encoder writes for a `FooterReference`. -/
def FooterReference.attrs (v : FooterReference) : List Attr :=
  [⟨⟨"r", "id"⟩, attrText v.Id⟩, ⟨⟨"w", "type"⟩, attrText v.Type_⟩]

/-- The attributes the encoder writes for a `Type`. -/
def SectType.attrs (v : SectType) : List Attr :=
  [⟨⟨"w", "val"⟩, attrText v.Val⟩]

/-- The attributes the encoder writes for a `PgMar`. -/
def PgMar.attrs (v : PgMar) : List Attr :=
  [⟨⟨"w", "top"⟩, attrText v.Top⟩, ⟨⟨"w", "right"⟩, attrText v.Right⟩,
   ⟨⟨"w", "bottom"⟩, attrText v.Bottom⟩, ⟨⟨"w", "left"⟩, attrText v.Left⟩,
   ⟨⟨"w", "header"⟩, attrText v.Header⟩, ⟨⟨"w", "footer"⟩, attrText v.Footer⟩,
   ⟨⟨"w", "gutter"⟩, attrText v.Gutter⟩]

/-- The attributes the encoder writes for a `Cols`. -/
def Cols.attrs (v : Cols) : List Attr :=
  [⟨⟨"w", "space"⟩, attrText v.Space⟩, ⟨⟨"w", "num"⟩, attrText v.Num⟩]

/-- The attributes the encoder writes for a `DocGrid`. -/
def DocGrid.attrs (v : DocGrid) : List Attr :=
  [⟨⟨"w", "linePitch"⟩, attrText v.LinePitch⟩, ⟨⟨"w", "charSpace"⟩, attrText v.CharSpace⟩]

/-- The element the encoder writes for a pointer field with `omitempty`: nothing for a nil
pointer, otherwise an element without content, followed by `next`. -/
def optElement {α : Type} (name : Name) (attrs : α → List Attr) (v : Option α) (next : Forest) :
    Forest :=
  match v with
  | none => next
  | some x => Forest.element name (attrs x) Forest.nil next

/-- The content the encoder writes for a `SectPr`: its present children in field order. -/
def SectPr.content (sect : SectPr) : Forest :=
  optElement ⟨"w", "pgSz"⟩ PgSz.attrs sect.PgSz <|
  optElement ⟨"w", "headerReference"⟩ HeaderReference.attrs sect.HeaderReference <|
  optElement ⟨"w", "footerReference"⟩ FooterReference.attrs sect.FooterReference <|
  optElement ⟨"w", "type"⟩ SectType.attrs sect.Type_ <|
  optElement ⟨"w", "pgMar"⟩ PgMar.attrs sect.PgMar <|
  optElement ⟨"w", "cols"⟩ Cols.attrs sect.Cols <|
  optElement ⟨"w", "docGrid"⟩ DocGrid.attrs sect.DocGrid Forest.nil

/-- Go `xml.Marshal(sect)`, as the tokens the decoder's tokenizer reads from its output.  The
element is named by the annotation of `XMLName` (`w:sectPr`, whatever the field holds) and
has no attributes. -/
def Marshal (sect : SectPr) : List Token :=
  Token.StartElement ⟨⟨"w", "sectPr"⟩, []⟩ ::
    (sect.content.tokens ++ [Token.EndElement ⟨"w", "sectPr"⟩])

/-- A `PgSz` of Go: both dimensions are values of `int`. -/
def PgSz.valid (v : PgSz) : Prop := IsInt v.W ∧ IsInt v.H

instance (v : PgSz) : Decidable v.valid := by
  unfold PgSz.valid; exact inferInstance

/-- A `HeaderReference` whose texts are made of characters XML allows. -/
def HeaderReference.valid (v : HeaderReference) : Prop := validText v.Id ∧ validText v.Type_

instance (v : HeaderReference) : Decidable v.valid := by
  unfold HeaderReference.valid; exact inferInstance

/-- A `FooterReference` whose texts are made of characters XML allows. -/
def FooterReference.valid (v : FooterReference) : Prop := validText v.Id ∧ validText v.Type_

instance (v : FooterReference) : Decidable v.valid := by
  unfold FooterReference.valid; exact inferInstance

/-- A `Type` whose text is made of characters XML allows. -/
def SectType.valid (v : SectType) : Prop := validText v.Val

instance (v : SectType) : Decidable v.valid := by
  unfold SectType.valid; exact inferInstance

/-- A `PgMar` whose texts are made of characters XML allows. -/
def PgMar.valid (v : PgMar) : Prop :=
  validText v.Top ∧ validText v.Right ∧ validText v.Bottom ∧ validText v.Left ∧
  validText v.Header ∧ validText v.Footer ∧ validText v.Gutter

instance (v : PgMar) : Decidable v.valid := by
  unfold PgMar.valid; exact inferInstance

/-- A `Cols` whose texts are made of characters XML allows. -/
def Cols.valid (v : Cols) : Prop := validText v.Space ∧ validText v.Num

instance (v : Cols) : Decidable v.valid := by
  unfold Cols.valid; exact inferInstance

/-- A `DocGrid` whose texts are made of characters XML allows. -/
def DocGrid.valid (v : DocGrid) : Prop := validText v.LinePitch ∧ validText v.CharSpace

instance (v : DocGrid) : Decidable v.valid := by
  unfold DocGrid.valid; exact inferInstance

/-- The content made of tokens that are no elements. -/
def Forest.ofMisc : List Misc → Forest
  | [] => Forest.nil
  | m :: rest => Forest.misc m (Forest.ofMisc rest)

/-- The local name and the value of each attribute, in order: what is left of an attribute
list when the namespace prefixes are dropped. -/
def localAttrs (attrs : List Attr) : List (String × String) :=
  attrs.map (fun a => (a.Name.Local, a.Value))

/-- The bytes a source delivers when it is copied without error: the content of a file, the
XML header followed by the encoding for a `marshaller`, the bytes of a `bytes.Reader`. -/
def Reader.bytes : Reader → Bytes
  | Reader.file f => f.data
  | Reader.marshaller m => xmlHeader ++ m.xml
  | Reader.bytesReader b => b

/-- The file system and path `pack` opens a template part name in: the embedded
`TemplateXMLFS` under `xml/<template>/` when the document has a template, the document's own
`tmplfs` otherwise. -/
def Docx.source (TemplateXMLFS : FS) (f : Docx) (name : String) : Except GoError File :=
  if f.template ≠ "" then TemplateXMLFS ("xml/" ++ f.template ++ "/" ++ name)
  else f.tmplfs name

/-- The bindings `pack` makes, in the order it makes them: each template part name to its
opened file, the two generated parts to their marshallers, each media item at its derived
path to its bytes. -/
def Docx.bindings (TemplateXMLFS : FS) (mediaString : Media → String) (f : Docx) :
    List (String × Reader) :=
  f.tmpfslst.filterMap (fun name =>
    match Docx.source TemplateXMLFS f name with
    | .ok file => some (name, Reader.file file)
    | .error _ => none) ++
  [("word/_rels/document.xml.rels", Reader.marshaller f.docRelation),
   ("word/document.xml", Reader.marshaller f.Document)] ++
  f.media.map (fun m => (mediaString m, Reader.bytesReader m.Data))

/-- The map `files` of `pack` when its last loop starts, or the error of the first template
part that cannot be opened. -/
def Docx.files (TemplateXMLFS : FS) (mediaString : Media → String) (f : Docx) :
    Except GoError Files :=
  let opened :=
    if f.template ≠ "" then
      openParts TemplateXMLFS (fun name => "xml/" ++ f.template ++ "/" ++ name) f.tmpfslst []
    else
      openParts f.tmplfs (fun name => name) f.tmpfslst []
  match opened with
  | .error err => .error err
  | .ok files =>
    let files := Files.set files "word/_rels/document.xml.rels" (Reader.marshaller f.docRelation)
    let files := Files.set files "word/document.xml" (Reader.marshaller f.Document)
    .ok (f.media.foldl
      (fun files m => Files.set files (mediaString m) (Reader.bytesReader m.Data)) files)

/-! # Properties -/

theorem popElement_input (d : Decoder) (n : Name) : (d.popElement n).2.input = d.input := by
  unfold Decoder.popElement
  split
  · rfl
  · rfl
  · split_ifs <;> rfl

theorem rawToken_ok (d d' : Decoder) (t : Token) (h : d.rawToken = (.ok t, d')) :
    d.input = t :: d'.input := by
  unfold Decoder.rawToken at h
  split at h
  · simp at h
  · split at h
    · simp at h
    · rename_i heq
      simp only [Prod.mk.injEq, Except.ok.injEq] at h
      obtain ⟨rfl, rfl⟩ := h
      exact heq

theorem rawToken_input_le (d : Decoder) : (d.rawToken).2.input.length ≤ d.input.length := by
  unfold Decoder.rawToken
  split
  · simp
  · split <;> simp_all

theorem Token_ok_input (d d' : Decoder) (t : Token) (h : d.Token = (.ok t, d')) :
    d'.input.length + 1 = d.input.length := by
  unfold Decoder.Token at h
  split at h
  · simp at h
  · split at h
    · split_ifs at h <;> simp at h
    · rename_i heq
      simp only [Prod.mk.injEq, Except.ok.injEq] at h
      obtain ⟨_, rfl⟩ := h
      rw [rawToken_ok _ _ _ heq]; simp [Decoder.pushElement]
    · rename_i name d1 heq
      have hp := popElement_input d1 name
      split at h
      · simp at h
      · rename_i heq2
        simp only [Prod.mk.injEq, Except.ok.injEq] at h
        obtain ⟨_, rfl⟩ := h
        rw [heq2] at hp
        rw [rawToken_ok _ _ _ heq]; simp at hp; simp [hp]
    · rename_i heq
      simp only [Prod.mk.injEq, Except.ok.injEq] at h
      obtain ⟨_, rfl⟩ := h
      rw [rawToken_ok _ _ _ heq]; simp

theorem Token_input_le (d : Decoder) : (d.Token).2.input.length ≤ d.input.length := by
  cases h : d.Token with
  | mk r d' =>
    cases r with
    | ok t => have := Token_ok_input d d' t h; simp; omega
    | error e =>
      simp only
      unfold Decoder.Token at h
      split at h
      · simp at h; rw [← h.2]
      · have hr := rawToken_input_le d
        split at h
        · rename_i heq
          rw [heq] at hr
          split_ifs at h <;> simp at h <;> rw [← h.2] <;> exact hr
        · simp at h
        · rename_i name d1 heq
          rw [heq] at hr
          have hp := popElement_input d1 name
          split at h
          · rename_i heq2
            rw [heq2] at hp
            simp at h; rw [← h.2]; simp at hp hr; rw [hp]; exact hr
          · simp at h
        · simp at h

/-! ### `Token` on a decoder inside an open element -/

theorem Token_start (t : StartElement) (rest : List Token) (ie : GoError) (n : Name)
    (s : List Stack) (ln : Nat) :
    Decoder.Token ⟨Token.StartElement t :: rest, ie, Stack.stkStart n :: s, none, ln⟩ =
      (.ok (Token.StartElement t), ⟨rest, ie, Stack.stkStart t.Name :: Stack.stkStart n :: s, none, ln⟩) := by
  simp [Decoder.Token, Decoder.rawToken, Decoder.pushElement]

theorem Token_start_nil (t : StartElement) (rest : List Token) (ie : GoError) (ln : Nat) :
    Decoder.Token ⟨Token.StartElement t :: rest, ie, [], none, ln⟩ =
      (.ok (Token.StartElement t), ⟨rest, ie, [Stack.stkStart t.Name], none, ln⟩) := by
  simp [Decoder.Token, Decoder.rawToken, Decoder.pushElement]

theorem Token_end (rest : List Token) (ie : GoError) (n : Name) (s : List Stack) (ln : Nat) :
    Decoder.Token ⟨Token.EndElement n :: rest, ie, Stack.stkStart n :: s, none, ln⟩ =
      (.ok (Token.EndElement n), ⟨rest, ie, s, none, ln⟩) := by
  simp [Decoder.Token, Decoder.rawToken, Decoder.popElement]

theorem Token_misc (m : Misc) (rest : List Token) (ie : GoError) (n : Name) (s : List Stack)
    (ln : Nat) :
    Decoder.Token ⟨m.token :: rest, ie, Stack.stkStart n :: s, none, ln⟩ =
      (.ok m.token, ⟨rest, ie, Stack.stkStart n :: s, none, ln⟩) := by
  cases m <;> simp [Decoder.Token, Decoder.rawToken, Misc.token]

theorem Token_stkEOF (d : Decoder) (s : List Stack) (h : d.stk = Stack.stkEOF :: s) :
    d.Token = (.error GoError.EOF, d) := by
  unfold Decoder.Token; rw [h]

/-! ### `Skip` -/

theorem SkipLoop_total (fuel : Nat) : ∀ (depth : Nat) (d : Decoder), d.input.length < fuel →
    ∃ r, Decoder.SkipLoop fuel depth d = some r ∧ r.2.input.length ≤ d.input.length := by
  induction fuel with
  | zero => intro _ d h; omega
  | succ fuel ih =>
    intro depth d h
    unfold Decoder.SkipLoop
    have hle := Token_input_le d
    cases hT : d.Token with
    | mk r d' =>
      rw [hT] at hle
      cases r with
      | error e => exact ⟨_, rfl, hle⟩
      | ok t =>
        have hlt := Token_ok_input d d' t hT
        cases t with
        | StartElement t1 =>
          obtain ⟨r, hr, hr2⟩ := ih (depth + 1) d' (by omega)
          exact ⟨r, hr, by omega⟩
        | EndElement nm =>
          simp only
          split_ifs
          · exact ⟨_, rfl, hle⟩
          · obtain ⟨r, hr, hr2⟩ := ih (depth - 1) d' (by omega)
            exact ⟨r, hr, by omega⟩
        | CharData _ =>
          obtain ⟨r, hr, hr2⟩ := ih depth d' (by omega)
          exact ⟨r, hr, by omega⟩
        | Comment _ =>
          obtain ⟨r, hr, hr2⟩ := ih depth d' (by omega)
          exact ⟨r, hr, by omega⟩
        | ProcInst _ _ =>
          obtain ⟨r, hr, hr2⟩ := ih depth d' (by omega)
          exact ⟨r, hr, by omega⟩
        | Directive _ =>
          obtain ⟨r, hr, hr2⟩ := ih depth d' (by omega)
          exact ⟨r, hr, by omega⟩

theorem Skip_total (d : Decoder) :
    ∃ r, d.Skip = some r ∧ r.2.input.length ≤ d.input.length :=
  SkipLoop_total _ 0 d (Nat.lt_succ_self _)

theorem SkipLoop_forest (c : Forest) : ∀ (k depth : Nat) (X : List Token) (ie : GoError)
    (n : Name) (s : List Stack) (ln : Nat),
    Decoder.SkipLoop (c.tokens.length + k) depth ⟨c.tokens ++ X, ie, Stack.stkStart n :: s, none, ln⟩ =
      Decoder.SkipLoop k depth ⟨X, ie, Stack.stkStart n :: s, none, ln⟩ := by
  induction c with
  | nil => intro k depth X ie n s ln; simp [Forest.tokens]
  | element name attr content next ihc ihn =>
    intro k depth X ie n s ln
    have e1 : (Forest.element name attr content next).tokens.length + k =
        (content.tokens.length + (1 + (next.tokens.length + k))) + 1 := by
      simp [Forest.tokens]; omega
    have e2 : (Forest.element name attr content next).tokens ++ X =
        Token.StartElement ⟨name, attr⟩ ::
          (content.tokens ++ (Token.EndElement name :: (next.tokens ++ X))) := by
      simp [Forest.tokens]
    rw [e1, e2, Decoder.SkipLoop, Token_start]
    simp only
    rw [ihc, Nat.add_comm 1, Decoder.SkipLoop, Token_end]
    simp only [Nat.add_sub_cancel, Nat.succ_ne_zero, if_false]
    exact ihn k depth X ie n s ln
  | misc m next ihn =>
    intro k depth X ie n s ln
    have e1 : (Forest.misc m next).tokens.length + k = (next.tokens.length + k) + 1 := by
      simp [Forest.tokens]; omega
    have e2 : (Forest.misc m next).tokens ++ X = m.token :: (next.tokens ++ X) := by
      simp [Forest.tokens]
    rw [e1, e2, Decoder.SkipLoop, Token_misc]
    cases m <;> simp only [Misc.token] <;> exact ihn k depth X ie n s ln

theorem Skip_forest (c : Forest) (X : List Token) (ie : GoError) (n : Name) (s : List Stack)
    (ln : Nat) :
    Decoder.Skip ⟨c.tokens ++ Token.EndElement n :: X, ie, Stack.stkStart n :: s, none, ln⟩ =
      some (none, ⟨X, ie, s, none, ln⟩) := by
  unfold Decoder.Skip
  have e : (⟨c.tokens ++ Token.EndElement n :: X, ie, Stack.stkStart n :: s, none, ln⟩ :
      Decoder).input.length + 1 = c.tokens.length + (X.length + 1 + 1) := by
    simp; omega
  rw [e, SkipLoop_forest, Decoder.SkipLoop, Token_end]
  simp

/-! ### Fuel of the section decoder -/

theorem popEOF_input (d : Decoder) : (d.popEOF).2.input = d.input := by
  unfold Decoder.popEOF; split <;> rfl

theorem unmarshalDone_input {α : Type} (rt : String) (start : StartElement)
    (r : α × Decoder × Option GoError) :
    (Decoder.unmarshalDone rt start r).2.1.input = r.2.1.input := by
  obtain ⟨v, d, e⟩ := r
  cases e with
  | some e => simp [Decoder.unmarshalDone, popEOF_input]
  | none =>
    have := popEOF_input d
    simp only [Decoder.unmarshalDone]
    split <;> rename_i heq <;> rw [heq] at this <;> simpa using this

theorem consumeToken_input_le {α : Type} (v : α) (d : Decoder) :
    (consumeToken v d).2.1.input.length ≤ d.input.length := by
  have := Token_input_le d
  unfold consumeToken
  split <;> rename_i heq <;> rw [heq] at this <;> simpa using this

theorem PgSz_UnmarshalXML_input_le (v : PgSz) (d : Decoder) (start : StartElement) :
    (PgSz.UnmarshalXML v d start).2.1.input.length ≤ d.input.length := by
  unfold PgSz.UnmarshalXML
  split
  · simp
  · exact consumeToken_input_le _ d

theorem DecodeElement_input_le {α : Type}
    (U : α → Decoder → StartElement → α × Decoder × Option GoError)
    (hU : ∀ v d s, (U v d s).2.1.input.length ≤ d.input.length)
    (rt : String) (v : α) (d : Decoder) (tt : StartElement) :
    (d.DecodeElement U rt v tt).2.1.input.length ≤ d.input.length := by
  unfold Decoder.DecodeElement Decoder.unmarshalInterface
  rw [unmarshalDone_input]
  exact hU v d.pushEOF tt

theorem afterChild_total {α : Type} (sect : SectPr) (store : α → SectPr)
    (r : α × Decoder × Option GoError) (n : Nat) (h : r.2.1.input.length ≤ n) :
    ∃ q, afterChild sect store r = some q ∧ q.2.1.input.length ≤ n := by
  unfold afterChild
  split_ifs <;> exact ⟨_, rfl, h⟩

theorem dispatch_total (sect : SectPr) (d : Decoder) (tt : StartElement) :
    ∃ r, SectPr.dispatch sect d tt = some r ∧ r.2.1.input.length ≤ d.input.length := by
  unfold SectPr.dispatch
  split_ifs
  · exact afterChild_total _ _ _ _
      (DecodeElement_input_le PgSz.UnmarshalXML PgSz_UnmarshalXML_input_le _ _ d tt)
  · exact afterChild_total _ _ _ _
      (DecodeElement_input_le HeaderReference.UnmarshalXML
        (fun v d s => consumeToken_input_le _ d) _ _ d tt)
  · exact afterChild_total _ _ _ _
      (DecodeElement_input_le FooterReference.UnmarshalXML
        (fun v d s => consumeToken_input_le _ d) _ _ d tt)
  · exact afterChild_total _ _ _ _
      (DecodeElement_input_le SectType.UnmarshalXML
        (fun v d s => consumeToken_input_le _ d) _ _ d tt)
  · exact afterChild_total _ _ _ _
      (DecodeElement_input_le PgMar.UnmarshalXML
        (fun v d s => consumeToken_input_le _ d) _ _ d tt)
  · exact afterChild_total _ _ _ _
      (DecodeElement_input_le Cols.UnmarshalXML
        (fun v d s => consumeToken_input_le _ d) _ _ d tt)
  · exact afterChild_total _ _ _ _
      (DecodeElement_input_le DocGrid.UnmarshalXML
        (fun v d s => consumeToken_input_le _ d) _ _ d tt)
  · obtain ⟨⟨e, d'⟩, hr, hle⟩ := Skip_total d
    rw [hr]
    cases e <;> exact ⟨_, rfl, hle⟩

theorem UnmarshalXMLLoop_mono (fuel : Nat) : ∀ (sect : SectPr) (d : Decoder)
    (r : SectPr × Decoder × Option GoError),
    SectPr.UnmarshalXMLLoop fuel sect d = some r →
    SectPr.UnmarshalXMLLoop (fuel + 1) sect d = some r := by
  induction fuel with
  | zero => intro sect d r h; simp [SectPr.UnmarshalXMLLoop] at h
  | succ fuel ih =>
    intro sect d r h
    rw [SectPr.UnmarshalXMLLoop] at h
    rw [SectPr.UnmarshalXMLLoop]
    split at h
    · exact h
    · split at h
      · simp at h
      · exact h
      · exact ih _ _ _ h
    · exact ih _ _ _ h

theorem UnmarshalXMLLoop_mono_le (fuel fuel' : Nat) (hle : fuel ≤ fuel') (sect : SectPr)
    (d : Decoder) (r : SectPr × Decoder × Option GoError)
    (h : SectPr.UnmarshalXMLLoop fuel sect d = some r) :
    SectPr.UnmarshalXMLLoop fuel' sect d = some r := by
  induction hle with
  | refl => exact h
  | step _ ih => exact UnmarshalXMLLoop_mono _ _ _ _ ih

theorem UnmarshalXMLLoop_total (fuel : Nat) : ∀ (sect : SectPr) (d : Decoder),
    d.input.length < fuel → ∃ r, SectPr.UnmarshalXMLLoop fuel sect d = some r := by
  induction fuel with
  | zero => intro _ d h; omega
  | succ fuel ih =>
    intro sect d h
    rw [SectPr.UnmarshalXMLLoop]
    cases hT : d.Token with
    | mk r d' =>
      cases r with
      | error e => simp only; split_ifs <;> exact ⟨_, rfl⟩
      | ok t =>
        have hlt := Token_ok_input d d' t hT
        cases t with
        | StartElement tt =>
          simp only
          obtain ⟨⟨s1, d1, e1⟩, hr, hle⟩ := dispatch_total sect d' tt
          rw [hr]
          cases e1 with
          | some e => exact ⟨_, rfl⟩
          | none => exact ih s1 d1 (by simp at hle; omega)
        | EndElement _ => exact ih sect d' (by omega)
        | CharData _ => exact ih sect d' (by omega)
        | Comment _ => exact ih sect d' (by omega)
        | ProcInst _ _ => exact ih sect d' (by omega)
        | Directive _ => exact ih sect d' (by omega)

/-- Totality: `SectPr.UnmarshalXML` always returns, the fuel it starts with is never used
up. -/
theorem UnmarshalXML_total (sect : SectPr) (d : Decoder) (start : StartElement) :
    ∃ r, SectPr.UnmarshalXML sect d start = some r :=
  UnmarshalXMLLoop_total _ sect d (Nat.lt_succ_self _)

theorem UnmarshalXMLLoop_eq (fuel : Nat) (sect : SectPr) (d : Decoder) (start : StartElement)
    (h : d.input.length < fuel) :
    SectPr.UnmarshalXMLLoop fuel sect d = SectPr.UnmarshalXML sect d start := by
  obtain ⟨r, hr⟩ := UnmarshalXML_total sect d start
  rw [hr]
  exact UnmarshalXMLLoop_mono_le _ _ h sect d r hr

/-- The loop of `SectPr.UnmarshalXML`, one round unfolded. -/
theorem UnmarshalXML_unfold (sect : SectPr) (d : Decoder) (start : StartElement) :
    SectPr.UnmarshalXML sect d start =
      match d.Token with
      | (.error err, d) =>
        if err = GoError.EOF then some (sect, d, none) else some (sect, d, some err)
      | (.ok (Token.StartElement tt), d) =>
        match SectPr.dispatch sect d tt with
        | none => none
        | some (sect, d, some err) => some (sect, d, some err)
        | some (sect, d, none) => SectPr.UnmarshalXML sect d start
      | (.ok _, d) => SectPr.UnmarshalXML sect d start := by
  conv_lhs => rw [SectPr.UnmarshalXML, SectPr.UnmarshalXMLLoop]
  cases hT : d.Token with
  | mk r d' =>
    cases r with
    | error e => rfl
    | ok t =>
      have hlt := Token_ok_input d d' t hT
      cases t with
      | StartElement tt =>
        simp only
        obtain ⟨⟨s1, d1, e1⟩, hr, hle⟩ := dispatch_total sect d' tt
        rw [hr]
        cases e1 with
        | some e => rfl
        | none => exact UnmarshalXMLLoop_eq _ _ _ _ (by simp at hle; omega)
      | EndElement _ => exact UnmarshalXMLLoop_eq _ _ _ _ (by omega)
      | CharData _ => exact UnmarshalXMLLoop_eq _ _ _ _ (by omega)
      | Comment _ => exact UnmarshalXMLLoop_eq _ _ _ _ (by omega)
      | ProcInst _ _ => exact UnmarshalXMLLoop_eq _ _ _ _ (by omega)
      | Directive _ => exact UnmarshalXMLLoop_eq _ _ _ _ (by omega)

/-! ### One child of the section -/

theorem fatal_didNotConsume (rt loc : String) :
    fatal (some (GoError.ErrorString ("xml: " ++ rt ++
      ".UnmarshalXML did not consume entire <" ++ loc ++ "> element"))) = true := by
  simp [fatal, HasPrefix, GoError.Error, String.data_append, List.isPrefixOf]

theorem Atoi_error (s : String) (n : Int) (e : GoError) (h : Atoi s = (n, some e)) :
    ∃ msg, e = GoError.NumError "Atoi" s msg := by
  unfold Atoi at h
  split at h
  · simp at h; exact ⟨_, h.2.symm⟩
  · simp only at h
    split at h
    · simp at h; exact ⟨_, h.2.symm⟩
    · split_ifs at h <;> simp at h <;> exact ⟨_, h.2.symm⟩

theorem fatal_NumError (fn num msg : String) :
    fatal (some (GoError.NumError fn num msg)) = true := by
  simp [fatal, HasPrefix, GoError.Error, String.data_append, List.isPrefixOf]

theorem attrLoop_error (attrs : List Attr) : ∀ (v v' : PgSz) (e : GoError),
    PgSz.attrLoop v attrs = (v', some e) → fatal (some e) = true := by
  induction attrs with
  | nil => intro v v' e h; simp [PgSz.attrLoop] at h
  | cons a rest ih =>
    intro v v' e h
    rw [PgSz.attrLoop] at h
    split_ifs at h
    · split at h
      · rename_i heq
        simp at h
        obtain ⟨msg, hm⟩ := Atoi_error _ _ _ heq
        rw [← h.2, hm]; exact fatal_NumError _ _ _
      · exact ih _ _ _ h
    · split at h
      · rename_i heq
        simp at h
        obtain ⟨msg, hm⟩ := Atoi_error _ _ _ heq
        rw [← h.2, hm]; exact fatal_NumError _ _ _
      · exact ih _ _ _ h
    · exact ih _ _ _ h

theorem consumeToken_end {α : Type} (v : α) (X : List Token) (ie : GoError) (name : Name)
    (s : List Stack) (ln : Nat) :
    consumeToken v ⟨Token.EndElement name :: X, ie, Stack.stkStart name :: s, none, ln⟩ =
      (v, ⟨X, ie, s, none, ln⟩, none) := by
  simp [consumeToken, Token_end]

theorem DecodeElement_empty {α : Type}
    (U : α → Decoder → StartElement → α × Decoder × Option GoError) (f : α → List Attr → α)
    (hU : ∀ v d s, U v d s = consumeToken (f v s.Attr) d)
    (rt : String) (v : α) (X : List Token) (ie : GoError) (name n : Name) (attr : List Attr)
    (s : List Stack) (ln : Nat) :
    Decoder.DecodeElement U rt v
        ⟨Token.EndElement name :: X, ie, Stack.stkStart name :: Stack.stkStart n :: s, none, ln⟩
        ⟨name, attr⟩ =
      (f v attr, ⟨X, ie, Stack.stkStart n :: s, none, ln⟩, none) := by
  simp [Decoder.DecodeElement, Decoder.unmarshalInterface, hU, Decoder.pushEOF, pushEOFStack,
    consumeToken_end, Decoder.unmarshalDone, Decoder.popEOF]

theorem consumeToken_content {α : Type} (v : α) (name : Name) (c : Forest) (hc : c ≠ Forest.nil)
    (X : List Token) (ie : GoError) (s : List Stack) (ln : Nat) :
    ∃ d', consumeToken v ⟨c.tokens ++ X, ie, Stack.stkStart name :: Stack.stkEOF :: s, none, ln⟩ =
        (v, d', none) ∧ d'.popEOF = (false, d') := by
  cases c with
  | nil => exact absurd rfl hc
  | element nm at_ c nx =>
    simp only [Forest.tokens, List.cons_append, consumeToken, Token_start]
    exact ⟨_, rfl, rfl⟩
  | misc m nx =>
    simp only [Forest.tokens, List.cons_append, consumeToken, Token_misc]
    exact ⟨_, rfl, rfl⟩

theorem DecodeElement_content {α : Type}
    (U : α → Decoder → StartElement → α × Decoder × Option GoError) (f : α → List Attr → α)
    (hU : ∀ v d s, U v d s = consumeToken (f v s.Attr) d)
    (rt : String) (v : α) (c : Forest) (hc : c ≠ Forest.nil) (X : List Token) (ie : GoError)
    (name : Name) (attr : List Attr) (s : List Stack) (ln : Nat) :
    ∃ d', Decoder.DecodeElement U rt v
        ⟨c.tokens ++ X, ie, Stack.stkStart name :: s, none, ln⟩ ⟨name, attr⟩ =
      (f v attr, d', some (GoError.ErrorString ("xml: " ++ rt ++
        ".UnmarshalXML did not consume entire <" ++ name.Local ++ "> element"))) := by
  obtain ⟨d', h1, h2⟩ := consumeToken_content (f v attr) name c hc X ie s ln
  refine ⟨d', ?_⟩
  simp [Decoder.DecodeElement, Decoder.unmarshalInterface, hU, Decoder.pushEOF, pushEOFStack,
    h1, Decoder.unmarshalDone, h2]

theorem afterChild_fatal {α : Type} (sect : SectPr) (store : α → SectPr) (v : α) (d : Decoder)
    (e : GoError) (h : fatal (some e) = true) :
    afterChild sect store (v, d, some e) = some (sect, d, some e) := by
  simp only [afterChild, h, if_true]

theorem afterChild_empty {α : Type}
    (U : α → Decoder → StartElement → α × Decoder × Option GoError) (f : α → List Attr → α)
    (hU : ∀ v d s, U v d s = consumeToken (f v s.Attr) d)
    (rt : String) (v : α) (sect : SectPr) (store : α → SectPr) (X : List Token) (ie : GoError)
    (name n : Name) (attr : List Attr) (s : List Stack) (ln : Nat) :
    afterChild sect store (Decoder.DecodeElement U rt v
        ⟨Forest.nil.tokens ++ Token.EndElement name :: X, ie,
          Stack.stkStart name :: Stack.stkStart n :: s, none, ln⟩ ⟨name, attr⟩) =
      some (store (f v attr), ⟨X, ie, Stack.stkStart n :: s, none, ln⟩, none) := by
  simp only [Forest.tokens, List.nil_append]
  rw [DecodeElement_empty U f hU]
  simp [afterChild, fatal]

theorem afterChild_content {α : Type}
    (U : α → Decoder → StartElement → α × Decoder × Option GoError) (f : α → List Attr → α)
    (hU : ∀ v d s, U v d s = consumeToken (f v s.Attr) d)
    (rt : String) (v : α) (sect : SectPr) (store : α → SectPr) (c : Forest)
    (hc : c ≠ Forest.nil) (X : List Token) (ie : GoError)
    (name : Name) (attr : List Attr) (s : List Stack) (ln : Nat) :
    ∃ s' d' e, afterChild sect store (Decoder.DecodeElement U rt v
        ⟨c.tokens ++ X, ie, Stack.stkStart name :: s, none, ln⟩ ⟨name, attr⟩) =
      some (s', d', some e) := by
  obtain ⟨d', h⟩ := DecodeElement_content U f hU rt v c hc X ie name attr s ln
  rw [h]
  exact ⟨sect, d', _, afterChild_fatal _ _ _ _ _ (fatal_didNotConsume _ _)⟩

theorem afterChild_PgSz (sect : SectPr) (c : Forest) (X : List Token) (ie : GoError)
    (name n : Name) (attr : List Attr) (s : List Stack) (ln : Nat) :
    (∀ value, c = Forest.nil → PgSz.attrLoop {} attr = (value, none) →
      afterChild sect (fun value => { sect with PgSz := some value })
        (Decoder.DecodeElement PgSz.UnmarshalXML "(*docx.PgSz)" {}
          ⟨c.tokens ++ Token.EndElement name :: X, ie,
            Stack.stkStart name :: Stack.stkStart n :: s, none, ln⟩ ⟨name, attr⟩) =
      some ({ sect with PgSz := some value }, ⟨X, ie, Stack.stkStart n :: s, none, ln⟩, none)) ∧
    ((c ≠ Forest.nil ∨ (PgSz.attrLoop {} attr).2 ≠ none) →
      ∃ s' d' e, afterChild sect (fun value => { sect with PgSz := some value })
        (Decoder.DecodeElement PgSz.UnmarshalXML "(*docx.PgSz)" {}
          ⟨c.tokens ++ Token.EndElement name :: X, ie,
            Stack.stkStart name :: Stack.stkStart n :: s, none, ln⟩ ⟨name, attr⟩) =
      some (s', d', some e)) := by
  constructor
  · intro value hc hv
    subst hc
    simp [Decoder.DecodeElement, Decoder.unmarshalInterface, PgSz.UnmarshalXML, hv,
      Decoder.pushEOF, pushEOFStack, Forest.tokens, consumeToken_end, Decoder.unmarshalDone,
      Decoder.popEOF, afterChild, fatal]
  · intro h
    cases hv : PgSz.attrLoop {} attr with
    | mk value oe =>
      cases oe with
      | some e =>
        have hf := attrLoop_error _ _ _ _ hv
        simp only [Decoder.DecodeElement, Decoder.unmarshalInterface, PgSz.UnmarshalXML, hv,
          Decoder.unmarshalDone]
        exact ⟨sect, _, e, afterChild_fatal _ _ _ _ _ hf⟩
      | none =>
        rw [hv] at h
        have hc : c ≠ Forest.nil := by
          rcases h with h | h
          · exact h
          · exact absurd rfl h
        obtain ⟨d', h1, h2⟩ := consumeToken_content value name c hc
          (Token.EndElement name :: X) ie (Stack.stkStart n :: s) ln
        simp only [Decoder.DecodeElement, Decoder.unmarshalInterface, PgSz.UnmarshalXML, hv,
          Decoder.pushEOF, pushEOFStack, h1, Decoder.unmarshalDone, h2]
        exact ⟨sect, d', _, afterChild_fatal _ _ _ _ _ (fatal_didNotConsume _ _)⟩

theorem dispatch_leaf {α : Type}
    (U : α → Decoder → StartElement → α × Decoder × Option GoError) (f : α → List Attr → α)
    (hU : ∀ v d s, U v d s = consumeToken (f v s.Attr) d)
    (rt : String) (v : α) (sect : SectPr) (store : α → SectPr) (c : Forest)
    (X : List Token) (ie : GoError) (name n : Name) (attr : List Attr) (s : List Stack)
    (ln : Nat) :
    (∀ sect', (if c = Forest.nil then some (store (f v attr)) else none) = some sect' →
      afterChild sect store (Decoder.DecodeElement U rt v
        ⟨c.tokens ++ Token.EndElement name :: X, ie,
          Stack.stkStart name :: Stack.stkStart n :: s, none, ln⟩ ⟨name, attr⟩) =
      some (sect', ⟨X, ie, Stack.stkStart n :: s, none, ln⟩, none)) ∧
    ((if c = Forest.nil then some (store (f v attr)) else none) = none →
      ∃ s' d' e, afterChild sect store (Decoder.DecodeElement U rt v
        ⟨c.tokens ++ Token.EndElement name :: X, ie,
          Stack.stkStart name :: Stack.stkStart n :: s, none, ln⟩ ⟨name, attr⟩) =
      some (s', d', some e)) := by
  by_cases hc : c = Forest.nil
  · subst hc
    simp only [if_true]
    constructor
    · intro sect' h
      simp only [Option.some.injEq] at h
      rw [← h]
      exact afterChild_empty U f hU rt v sect store X ie name n attr s ln
    · intro h; simp at h
  · simp only [if_neg hc]
    constructor
    · intro sect' h; simp at h
    · intro _
      exact afterChild_content U f hU rt v sect store _ hc _ ie name attr _ ln

theorem dispatch_child (sect : SectPr) (name n : Name) (attr : List Attr) (c : Forest)
    (X : List Token) (ie : GoError) (s : List Stack) (ln : Nat) :
    (∀ sect', SectPr.child sect name attr c = some sect' →
      SectPr.dispatch sect ⟨c.tokens ++ Token.EndElement name :: X, ie,
          Stack.stkStart name :: Stack.stkStart n :: s, none, ln⟩ ⟨name, attr⟩ =
        some (sect', ⟨X, ie, Stack.stkStart n :: s, none, ln⟩, none)) ∧
    (SectPr.child sect name attr c = none →
      ∃ s' d' e, SectPr.dispatch sect ⟨c.tokens ++ Token.EndElement name :: X, ie,
          Stack.stkStart name :: Stack.stkStart n :: s, none, ln⟩ ⟨name, attr⟩ =
        some (s', d', some e)) := by
  unfold SectPr.dispatch SectPr.child
  by_cases h1 : name.Local = "pgSz"
  · simp only [if_pos h1]
    have h := afterChild_PgSz sect c X ie name n attr s ln
    by_cases hc : c = Forest.nil ∧ (PgSz.attrLoop {} attr).2 = none
    · simp only [if_pos hc]
      constructor
      · intro sect' hs
        simp only [Option.some.injEq] at hs
        rw [← hs]
        exact h.1 _ hc.1 (Prod.ext rfl hc.2)
      · intro hs; simp at hs
    · simp only [if_neg hc]
      constructor
      · intro sect' hs; simp at hs
      · intro _
        apply h.2
        by_cases hn : c = Forest.nil
        · right; exact fun h2 => hc ⟨hn, h2⟩
        · left; exact hn
  simp only [if_neg h1]
  by_cases h2 : name.Local = "headerReference"
  · simp only [if_pos h2]
    exact dispatch_leaf HeaderReference.UnmarshalXML (fun v a => a.foldl HeaderReference.setAttr v)
      (fun _ _ _ => rfl) "(*docx.HeaderReference)" {} sect (fun value => { sect with HeaderReference := some value })
      c X ie name n attr s ln
  simp only [if_neg h2]
  by_cases h3 : name.Local = "footerReference"
  · simp only [if_pos h3]
    exact dispatch_leaf FooterReference.UnmarshalXML (fun v a => a.foldl FooterReference.setAttr v)
      (fun _ _ _ => rfl) "(*docx.FooterReference)" {} sect (fun value => { sect with FooterReference := some value })
      c X ie name n attr s ln
  simp only [if_neg h3]
  by_cases h4 : name.Local = "type"
  · simp only [if_pos h4]
    exact dispatch_leaf SectType.UnmarshalXML (fun v a => a.foldl SectType.setAttr v)
      (fun _ _ _ => rfl) "(*docx.Type)" {} sect (fun value => { sect with Type_ := some value })
      c X ie name n attr s ln
  simp only [if_neg h4]
  by_cases h5 : name.Local = "pgMar"
  · simp only [if_pos h5]
    exact dispatch_leaf PgMar.UnmarshalXML (fun v a => a.foldl PgMar.setAttr v)
      (fun _ _ _ => rfl) "(*docx.PgMar)" {} sect (fun value => { sect with PgMar := some value })
      c X ie name n attr s ln
  simp only [if_neg h5]
  by_cases h6 : name.Local = "cols"
  · simp only [if_pos h6]
    exact dispatch_leaf Cols.UnmarshalXML (fun v a => a.foldl Cols.setAttr v)
      (fun _ _ _ => rfl) "(*docx.Cols)" {} sect (fun value => { sect with Cols := some value })
      c X ie name n attr s ln
  simp only [if_neg h6]
  by_cases h7 : name.Local = "docGrid"
  · simp only [if_pos h7]
    exact dispatch_leaf DocGrid.UnmarshalXML (fun v a => a.foldl DocGrid.setAttr v)
      (fun _ _ _ => rfl) "(*docx.DocGrid)" {} sect (fun value => { sect with DocGrid := some value })
      c X ie name n attr s ln
  simp only [if_neg h7]
  rw [Skip_forest]
  simp

/-! ### The section decoder on well-formed content -/

theorem tokens_append (F G : Forest) : (F.append G).tokens = F.tokens ++ G.tokens := by
  induction F with
  | nil => simp [Forest.append, Forest.tokens]
  | element name attr c nx _ ih => simp [Forest.append, Forest.tokens, ih]
  | misc m nx ih => simp [Forest.append, Forest.tokens, ih]

theorem UnmarshalXML_misc (sect : SectPr) (m : Misc) (X : List Token) (ie : GoError) (n : Name)
    (s : List Stack) (ln : Nat) (st : StartElement) :
    SectPr.UnmarshalXML sect ⟨m.token :: X, ie, Stack.stkStart n :: s, none, ln⟩ st =
      SectPr.UnmarshalXML sect ⟨X, ie, Stack.stkStart n :: s, none, ln⟩ st := by
  rw [UnmarshalXML_unfold, Token_misc]
  cases m <;> rfl

theorem UnmarshalXML_element (sect : SectPr) (name : Name) (attr : List Attr) (c : Forest)
    (X : List Token) (ie : GoError) (n : Name) (s : List Stack) (ln : Nat) (st : StartElement) :
    (∀ sect', SectPr.child sect name attr c = some sect' →
      SectPr.UnmarshalXML sect ⟨Token.StartElement ⟨name, attr⟩ ::
          (c.tokens ++ Token.EndElement name :: X), ie, Stack.stkStart n :: s, none, ln⟩ st =
        SectPr.UnmarshalXML sect' ⟨X, ie, Stack.stkStart n :: s, none, ln⟩ st) ∧
    (SectPr.child sect name attr c = none →
      ∃ s' d' e, SectPr.UnmarshalXML sect ⟨Token.StartElement ⟨name, attr⟩ ::
          (c.tokens ++ Token.EndElement name :: X), ie, Stack.stkStart n :: s, none, ln⟩ st =
        some (s', d', some e)) := by
  have h := dispatch_child sect name n attr c X ie s ln
  constructor
  · intro sect' hs
    rw [UnmarshalXML_unfold, Token_start]
    simp only
    rw [h.1 sect' hs]
  · intro hs
    obtain ⟨s', d', e, he⟩ := h.2 hs
    refine ⟨s', d', e, ?_⟩
    rw [UnmarshalXML_unfold, Token_start]
    simp only
    rw [he]

theorem UnmarshalXML_children (F : Forest) : ∀ (sect : SectPr) (X : List Token) (ie : GoError)
    (n : Name) (s : List Stack) (ln : Nat) (st : StartElement),
    (∀ sect', SectPr.children sect F = some sect' →
      SectPr.UnmarshalXML sect ⟨F.tokens ++ X, ie, Stack.stkStart n :: s, none, ln⟩ st =
        SectPr.UnmarshalXML sect' ⟨X, ie, Stack.stkStart n :: s, none, ln⟩ st) ∧
    (SectPr.children sect F = none →
      ∃ s' d' e, SectPr.UnmarshalXML sect ⟨F.tokens ++ X, ie, Stack.stkStart n :: s, none, ln⟩ st =
        some (s', d', some e)) := by
  induction F with
  | nil =>
    intro sect X ie n s ln st
    constructor
    · intro sect' h
      simp only [SectPr.children, Option.some.injEq] at h
      subst h
      simp [Forest.tokens]
    · intro h; simp [SectPr.children] at h
  | element name attr c nx _ ih =>
    intro sect X ie n s ln st
    have e2 : (Forest.element name attr c nx).tokens ++ X =
        Token.StartElement ⟨name, attr⟩ ::
          (c.tokens ++ (Token.EndElement name :: (nx.tokens ++ X))) := by
      simp [Forest.tokens]
    rw [e2]
    have h := UnmarshalXML_element sect name attr c (nx.tokens ++ X) ie n s ln st
    cases hc : SectPr.child sect name attr c with
    | none =>
      constructor
      · intro sect' hs; simp [SectPr.children, hc] at hs
      · intro _; exact h.2 hc
    | some sect1 =>
      rw [h.1 sect1 hc]
      simp only [SectPr.children, hc]
      exact ih sect1 X ie n s ln st
  | misc m nx ih =>
    intro sect X ie n s ln st
    have e2 : (Forest.misc m nx).tokens ++ X = m.token :: (nx.tokens ++ X) := by
      simp [Forest.tokens]
    rw [e2, UnmarshalXML_misc]
    simp only [SectPr.children]
    exact ih sect X ie n s ln st

theorem UnmarshalXML_end (sect : SectPr) (Y : List Token) (ie : GoError) (n : Name)
    (s : List Stack) (ln : Nat) (st : StartElement) :
    SectPr.UnmarshalXML sect ⟨Token.EndElement n :: Y, ie,
        Stack.stkStart n :: Stack.stkEOF :: s, none, ln⟩ st =
      some (sect, ⟨Y, ie, Stack.stkEOF :: s, none, ln⟩, none) := by
  rw [UnmarshalXML_unfold, Token_end]
  simp only
  rw [UnmarshalXML_unfold, Token_stkEOF _ s rfl]
  simp

/-- On well-formed content up to the end tag of the section element, `SectPr.UnmarshalXML`
succeeds exactly when no child is in error, with the section `SectPr.children` gives. -/
theorem UnmarshalXML_content (F : Forest) (sect : SectPr) (Y : List Token) (ie : GoError)
    (n : Name) (s : List Stack) (ln : Nat) (st : StartElement) :
    (∀ sect', SectPr.children sect F = some sect' →
      SectPr.UnmarshalXML sect ⟨F.tokens ++ Token.EndElement n :: Y, ie,
          Stack.stkStart n :: Stack.stkEOF :: s, none, ln⟩ st =
        some (sect', ⟨Y, ie, Stack.stkEOF :: s, none, ln⟩, none)) ∧
    (SectPr.children sect F = none →
      ∃ s' d' e, SectPr.UnmarshalXML sect ⟨F.tokens ++ Token.EndElement n :: Y, ie,
          Stack.stkStart n :: Stack.stkEOF :: s, none, ln⟩ st = some (s', d', some e)) := by
  have h := UnmarshalXML_children F sect (Token.EndElement n :: Y) ie n (Stack.stkEOF :: s) ln st
  constructor
  · intro sect' hs
    rw [h.1 sect' hs, UnmarshalXML_end]
  · exact h.2

theorem children_of_success (F : Forest) (sect r : SectPr) (d : Decoder) (Y : List Token)
    (ie : GoError) (n : Name) (s : List Stack) (ln : Nat) (st : StartElement)
    (h : SectPr.UnmarshalXML sect ⟨F.tokens ++ Token.EndElement n :: Y, ie,
          Stack.stkStart n :: Stack.stkEOF :: s, none, ln⟩ st = some (r, d, none)) :
    SectPr.children sect F = some r := by
  have hc := UnmarshalXML_content F sect Y ie n s ln st
  cases hk : SectPr.children sect F with
  | none =>
    obtain ⟨s', d', e, he⟩ := hc.2 hk
    rw [he] at h
    simp at h
  | some sect' =>
    rw [hc.1 sect' hk] at h
    simp only [Option.some.injEq, Prod.mk.injEq] at h
    rw [h.1]

theorem child_unknown (sect : SectPr) (name : Name) (attr : List Attr) (c : Forest)
    (h : name.Local ∉ recognized) : SectPr.child sect name attr c = some sect := by
  simp only [recognized, List.mem_cons, List.mem_singleton, not_or, List.not_mem_nil,
    or_false] at h
  obtain ⟨h1, h2, h3, h4, h5, h6, h7⟩ := h
  simp only [SectPr.child, if_neg h1, if_neg h2, if_neg h3, if_neg h4, if_neg h5, if_neg h6,
    if_neg h7]

theorem child_fields (sect sect1 : SectPr) (name : Name) (attr : List Attr) (c : Forest)
    (h : SectPr.child sect name attr c = some sect1) :
    sect1.XMLName = sect.XMLName ∧
    sect1.PgSz = (if name.Local = "pgSz" then some (PgSz.attrLoop {} attr).1 else sect.PgSz) ∧
    sect1.HeaderReference = (if name.Local = "headerReference" then
      some (attr.foldl HeaderReference.setAttr {}) else sect.HeaderReference) ∧
    sect1.FooterReference = (if name.Local = "footerReference" then
      some (attr.foldl FooterReference.setAttr {}) else sect.FooterReference) ∧
    sect1.Type_ = (if name.Local = "type" then
      some (attr.foldl SectType.setAttr {}) else sect.Type_) ∧
    sect1.PgMar = (if name.Local = "pgMar" then
      some (attr.foldl PgMar.setAttr {}) else sect.PgMar) ∧
    sect1.Cols = (if name.Local = "cols" then
      some (attr.foldl Cols.setAttr {}) else sect.Cols) ∧
    sect1.DocGrid = (if name.Local = "docGrid" then
      some (attr.foldl DocGrid.setAttr {}) else sect.DocGrid) := by
  unfold SectPr.child at h
  by_cases h1 : name.Local = "pgSz"
  · rw [if_pos h1] at h
    split_ifs at h
    simp only [Option.some.injEq] at h
    subst h
    simp [h1]
  rw [if_neg h1] at h
  by_cases h2 : name.Local = "headerReference"
  · rw [if_pos h2] at h
    split_ifs at h
    simp only [Option.some.injEq] at h
    subst h
    simp [h2]
  rw [if_neg h2] at h
  by_cases h3 : name.Local = "footerReference"
  · rw [if_pos h3] at h
    split_ifs at h
    simp only [Option.some.injEq] at h
    subst h
    simp [h3]
  rw [if_neg h3] at h
  by_cases h4 : name.Local = "type"
  · rw [if_pos h4] at h
    split_ifs at h
    simp only [Option.some.injEq] at h
    subst h
    simp [h4]
  rw [if_neg h4] at h
  by_cases h5 : name.Local = "pgMar"
  · rw [if_pos h5] at h
    split_ifs at h
    simp only [Option.some.injEq] at h
    subst h
    simp [h5]
  rw [if_neg h5] at h
  by_cases h6 : name.Local = "cols"
  · rw [if_pos h6] at h
    split_ifs at h
    simp only [Option.some.injEq] at h
    subst h
    simp [h6]
  rw [if_neg h6] at h
  by_cases h7 : name.Local = "docGrid"
  · rw [if_pos h7] at h
    split_ifs at h
    simp only [Option.some.injEq] at h
    subst h
    simp [h7]
  rw [if_neg h7] at h
  simp only [Option.some.injEq] at h
  subst h
  simp [h1, h2, h3, h4, h5, h6, h7]

theorem lastOr_step {α : Type} (loc : String) (name : Name) (attr : List Attr) (c nx : Forest)
    (prev : Option α) (val : List Attr → α) :
    lastOr prev val (Forest.lastChild loc (Forest.element name attr c nx)) =
      lastOr (if name.Local = loc then some (val attr) else prev) val (Forest.lastChild loc nx) := by
  simp only [Forest.lastChild]
  cases Forest.lastChild loc nx with
  | some a => rfl
  | none => by_cases h : name.Local = loc <;> simp [lastOr, h]

theorem children_last (F : Forest) : ∀ (sect r : SectPr), SectPr.children sect F = some r →
    r.XMLName = sect.XMLName ∧
    r.PgSz = lastOr sect.PgSz (fun a => (PgSz.attrLoop {} a).1) (F.lastChild "pgSz") ∧
    r.HeaderReference = lastOr sect.HeaderReference (fun a => a.foldl HeaderReference.setAttr {})
      (F.lastChild "headerReference") ∧
    r.FooterReference = lastOr sect.FooterReference (fun a => a.foldl FooterReference.setAttr {})
      (F.lastChild "footerReference") ∧
    r.Type_ = lastOr sect.Type_ (fun a => a.foldl SectType.setAttr {}) (F.lastChild "type") ∧
    r.PgMar = lastOr sect.PgMar (fun a => a.foldl PgMar.setAttr {}) (F.lastChild "pgMar") ∧
    r.Cols = lastOr sect.Cols (fun a => a.foldl Cols.setAttr {}) (F.lastChild "cols") ∧
    r.DocGrid = lastOr sect.DocGrid (fun a => a.foldl DocGrid.setAttr {})
      (F.lastChild "docGrid") := by
  induction F with
  | nil =>
    intro sect r h
    simp only [SectPr.children, Option.some.injEq] at h
    subst h
    simp [Forest.lastChild, lastOr]
  | element name attr c nx _ ih =>
    intro sect r h
    simp only [SectPr.children] at h
    cases hc : SectPr.child sect name attr c with
    | none => rw [hc] at h; simp at h
    | some sect1 =>
      rw [hc] at h
      simp only at h
      obtain ⟨a0, a1, a2, a3, a4, a5, a6, a7⟩ := ih sect1 r h
      obtain ⟨b0, b1, b2, b3, b4, b5, b6, b7⟩ := child_fields sect sect1 name attr c hc
      simp only [lastOr_step]
      rw [← b1, ← b2, ← b3, ← b4, ← b5, ← b6, ← b7]
      exact ⟨a0.trans b0, a1, a2, a3, a4, a5, a6, a7⟩
  | misc m nx ih =>
    intro sect r h
    simp only [SectPr.children] at h
    simpa [Forest.lastChild] using ih sect r h

/-! ## Claims -/

/-- C2: inside the section element, after any well-formed siblings `before`, an element whose
local name is not recognized is skipped with all of its well-formed content `sub`, whatever
elements `sub` holds: whenever `SectPr.UnmarshalXML` succeeds on the content without that
element, it succeeds on the content with it, with the same section (every field) and the same
decoder state. -/
theorem unknown_child_skipped (before : Forest) (name : Name) (attr : List Attr) (sub : Forest)
    (after : List Token) (sect r : SectPr) (d : Decoder) (ie : GoError) (n : Name)
    (s : List Stack) (ln : Nat) (st : StartElement)
    (hname : name.Local ∉ recognized)
    (h : SectPr.UnmarshalXML sect
      ⟨before.tokens ++ after, ie, Stack.stkStart n :: s, none, ln⟩ st = some (r, d, none)) :
    SectPr.UnmarshalXML sect
      ⟨before.tokens ++ (Forest.element name attr sub Forest.nil).tokens ++ after, ie,
        Stack.stkStart n :: s, none, ln⟩ st = some (r, d, none) := by
  have hb := UnmarshalXML_children before sect
  cases hk : SectPr.children sect before with
  | none =>
    obtain ⟨s', d', e, he⟩ := (hb after ie n s ln st).2 hk
    rw [he] at h
    simp at h
  | some sect1 =>
    rw [(hb after ie n s ln st).1 sect1 hk] at h
    rw [List.append_assoc, (hb _ ie n s ln st).1 sect1 hk]
    have e2 : (Forest.element name attr sub Forest.nil).tokens ++ after =
        Token.StartElement ⟨name, attr⟩ :: (sub.tokens ++ Token.EndElement name :: after) := by
      simp [Forest.tokens]
    rw [e2, (UnmarshalXML_element sect1 name attr sub after ie n s ln st).1 sect1
      (child_unknown sect1 name attr sub hname)]
    exact h

/-- C2, at a concrete content: `pgSz`, then an unknown `ext` element that holds a malformed
`pgSz` and text, then `cols`. -/
theorem unknown_child_skipped_witness :
    SectPr.UnmarshalXML {}
      ⟨(Forest.element ⟨"w", "pgSz"⟩ [⟨⟨"w", "w"⟩, "12240"⟩, ⟨⟨"w", "h"⟩, "15840"⟩]
          Forest.nil Forest.nil).tokens ++
        (Forest.element ⟨"w", "ext"⟩ [⟨⟨"w", "val"⟩, "1"⟩]
          (Forest.element ⟨"w", "pgSz"⟩ [⟨⟨"w", "w"⟩, "abc"⟩] Forest.nil
            (Forest.misc (Misc.CharData "text") Forest.nil)) Forest.nil).tokens ++
        [Token.StartElement ⟨⟨"w", "cols"⟩, [⟨⟨"w", "num"⟩, "2"⟩]⟩, Token.EndElement ⟨"w", "cols"⟩,
          Token.EndElement ⟨"w", "sectPr"⟩],
        GoError.EOF, Stack.stkStart ⟨"w", "sectPr"⟩ :: [Stack.stkEOF], none, 1⟩
      ⟨⟨"w", "sectPr"⟩, []⟩ =
    some ({ PgSz := some ⟨12240, 15840⟩, Cols := some ⟨"", "2"⟩ },
      ⟨[], GoError.EOF, [Stack.stkEOF], none, 1⟩, none) :=
  unknown_child_skipped _ _ _ _ _ _ _ _ _ _ _ _ _ (by decide) (by decide)

/-- C8: on well-formed section content on which `SectPr.UnmarshalXML` succeeds, every field
holds the value a fresh value gets from the attributes of the last child of its kind alone
(the field is replaced as a whole, nothing of an earlier occurrence survives), and keeps its
previous value when the content has no child of that kind. -/
theorem duplicate_child_last_wins (F : Forest) (sect r : SectPr) (d : Decoder)
    (Y : List Token) (ie : GoError) (n : Name) (s : List Stack) (ln : Nat) (st : StartElement)
    (h : SectPr.UnmarshalXML sect ⟨F.tokens ++ Token.EndElement n :: Y, ie,
      Stack.stkStart n :: Stack.stkEOF :: s, none, ln⟩ st = some (r, d, none)) :
    r.PgSz = lastOr sect.PgSz (fun a => (PgSz.attrLoop {} a).1) (F.lastChild "pgSz") ∧
    r.HeaderReference = lastOr sect.HeaderReference (fun a => a.foldl HeaderReference.setAttr {})
      (F.lastChild "headerReference") ∧
    r.FooterReference = lastOr sect.FooterReference (fun a => a.foldl FooterReference.setAttr {})
      (F.lastChild "footerReference") ∧
    r.Type_ = lastOr sect.Type_ (fun a => a.foldl SectType.setAttr {}) (F.lastChild "type") ∧
    r.PgMar = lastOr sect.PgMar (fun a => a.foldl PgMar.setAttr {}) (F.lastChild "pgMar") ∧
    r.Cols = lastOr sect.Cols (fun a => a.foldl Cols.setAttr {}) (F.lastChild "cols") ∧
    r.DocGrid = lastOr sect.DocGrid (fun a => a.foldl DocGrid.setAttr {})
      (F.lastChild "docGrid") :=
  (children_last F sect r (children_of_success F sect r d Y ie n s ln st h)).2

/-- C8, for two `pgSz` elements, the first with `w` and `h`, the second with `w` only: the
decode succeeds, and the width is the second one and the height 0. -/
theorem duplicate_child_last_wins_witness :
    SectPr.UnmarshalXML {}
      ⟨(Forest.element ⟨"w", "pgSz"⟩ [⟨⟨"w", "w"⟩, "12240"⟩, ⟨⟨"w", "h"⟩, "15840"⟩] Forest.nil
        (Forest.element ⟨"w", "pgSz"⟩ [⟨⟨"w", "w"⟩, "11906"⟩] Forest.nil Forest.nil)).tokens ++
        Token.EndElement ⟨"w", "sectPr"⟩ :: [], GoError.EOF,
        Stack.stkStart ⟨"w", "sectPr"⟩ :: Stack.stkEOF :: [], none, 1⟩ ⟨⟨"w", "sectPr"⟩, []⟩ =
      some (⟨{}, some ⟨11906, 0⟩, none, none, none, none, none, none⟩,
        ⟨[], GoError.EOF, [Stack.stkEOF], none, 1⟩, none) ∧
    lastOr none (fun a => (PgSz.attrLoop {} a).1)
      ((Forest.element ⟨"w", "pgSz"⟩ [⟨⟨"w", "w"⟩, "12240"⟩, ⟨⟨"w", "h"⟩, "15840"⟩] Forest.nil
        (Forest.element ⟨"w", "pgSz"⟩ [⟨⟨"w", "w"⟩, "11906"⟩] Forest.nil
          Forest.nil)).lastChild "pgSz") = some ⟨11906, 0⟩ :=
  ⟨by decide,
   (duplicate_child_last_wins
      (Forest.element ⟨"w", "pgSz"⟩ [⟨⟨"w", "w"⟩, "12240"⟩, ⟨⟨"w", "h"⟩, "15840"⟩] Forest.nil
        (Forest.element ⟨"w", "pgSz"⟩ [⟨⟨"w", "w"⟩, "11906"⟩] Forest.nil Forest.nil))
      {} ⟨{}, some ⟨11906, 0⟩, none, none, none, none, none, none⟩
      ⟨[], GoError.EOF, [Stack.stkEOF], none, 1⟩ [] GoError.EOF ⟨"w", "sectPr"⟩ [] 1
      ⟨⟨"w", "sectPr"⟩, []⟩ (by decide)).1.symm⟩

/-! ### Leaf decoders -/

theorem attrLoop_fails (attrs : List Attr) : ∀ (v : PgSz),
    (PgSz.attrLoop v attrs).2 ≠ none ↔
      ∃ a ∈ attrs, (a.Name.Local = "w" ∨ a.Name.Local = "h") ∧ (Atoi a.Value).2 ≠ none := by
  induction attrs with
  | nil => intro v; simp [PgSz.attrLoop]
  | cons a rest ih =>
    intro v
    rw [PgSz.attrLoop]
    by_cases hw : a.Name.Local = "w"
    · rw [if_pos hw]
      cases hA : Atoi a.Value with
      | mk n oe =>
        cases oe with
        | some e => simp [hw, hA]
        | none => simp [hw, hA, ih]
    · rw [if_neg hw]
      by_cases hh : a.Name.Local = "h"
      · rw [if_pos hh]
        cases hA : Atoi a.Value with
        | mk n oe =>
          cases oe with
          | some e => simp [hh, hA]
          | none => simp [hh, hA, ih]
      · rw [if_neg hh]
        simp [hw, hh, ih]

theorem attrLoop_values (attrs : List Attr) : ∀ (v : PgSz), (PgSz.attrLoop v attrs).2 = none →
    (PgSz.attrLoop v attrs).1.W = (match lastAttr "w" attrs with
      | none => v.W
      | some x => (Atoi x).1) ∧
    (PgSz.attrLoop v attrs).1.H = (match lastAttr "h" attrs with
      | none => v.H
      | some x => (Atoi x).1) := by
  induction attrs with
  | nil => intro v _; simp [PgSz.attrLoop, lastAttr]
  | cons a rest ih =>
    intro v h
    rw [PgSz.attrLoop] at h ⊢
    by_cases hw : a.Name.Local = "w"
    · have hh : ¬ a.Name.Local = "h" := by rw [hw]; decide
      rw [if_pos hw] at h ⊢
      cases hA : Atoi a.Value with
      | mk n oe =>
        rw [hA] at h
        cases oe with
        | some e => simp at h
        | none =>
          simp only at h ⊢
          obtain ⟨h1, h2⟩ := ih _ h
          rw [h1, h2]
          simp only [lastAttr, hw, hh, if_true, if_false]
          cases lastAttr "w" rest <;> cases lastAttr "h" rest <;> simp [hA]
    · rw [if_neg hw] at h ⊢
      by_cases hh : a.Name.Local = "h"
      · rw [if_pos hh] at h ⊢
        cases hA : Atoi a.Value with
        | mk n oe =>
          rw [hA] at h
          cases oe with
          | some e => simp at h
          | none =>
            simp only at h ⊢
            obtain ⟨h1, h2⟩ := ih _ h
            rw [h1, h2]
            simp only [lastAttr, hw, hh, if_true, if_false]
            cases lastAttr "w" rest <;> cases lastAttr "h" rest <;> simp [hA]
      · rw [if_neg hh] at h ⊢
        obtain ⟨h1, h2⟩ := ih _ h
        rw [h1, h2]
        simp only [lastAttr, hw, hh, if_false]
        cases lastAttr "w" rest <;> cases lastAttr "h" rest <;> simp

theorem consumeToken_err {α : Type} (v : α) (d : Decoder) :
    (consumeToken v d).1 = v ∧
    ((consumeToken v d).2.2 ≠ none ↔ ∃ e d', d.Token = (.error e, d')) := by
  unfold consumeToken
  cases hT : d.Token with
  | mk r d' =>
    cases r with
    | error e => simp
    | ok t => simp

theorem attrLoop_keep (attrs : List Attr) : ∀ (v : PgSz),
    PgSz.attrLoop v (attrs.filter (fun a => decide (a.Name.Local ∈ ["w", "h"]))) =
      PgSz.attrLoop v attrs := by
  induction attrs with
  | nil => intro v; rfl
  | cons a rest ih =>
    intro v
    by_cases hw : a.Name.Local = "w"
    · have hk : decide (a.Name.Local ∈ ["w", "h"]) = true := by simp [hw]
      simp only [List.filter_cons, hk, if_true, PgSz.attrLoop, if_pos hw, ih]
    · by_cases hh : a.Name.Local = "h"
      · have hk : decide (a.Name.Local ∈ ["w", "h"]) = true := by simp [hh]
        simp only [List.filter_cons, hk, if_true, PgSz.attrLoop, if_neg hw, if_pos hh, ih]
      · have hk : decide (a.Name.Local ∈ ["w", "h"]) = false := by simp [hw, hh]
        simp only [List.filter_cons, hk, Bool.false_eq_true, if_false, PgSz.attrLoop, if_neg hw,
          if_neg hh, ih]

theorem foldl_keep {α : Type} (set : α → Attr → α) (names : List String)
    (hset : ∀ v a, a.Name.Local ∉ names → set v a = v) (attrs : List Attr) : ∀ (v : α),
    (attrs.filter (fun a => decide (a.Name.Local ∈ names))).foldl set v = attrs.foldl set v := by
  induction attrs with
  | nil => intro v; rfl
  | cons a rest ih =>
    intro v
    by_cases h : a.Name.Local ∈ names
    · simp only [List.filter, h, decide_True, List.foldl_cons, ih]
    · simp only [List.filter, h, decide_False, List.foldl_cons, ih, hset v a h]

theorem foldl_last {α : Type} (set : α → Attr → α) (p : α → String) (nm : String)
    (hset : ∀ v a, p (set v a) = if a.Name.Local = nm then a.Value else p v)
    (attrs : List Attr) : ∀ (v : α),
    p (attrs.foldl set v) = (lastAttr nm attrs).getD (p v) := by
  induction attrs with
  | nil => intro v; rfl
  | cons a rest ih =>
    intro v
    rw [List.foldl_cons, ih, hset, lastAttr]
    cases lastAttr nm rest with
    | some x => rfl
    | none => by_cases h : a.Name.Local = nm <;> simp [h]

theorem attrLoop_absent (attrs : List Attr) : ∀ (v : PgSz),
    (lastAttr "w" attrs = none → (PgSz.attrLoop v attrs).1.W = v.W) ∧
    (lastAttr "h" attrs = none → (PgSz.attrLoop v attrs).1.H = v.H) := by
  induction attrs with
  | nil => intro v; simp [PgSz.attrLoop]
  | cons a rest ih =>
    intro v
    rw [PgSz.attrLoop]
    by_cases hw : a.Name.Local = "w"
    · have hh : ¬ a.Name.Local = "h" := by rw [hw]; decide
      rw [if_pos hw]
      constructor
      · intro h
        simp only [lastAttr, hw, if_true] at h
        (cases hl : lastAttr "w" rest <;> (rw [hl] at h; simp at h))
      · intro h
        have hr : lastAttr "h" rest = none := by
          simp only [lastAttr, hh, if_false] at h
          cases hl : lastAttr "h" rest with
          | none => rfl
          | some x => rw [hl] at h; simp at h
        cases hA : Atoi a.Value with
        | mk n oe =>
          cases oe with
          | some e => rfl
          | none => exact (ih _).2 hr
    · rw [if_neg hw]
      by_cases hh : a.Name.Local = "h"
      · rw [if_pos hh]
        constructor
        · intro h
          have hr : lastAttr "w" rest = none := by
            simp only [lastAttr, hw, if_false] at h
            cases hl : lastAttr "w" rest with
            | none => rfl
            | some x => rw [hl] at h; simp at h
          cases hA : Atoi a.Value with
          | mk n oe =>
            cases oe with
            | some e => rfl
            | none => exact (ih _).1 hr
        · intro h
          simp only [lastAttr, hh, if_true] at h
          (cases hl : lastAttr "h" rest <;> (rw [hl] at h; simp at h))
      · rw [if_neg hh]
        constructor
        · intro h
          have hr : lastAttr "w" rest = none := by
            simp only [lastAttr, hw, if_false] at h
            cases hl : lastAttr "w" rest with
            | none => rfl
            | some x => rw [hl] at h; simp at h
          exact (ih _).1 hr
        · intro h
          have hr : lastAttr "h" rest = none := by
            simp only [lastAttr, hh, if_false] at h
            cases hl : lastAttr "h" rest with
            | none => rfl
            | some x => rw [hl] at h; simp at h
          exact (ih _).2 hr

/-- C3, as stated, fails: on the start tag `<w:pgSz w:w="12240">` at the end of a truncated
document every `w` and `h` attribute parses as an integer, yet `PgSz.UnmarshalXML` fails,
because the `d.Token()` call after the attribute loop reports an error. -/
theorem PgSz_fails_with_integer_attributes :
    (PgSz.UnmarshalXML {}
        ⟨[], GoError.EOF, [Stack.stkStart ⟨"w", "pgSz"⟩, Stack.stkEOF], none, 1⟩
        ⟨⟨"w", "pgSz"⟩, [⟨⟨"w", "w"⟩, "12240"⟩]⟩).2.2 =
      some (GoError.SyntaxError "unexpected EOF" 1) ∧
    ¬ ∃ a ∈ [(⟨⟨"w", "w"⟩, "12240"⟩ : Attr)],
      (a.Name.Local = "w" ∨ a.Name.Local = "h") ∧ (Atoi a.Value).2 ≠ none := by
  decide

/-- C3, amended: `PgSz.UnmarshalXML` into a fresh value fails if and only if some attribute
with local name `w` or `h` has a value `strconv.Atoi` rejects, or reading the token after the
start tag fails; when it succeeds, `W` and `H` are the integers of the last `w` and the last
`h` attribute, and 0 for a dimension without attribute.  Width `"abc"` fails, and width
`"12240"` gives `W = 12240` whenever the next token can be read. -/
theorem PgSz_UnmarshalXML_outcome (d : Decoder) (start : StartElement) :
    ((PgSz.UnmarshalXML {} d start).2.2 ≠ none ↔
      (∃ a ∈ start.Attr, (a.Name.Local = "w" ∨ a.Name.Local = "h") ∧ (Atoi a.Value).2 ≠ none) ∨
      (∃ e d', d.Token = (.error e, d'))) ∧
    ((PgSz.UnmarshalXML {} d start).2.2 = none →
      (PgSz.UnmarshalXML {} d start).1 = ⟨lastInt "w" start.Attr, lastInt "h" start.Attr⟩) ∧
    (PgSz.UnmarshalXML {} d ⟨start.Name, [⟨⟨"w", "w"⟩, "abc"⟩]⟩).2.2 =
      some (GoError.NumError "Atoi" "abc" "invalid syntax") ∧
    ((∃ t d', d.Token = (.ok t, d')) →
      (PgSz.UnmarshalXML {} d ⟨start.Name, [⟨⟨"w", "w"⟩, "12240"⟩]⟩).1 = ⟨12240, 0⟩ ∧
      (PgSz.UnmarshalXML {} d ⟨start.Name, [⟨⟨"w", "w"⟩, "12240"⟩]⟩).2.2 = none) := by
  have hf := attrLoop_fails start.Attr {}
  have hv := attrLoop_values start.Attr {}
  have hc := fun v => consumeToken_err (α := PgSz) v d
  refine ⟨?_, ?_, ?_, ?_⟩
  · unfold PgSz.UnmarshalXML
    cases hl : PgSz.attrLoop {} start.Attr with
    | mk v oe =>
      rw [hl] at hf
      cases oe with
      | some e =>
        simp only [ne_eq, reduceCtorEq, not_false_eq_true, true_iff]
        exact Or.inl (hf.1 (by simp))
      | none =>
        simp only
        rw [(hc v).2]
        constructor
        · intro h; exact Or.inr h
        · intro h
          rcases h with h | h
          · exact absurd rfl (hf.2 h)
          · exact h
  · unfold PgSz.UnmarshalXML
    cases hl : PgSz.attrLoop {} start.Attr with
    | mk v oe =>
      rw [hl] at hv
      cases oe with
      | some e => simp
      | none =>
        simp only
        intro _
        rw [(hc v).1]
        obtain ⟨h1, h2⟩ := hv rfl
        simp only at h1 h2
        cases v with
        | mk W H =>
          simp only at h1 h2
          simp only [lastInt, h1, h2, PgSz.mk.injEq]
  · rfl
  · rintro ⟨t, d', hT⟩
    have h1 : PgSz.attrLoop {} [⟨⟨"w", "w"⟩, "12240"⟩] = (⟨12240, 0⟩, none) := by decide
    simp only [PgSz.UnmarshalXML, h1, consumeToken, hT, and_self]

/-- C3 (amended), at `<w:pgSz w:h="15840" w:w="12240"/>`: the decode succeeds with both
dimensions. -/
theorem PgSz_UnmarshalXML_outcome_witness :
    (PgSz.UnmarshalXML {}
        ⟨[Token.EndElement ⟨"w", "pgSz"⟩], GoError.EOF,
          [Stack.stkStart ⟨"w", "pgSz"⟩, Stack.stkEOF], none, 1⟩
        ⟨⟨"w", "pgSz"⟩, [⟨⟨"w", "h"⟩, "15840"⟩, ⟨⟨"w", "w"⟩, "12240"⟩]⟩).1 =
      ⟨lastInt "w" [⟨⟨"w", "h"⟩, "15840"⟩, ⟨⟨"w", "w"⟩, "12240"⟩],
        lastInt "h" [⟨⟨"w", "h"⟩, "15840"⟩, ⟨⟨"w", "w"⟩, "12240"⟩]⟩ ∧
    (⟨lastInt "w" [⟨⟨"w", "h"⟩, "15840"⟩, ⟨⟨"w", "w"⟩, "12240"⟩],
        lastInt "h" [⟨⟨"w", "h"⟩, "15840"⟩, ⟨⟨"w", "w"⟩, "12240"⟩]⟩ : PgSz) = ⟨12240, 15840⟩ :=
  ⟨(PgSz_UnmarshalXML_outcome
      ⟨[Token.EndElement ⟨"w", "pgSz"⟩], GoError.EOF,
        [Stack.stkStart ⟨"w", "pgSz"⟩, Stack.stkEOF], none, 1⟩
      ⟨⟨"w", "pgSz"⟩, [⟨⟨"w", "h"⟩, "15840"⟩, ⟨⟨"w", "w"⟩, "12240"⟩]⟩).2.1 (by decide),
   by decide⟩

theorem HeaderReference_setAttr_Id (v : HeaderReference) (a : Attr) :
    (HeaderReference.setAttr v a).Id = if a.Name.Local = "id" then a.Value else v.Id := by
  unfold HeaderReference.setAttr
  split_ifs <;> simp_all

theorem HeaderReference_setAttr_Type_ (v : HeaderReference) (a : Attr) :
    (HeaderReference.setAttr v a).Type_ = if a.Name.Local = "type" then a.Value else v.Type_ := by
  unfold HeaderReference.setAttr
  split_ifs <;> simp_all

theorem HeaderReference_setAttr_other (v : HeaderReference) (a : Attr) (h : a.Name.Local ∉ ["id", "type"]) :
    HeaderReference.setAttr v a = v := by
  simp only [List.mem_cons, List.mem_singleton, List.not_mem_nil, or_false, not_or] at h
  simp [HeaderReference.setAttr, h]

theorem HeaderReference_fields (attrs : List Attr) :
    attrs.foldl HeaderReference.setAttr {} =
      ⟨(lastAttr "id" attrs).getD "",
      (lastAttr "type" attrs).getD ""⟩ := by
  have h1 := foldl_last HeaderReference.setAttr (fun v => v.Id) "id" HeaderReference_setAttr_Id attrs {}
  have h2 := foldl_last HeaderReference.setAttr (fun v => v.Type_) "type" HeaderReference_setAttr_Type_ attrs {}
  simp only at h1 h2
  rw [← h1, ← h2]

theorem FooterReference_setAttr_Id (v : FooterReference) (a : Attr) :
    (FooterReference.setAttr v a).Id = if a.Name.Local = "id" then a.Value else v.Id := by
  unfold FooterReference.setAttr
  split_ifs <;> simp_all

theorem FooterReference_setAttr_Type_ (v : FooterReference) (a : Attr) :
    (FooterReference.setAttr v a).Type_ = if a.Name.Local = "type" then a.Value else v.Type_ := by
  unfold FooterReference.setAttr
  split_ifs <;> simp_all

theorem FooterReference_setAttr_other (v : FooterReference) (a : Attr) (h : a.Name.Local ∉ ["id", "type"]) :
    FooterReference.setAttr v a = v := by
  simp only [List.mem_cons, List.mem_singleton, List.not_mem_nil, or_false, not_or] at h
  simp [FooterReference.setAttr, h]

theorem FooterReference_fields (attrs : List Attr) :
    attrs.foldl FooterReference.setAttr {} =
      ⟨(lastAttr "id" attrs).getD "",
      (lastAttr "type" attrs).getD ""⟩ := by
  have h1 := foldl_last FooterReference.setAttr (fun v => v.Id) "id" FooterReference_setAttr_Id attrs {}
  have h2 := foldl_last FooterReference.setAttr (fun v => v.Type_) "type" FooterReference_setAttr_Type_ attrs {}
  simp only at h1 h2
  rw [← h1, ← h2]

theorem SectType_setAttr_Val (v : SectType) (a : Attr) :
    (SectType.setAttr v a).Val = if a.Name.Local = "val" then a.Value else v.Val := by
  unfold SectType.setAttr
  split_ifs <;> simp_all

theorem SectType_setAttr_other (v : SectType) (a : Attr) (h : a.Name.Local ∉ ["val"]) :
    SectType.setAttr v a = v := by
  simp only [List.mem_cons, List.mem_singleton, List.not_mem_nil, or_false, not_or] at h
  simp [SectType.setAttr, h]

theorem SectType_fields (attrs : List Attr) :
    attrs.foldl SectType.setAttr {} =
      ⟨(lastAttr "val" attrs).getD ""⟩ := by
  have h1 := foldl_last SectType.setAttr (fun v => v.Val) "val" SectType_setAttr_Val attrs {}
  simp only at h1
  rw [← h1]

theorem PgMar_setAttr_Top (v : PgMar) (a : Attr) :
    (PgMar.setAttr v a).Top = if a.Name.Local = "top" then a.Value else v.Top := by
  unfold PgMar.setAttr
  split_ifs <;> simp_all

theorem PgMar_setAttr_Right (v : PgMar) (a : Attr) :
    (PgMar.setAttr v a).Right = if a.Name.Local = "right" then a.Value else v.Right := by
  unfold PgMar.setAttr
  split_ifs <;> simp_all

theorem PgMar_setAttr_Bottom (v : PgMar) (a : Attr) :
    (PgMar.setAttr v a).Bottom = if a.Name.Local = "bottom" then a.Value else v.Bottom := by
  unfold PgMar.setAttr
  split_ifs <;> simp_all

theorem PgMar_setAttr_Left (v : PgMar) (a : Attr) :
    (PgMar.setAttr v a).Left = if a.Name.Local = "left" then a.Value else v.Left := by
  unfold PgMar.setAttr
  split_ifs <;> simp_all

theorem PgMar_setAttr_Header (v : PgMar) (a : Attr) :
    (PgMar.setAttr v a).Header = if a.Name.Local = "header" then a.Value else v.Header := by
  unfold PgMar.setAttr
  split_ifs <;> simp_all

theorem PgMar_setAttr_Footer (v : PgMar) (a : Attr) :
    (PgMar.setAttr v a).Footer = if a.Name.Local = "footer" then a.Value else v.Footer := by
  unfold PgMar.setAttr
  split_ifs <;> simp_all

theorem PgMar_setAttr_Gutter (v : PgMar) (a : Attr) :
    (PgMar.setAttr v a).Gutter = if a.Name.Local = "gutter" then a.Value else v.Gutter := by
  unfold PgMar.setAttr
  split_ifs <;> simp_all

theorem PgMar_setAttr_other (v : PgMar) (a : Attr) (h : a.Name.Local ∉ ["top", "right", "bottom", "left", "header", "footer", "gutter"]) :
    PgMar.setAttr v a = v := by
  simp only [List.mem_cons, List.mem_singleton, List.not_mem_nil, or_false, not_or] at h
  simp [PgMar.setAttr, h]

theorem PgMar_fields (attrs : List Attr) :
    attrs.foldl PgMar.setAttr {} =
      ⟨(lastAttr "top" attrs).getD "",
      (lastAttr "right" attrs).getD "",
      (lastAttr "bottom" attrs).getD "",
      (lastAttr "left" attrs).getD "",
      (lastAttr "header" attrs).getD "",
      (lastAttr "footer" attrs).getD "",
      (lastAttr "gutter" attrs).getD ""⟩ := by
  have h1 := foldl_last PgMar.setAttr (fun v => v.Top) "top" PgMar_setAttr_Top attrs {}
  have h2 := foldl_last PgMar.setAttr (fun v => v.Right) "right" PgMar_setAttr_Right attrs {}
  have h3 := foldl_last PgMar.setAttr (fun v => v.Bottom) "bottom" PgMar_setAttr_Bottom attrs {}
  have h4 := foldl_last PgMar.setAttr (fun v => v.Left) "left" PgMar_setAttr_Left attrs {}
  have h5 := foldl_last PgMar.setAttr (fun v => v.Header) "header" PgMar_setAttr_Header attrs {}
  have h6 := foldl_last PgMar.setAttr (fun v => v.Footer) "footer" PgMar_setAttr_Footer attrs {}
  have h7 := foldl_last PgMar.setAttr (fun v => v.Gutter) "gutter" PgMar_setAttr_Gutter attrs {}
  simp only at h1 h2 h3 h4 h5 h6 h7
  rw [← h1, ← h2, ← h3, ← h4, ← h5, ← h6, ← h7]

theorem Cols_setAttr_Space (v : Cols) (a : Attr) :
    (Cols.setAttr v a).Space = if a.Name.Local = "space" then a.Value else v.Space := by
  unfold Cols.setAttr
  split_ifs <;> simp_all

theorem Cols_setAttr_Num (v : Cols) (a : Attr) :
    (Cols.setAttr v a).Num = if a.Name.Local = "num" then a.Value else v.Num := by
  unfold Cols.setAttr
  split_ifs <;> simp_all

theorem Cols_setAttr_other (v : Cols) (a : Attr) (h : a.Name.Local ∉ ["space", "num"]) :
    Cols.setAttr v a = v := by
  simp only [List.mem_cons, List.mem_singleton, List.not_mem_nil, or_false, not_or] at h
  simp [Cols.setAttr, h]

theorem Cols_fields (attrs : List Attr) :
    attrs.foldl Cols.setAttr {} =
      ⟨(lastAttr "space" attrs).getD "",
      (lastAttr "num" attrs).getD ""⟩ := by
  have h1 := foldl_last Cols.setAttr (fun v => v.Space) "space" Cols_setAttr_Space attrs {}
  have h2 := foldl_last Cols.setAttr (fun v => v.Num) "num" Cols_setAttr_Num attrs {}
  simp only at h1 h2
  rw [← h1, ← h2]

theorem DocGrid_setAttr_LinePitch (v : DocGrid) (a : Attr) :
    (DocGrid.setAttr v a).LinePitch = if a.Name.Local = "linePitch" then a.Value else v.LinePitch := by
  unfold DocGrid.setAttr
  split_ifs <;> simp_all

theorem DocGrid_setAttr_CharSpace (v : DocGrid) (a : Attr) :
    (DocGrid.setAttr v a).CharSpace = if a.Name.Local = "charSpace" then a.Value else v.CharSpace := by
  unfold DocGrid.setAttr
  split_ifs <;> simp_all

theorem DocGrid_setAttr_other (v : DocGrid) (a : Attr) (h : a.Name.Local ∉ ["linePitch", "charSpace"]) :
    DocGrid.setAttr v a = v := by
  simp only [List.mem_cons, List.mem_singleton, List.not_mem_nil, or_false, not_or] at h
  simp [DocGrid.setAttr, h]

theorem DocGrid_fields (attrs : List Attr) :
    attrs.foldl DocGrid.setAttr {} =
      ⟨(lastAttr "linePitch" attrs).getD "",
      (lastAttr "charSpace" attrs).getD ""⟩ := by
  have h1 := foldl_last DocGrid.setAttr (fun v => v.LinePitch) "linePitch" DocGrid_setAttr_LinePitch attrs {}
  have h2 := foldl_last DocGrid.setAttr (fun v => v.CharSpace) "charSpace" DocGrid_setAttr_CharSpace attrs {}
  simp only at h1 h2
  rw [← h1, ← h2]

/-- C9: in each of the seven leaf decoders, attributes whose local name the decoder does not
recognize never influence the outcome: value, decoder state and error are those of the same
start tag with every unrecognized attribute removed; and into a fresh value each string field
is the value of the last attribute of its name, or the zero value `""` when there is none,
and each integer field of `PgSz` stays 0 when there is no attribute of its name. -/
theorem unrecognized_attributes_ignored (d : Decoder) (start : StartElement) :
    ((∀ v, PgSz.UnmarshalXML v d start = PgSz.UnmarshalXML v d (keepAttrs ["w", "h"] start)) ∧
     (∀ v, HeaderReference.UnmarshalXML v d start =
        HeaderReference.UnmarshalXML v d (keepAttrs ["id", "type"] start)) ∧
     (∀ v, FooterReference.UnmarshalXML v d start =
        FooterReference.UnmarshalXML v d (keepAttrs ["id", "type"] start)) ∧
     (∀ v, SectType.UnmarshalXML v d start = SectType.UnmarshalXML v d (keepAttrs ["val"] start)) ∧
     (∀ v, PgMar.UnmarshalXML v d start = PgMar.UnmarshalXML v d
        (keepAttrs ["top", "right", "bottom", "left", "header", "footer", "gutter"] start)) ∧
     (∀ v, Cols.UnmarshalXML v d start = Cols.UnmarshalXML v d (keepAttrs ["space", "num"] start)) ∧
     (∀ v, DocGrid.UnmarshalXML v d start =
        DocGrid.UnmarshalXML v d (keepAttrs ["linePitch", "charSpace"] start))) ∧
    ((lastAttr "w" start.Attr = none → (PgSz.UnmarshalXML {} d start).1.W = 0) ∧
     (lastAttr "h" start.Attr = none → (PgSz.UnmarshalXML {} d start).1.H = 0) ∧
     (HeaderReference.UnmarshalXML {} d start).1 =
        ⟨(lastAttr "id" start.Attr).getD "", (lastAttr "type" start.Attr).getD ""⟩ ∧
     (FooterReference.UnmarshalXML {} d start).1 =
        ⟨(lastAttr "id" start.Attr).getD "", (lastAttr "type" start.Attr).getD ""⟩ ∧
     (SectType.UnmarshalXML {} d start).1 = ⟨(lastAttr "val" start.Attr).getD ""⟩ ∧
     (PgMar.UnmarshalXML {} d start).1 =
        ⟨(lastAttr "top" start.Attr).getD "", (lastAttr "right" start.Attr).getD "",
         (lastAttr "bottom" start.Attr).getD "", (lastAttr "left" start.Attr).getD "",
         (lastAttr "header" start.Attr).getD "", (lastAttr "footer" start.Attr).getD "",
         (lastAttr "gutter" start.Attr).getD ""⟩ ∧
     (Cols.UnmarshalXML {} d start).1 =
        ⟨(lastAttr "space" start.Attr).getD "", (lastAttr "num" start.Attr).getD ""⟩ ∧
     (DocGrid.UnmarshalXML {} d start).1 =
        ⟨(lastAttr "linePitch" start.Attr).getD "", (lastAttr "charSpace" start.Attr).getD ""⟩) := by
  refine ⟨⟨?_, ?_, ?_, ?_, ?_, ?_, ?_⟩, ⟨?_, ?_, ?_, ?_, ?_, ?_, ?_, ?_⟩⟩
  · intro v
    simp only [PgSz.UnmarshalXML, keepAttrs, attrLoop_keep]
  · intro v
    simp only [HeaderReference.UnmarshalXML, keepAttrs]
    rw [foldl_keep _ _ HeaderReference_setAttr_other]
  · intro v
    simp only [FooterReference.UnmarshalXML, keepAttrs]
    rw [foldl_keep _ _ FooterReference_setAttr_other]
  · intro v
    simp only [SectType.UnmarshalXML, keepAttrs]
    rw [foldl_keep _ _ SectType_setAttr_other]
  · intro v
    simp only [PgMar.UnmarshalXML, keepAttrs]
    rw [foldl_keep _ _ PgMar_setAttr_other]
  · intro v
    simp only [Cols.UnmarshalXML, keepAttrs]
    rw [foldl_keep _ _ Cols_setAttr_other]
  · intro v
    simp only [DocGrid.UnmarshalXML, keepAttrs]
    rw [foldl_keep _ _ DocGrid_setAttr_other]
  · intro h
    have := (attrLoop_absent start.Attr {}).1 h
    unfold PgSz.UnmarshalXML
    cases hl : PgSz.attrLoop {} start.Attr with
    | mk v oe =>
      rw [hl] at this
      cases oe with
      | some e => exact this
      | none => simp only; rw [(consumeToken_err v d).1]; exact this
  · intro h
    have := (attrLoop_absent start.Attr {}).2 h
    unfold PgSz.UnmarshalXML
    cases hl : PgSz.attrLoop {} start.Attr with
    | mk v oe =>
      rw [hl] at this
      cases oe with
      | some e => exact this
      | none => simp only; rw [(consumeToken_err v d).1]; exact this
  · simp only [HeaderReference.UnmarshalXML, (consumeToken_err _ d).1]
    exact HeaderReference_fields start.Attr
  · simp only [FooterReference.UnmarshalXML, (consumeToken_err _ d).1]
    exact FooterReference_fields start.Attr
  · simp only [SectType.UnmarshalXML, (consumeToken_err _ d).1]
    exact SectType_fields start.Attr
  · simp only [PgMar.UnmarshalXML, (consumeToken_err _ d).1]
    exact PgMar_fields start.Attr
  · simp only [Cols.UnmarshalXML, (consumeToken_err _ d).1]
    exact Cols_fields start.Attr
  · simp only [DocGrid.UnmarshalXML, (consumeToken_err _ d).1]
    exact DocGrid_fields start.Attr

theorem UnmarshalXML_afterChild {α : Type} (sect : SectPr) (store : α → SectPr) (d0 d : Decoder)
    (tt st : StartElement) (r : α × Decoder × Option GoError)
    (hT : d0.Token = (.ok (Token.StartElement tt), d))
    (hD : SectPr.dispatch sect d tt = afterChild sect store r) (e : GoError)
    (he : r.2.2 = some e) :
    (HasPrefix e.Error "expected" = true →
      SectPr.UnmarshalXML sect d0 st = SectPr.UnmarshalXML (store r.1) r.2.1 st) ∧
    (HasPrefix e.Error "expected" = false →
      SectPr.UnmarshalXML sect d0 st = some (sect, r.2.1, some e)) := by
  constructor
  · intro hp
    rw [UnmarshalXML_unfold, hT]
    simp only [hD, afterChild, he, fatal, hp, Bool.not_true, Bool.false_eq_true, if_false]
  · intro hp
    rw [UnmarshalXML_unfold, hT]
    simp only [hD, afterChild, he, fatal, hp, Bool.not_false, if_true]

/-- C7: in `SectPr.UnmarshalXML`, for each of the seven recognized children: when the
child's `DecodeElement` returns an error whose message begins with "expected", the decoded
value is stored in the child's field and the loop goes on from the decoder state the child
left; when it returns any other error, `SectPr.UnmarshalXML` returns that error at once and
the section is as it was before the child. -/
theorem child_error_tolerance (sect : SectPr) (d0 d : Decoder) (tt st : StartElement)
    (hT : d0.Token = (.ok (Token.StartElement tt), d)) (e : GoError) :
    (tt.Name.Local = "pgSz" → ∀ value d',
      d.DecodeElement PgSz.UnmarshalXML "(*docx.PgSz)" {} tt = (value, d', some e) →
      (HasPrefix e.Error "expected" = true → SectPr.UnmarshalXML sect d0 st =
        SectPr.UnmarshalXML { sect with PgSz := some value } d' st) ∧
      (HasPrefix e.Error "expected" = false →
        SectPr.UnmarshalXML sect d0 st = some (sect, d', some e))) ∧
    (tt.Name.Local = "headerReference" → ∀ value d',
      d.DecodeElement HeaderReference.UnmarshalXML "(*docx.HeaderReference)" {} tt =
        (value, d', some e) →
      (HasPrefix e.Error "expected" = true → SectPr.UnmarshalXML sect d0 st =
        SectPr.UnmarshalXML { sect with HeaderReference := some value } d' st) ∧
      (HasPrefix e.Error "expected" = false →
        SectPr.UnmarshalXML sect d0 st = some (sect, d', some e))) ∧
    (tt.Name.Local = "footerReference" → ∀ value d',
      d.DecodeElement FooterReference.UnmarshalXML "(*docx.FooterReference)" {} tt =
        (value, d', some e) →
      (HasPrefix e.Error "expected" = true → SectPr.UnmarshalXML sect d0 st =
        SectPr.UnmarshalXML { sect with FooterReference := some value } d' st) ∧
      (HasPrefix e.Error "expected" = false →
        SectPr.UnmarshalXML sect d0 st = some (sect, d', some e))) ∧
    (tt.Name.Local = "type" → ∀ value d',
      d.DecodeElement SectType.UnmarshalXML "(*docx.Type)" {} tt = (value, d', some e) →
      (HasPrefix e.Error "expected" = true → SectPr.UnmarshalXML sect d0 st =
        SectPr.UnmarshalXML { sect with Type_ := some value } d' st) ∧
      (HasPrefix e.Error "expected" = false →
        SectPr.UnmarshalXML sect d0 st = some (sect, d', some e))) ∧
    (tt.Name.Local = "pgMar" → ∀ value d',
      d.DecodeElement PgMar.UnmarshalXML "(*docx.PgMar)" {} tt = (value, d', some e) →
      (HasPrefix e.Error "expected" = true → SectPr.UnmarshalXML sect d0 st =
        SectPr.UnmarshalXML { sect with PgMar := some value } d' st) ∧
      (HasPrefix e.Error "expected" = false →
        SectPr.UnmarshalXML sect d0 st = some (sect, d', some e))) ∧
    (tt.Name.Local = "cols" → ∀ value d',
      d.DecodeElement Cols.UnmarshalXML "(*docx.Cols)" {} tt = (value, d', some e) →
      (HasPrefix e.Error "expected" = true → SectPr.UnmarshalXML sect d0 st =
        SectPr.UnmarshalXML { sect with Cols := some value } d' st) ∧
      (HasPrefix e.Error "expected" = false →
        SectPr.UnmarshalXML sect d0 st = some (sect, d', some e))) ∧
    (tt.Name.Local = "docGrid" → ∀ value d',
      d.DecodeElement DocGrid.UnmarshalXML "(*docx.DocGrid)" {} tt = (value, d', some e) →
      (HasPrefix e.Error "expected" = true → SectPr.UnmarshalXML sect d0 st =
        SectPr.UnmarshalXML { sect with DocGrid := some value } d' st) ∧
      (HasPrefix e.Error "expected" = false →
        SectPr.UnmarshalXML sect d0 st = some (sect, d', some e))) := by
  refine ⟨?_, ?_, ?_, ?_, ?_, ?_, ?_⟩ <;> intro hn value d' hD
  · exact UnmarshalXML_afterChild sect (fun value => { sect with PgSz := some value }) d0 d tt st
      (value, d', some e) hT (by simp [SectPr.dispatch, hn, hD]) e rfl
  · exact UnmarshalXML_afterChild sect (fun value => { sect with HeaderReference := some value })
      d0 d tt st (value, d', some e) hT (by simp [SectPr.dispatch, hn, hD]) e rfl
  · exact UnmarshalXML_afterChild sect (fun value => { sect with FooterReference := some value })
      d0 d tt st (value, d', some e) hT (by simp [SectPr.dispatch, hn, hD]) e rfl
  · exact UnmarshalXML_afterChild sect (fun value => { sect with Type_ := some value })
      d0 d tt st (value, d', some e) hT (by simp [SectPr.dispatch, hn, hD]) e rfl
  · exact UnmarshalXML_afterChild sect (fun value => { sect with PgMar := some value })
      d0 d tt st (value, d', some e) hT (by simp [SectPr.dispatch, hn, hD]) e rfl
  · exact UnmarshalXML_afterChild sect (fun value => { sect with Cols := some value })
      d0 d tt st (value, d', some e) hT (by simp [SectPr.dispatch, hn, hD]) e rfl
  · exact UnmarshalXML_afterChild sect (fun value => { sect with DocGrid := some value })
      d0 d tt st (value, d', some e) hT (by simp [SectPr.dispatch, hn, hD]) e rfl

/-- C9, at `<w:pgSz w:h="15840" w:orient="landscape">`: the `orient` attribute changes
nothing and the width, which has no attribute, is 0. -/
theorem unrecognized_attributes_ignored_witness :
    (PgSz.UnmarshalXML {} ⟨[Token.EndElement ⟨"w", "pgSz"⟩], GoError.EOF,
        [Stack.stkStart ⟨"w", "pgSz"⟩], none, 1⟩
      ⟨⟨"w", "pgSz"⟩, [⟨⟨"w", "h"⟩, "15840"⟩, ⟨⟨"w", "orient"⟩, "landscape"⟩]⟩).1.W = 0 ∧
    PgSz.UnmarshalXML {} ⟨[Token.EndElement ⟨"w", "pgSz"⟩], GoError.EOF,
        [Stack.stkStart ⟨"w", "pgSz"⟩], none, 1⟩
      ⟨⟨"w", "pgSz"⟩, [⟨⟨"w", "h"⟩, "15840"⟩, ⟨⟨"w", "orient"⟩, "landscape"⟩]⟩ =
    PgSz.UnmarshalXML {} ⟨[Token.EndElement ⟨"w", "pgSz"⟩], GoError.EOF,
        [Stack.stkStart ⟨"w", "pgSz"⟩], none, 1⟩
      (keepAttrs ["w", "h"]
        ⟨⟨"w", "pgSz"⟩, [⟨⟨"w", "h"⟩, "15840"⟩, ⟨⟨"w", "orient"⟩, "landscape"⟩]⟩) :=
  ⟨(unrecognized_attributes_ignored _ _).2.1 (by decide),
   (unrecognized_attributes_ignored _ _).1.1 {}⟩

/-- C7, at a `pgSz` start tag after which the reader fails: with the reader error
"expected more" the value `{5 0}` is stored and the loop reads on (and returns the error the
next `Token` reports); with the reader error "read failed" the section stays empty. -/
theorem child_error_tolerance_witness :
    SectPr.UnmarshalXML {}
      ⟨[Token.StartElement ⟨⟨"w", "pgSz"⟩, [⟨⟨"w", "w"⟩, "5"⟩]⟩], GoError.ErrorString "expected more",
        [Stack.stkStart ⟨"w", "sectPr"⟩, Stack.stkEOF], none, 1⟩ ⟨⟨"w", "sectPr"⟩, []⟩ =
    SectPr.UnmarshalXML { PgSz := some ⟨5, 0⟩ }
      ⟨[], GoError.ErrorString "expected more",
        [Stack.stkStart ⟨"w", "pgSz"⟩, Stack.stkEOF, Stack.stkStart ⟨"w", "sectPr"⟩, Stack.stkEOF],
        some (GoError.ErrorString "expected more"), 1⟩ ⟨⟨"w", "sectPr"⟩, []⟩ ∧
    SectPr.UnmarshalXML {}
      ⟨[Token.StartElement ⟨⟨"w", "pgSz"⟩, [⟨⟨"w", "w"⟩, "5"⟩]⟩], GoError.ErrorString "read failed",
        [Stack.stkStart ⟨"w", "sectPr"⟩, Stack.stkEOF], none, 1⟩ ⟨⟨"w", "sectPr"⟩, []⟩ =
    some ({}, ⟨[], GoError.ErrorString "read failed",
        [Stack.stkStart ⟨"w", "pgSz"⟩, Stack.stkEOF, Stack.stkStart ⟨"w", "sectPr"⟩, Stack.stkEOF],
        some (GoError.ErrorString "read failed"), 1⟩, some (GoError.ErrorString "read failed")) :=
  ⟨((child_error_tolerance {}
      ⟨[Token.StartElement ⟨⟨"w", "pgSz"⟩, [⟨⟨"w", "w"⟩, "5"⟩]⟩], GoError.ErrorString "expected more",
        [Stack.stkStart ⟨"w", "sectPr"⟩, Stack.stkEOF], none, 1⟩
      ⟨[], GoError.ErrorString "expected more",
        [Stack.stkStart ⟨"w", "pgSz"⟩, Stack.stkStart ⟨"w", "sectPr"⟩, Stack.stkEOF], none, 1⟩
      ⟨⟨"w", "pgSz"⟩, [⟨⟨"w", "w"⟩, "5"⟩]⟩ ⟨⟨"w", "sectPr"⟩, []⟩ rfl
      (GoError.ErrorString "expected more")).1 (by decide) ⟨5, 0⟩ _ (by decide)).1 (by decide),
   ((child_error_tolerance {}
      ⟨[Token.StartElement ⟨⟨"w", "pgSz"⟩, [⟨⟨"w", "w"⟩, "5"⟩]⟩], GoError.ErrorString "read failed",
        [Stack.stkStart ⟨"w", "sectPr"⟩, Stack.stkEOF], none, 1⟩
      ⟨[], GoError.ErrorString "read failed",
        [Stack.stkStart ⟨"w", "pgSz"⟩, Stack.stkStart ⟨"w", "sectPr"⟩, Stack.stkEOF], none, 1⟩
      ⟨⟨"w", "pgSz"⟩, [⟨⟨"w", "w"⟩, "5"⟩]⟩ ⟨⟨"w", "sectPr"⟩, []⟩ rfl
      (GoError.ErrorString "read failed")).1 (by decide) ⟨5, 0⟩ _ (by decide)).2 (by decide)⟩

/-- C10 fails on the code: for `<w:cols w:num="2"><w:col w:w="4000"/></w:cols>` followed by
`<w:docGrid w:linePitch="360"/>`, `Cols.UnmarshalXML` returns after the single token it reads,
the start tag of `col`: the next token is the end tag of `col`, not the sibling `docGrid`.
`DecodeElement` then reports that the method did not consume the element, and
`SectPr.UnmarshalXML` returns that error with no field set. -/
theorem leaf_decoder_stops_in_content :
    Cols.UnmarshalXML {}
      ⟨[Token.StartElement ⟨⟨"w", "col"⟩, [⟨⟨"w", "w"⟩, "4000"⟩]⟩, Token.EndElement ⟨"w", "col"⟩,
        Token.EndElement ⟨"w", "cols"⟩,
        Token.StartElement ⟨⟨"w", "docGrid"⟩, [⟨⟨"w", "linePitch"⟩, "360"⟩]⟩,
        Token.EndElement ⟨"w", "docGrid"⟩, Token.EndElement ⟨"w", "sectPr"⟩], GoError.EOF,
        [Stack.stkStart ⟨"w", "cols"⟩, Stack.stkEOF, Stack.stkStart ⟨"w", "sectPr"⟩, Stack.stkEOF],
        none, 1⟩ ⟨⟨"w", "cols"⟩, [⟨⟨"w", "num"⟩, "2"⟩]⟩ =
    (⟨"", "2"⟩,
      ⟨[Token.EndElement ⟨"w", "col"⟩, Token.EndElement ⟨"w", "cols"⟩,
        Token.StartElement ⟨⟨"w", "docGrid"⟩, [⟨⟨"w", "linePitch"⟩, "360"⟩]⟩,
        Token.EndElement ⟨"w", "docGrid"⟩, Token.EndElement ⟨"w", "sectPr"⟩], GoError.EOF,
        [Stack.stkStart ⟨"w", "col"⟩, Stack.stkStart ⟨"w", "cols"⟩, Stack.stkEOF,
          Stack.stkStart ⟨"w", "sectPr"⟩, Stack.stkEOF], none, 1⟩, none) ∧
    (SectPr.UnmarshalXML {}
      ⟨[Token.StartElement ⟨⟨"w", "cols"⟩, [⟨⟨"w", "num"⟩, "2"⟩]⟩,
        Token.StartElement ⟨⟨"w", "col"⟩, [⟨⟨"w", "w"⟩, "4000"⟩]⟩, Token.EndElement ⟨"w", "col"⟩,
        Token.EndElement ⟨"w", "cols"⟩,
        Token.StartElement ⟨⟨"w", "docGrid"⟩, [⟨⟨"w", "linePitch"⟩, "360"⟩]⟩,
        Token.EndElement ⟨"w", "docGrid"⟩, Token.EndElement ⟨"w", "sectPr"⟩], GoError.EOF,
        [Stack.stkStart ⟨"w", "sectPr"⟩, Stack.stkEOF], none, 1⟩ ⟨⟨"w", "sectPr"⟩, []⟩).map
      (fun r => (r.1, r.2.2)) =
    some ({}, some (GoError.ErrorString
      "xml: (*docx.Cols).UnmarshalXML did not consume entire <cols> element")) := by
  decide

/-! ### Run styling -/

/-- C5: each of `Color`, `Size`, `Shade`, `Bold`, `Italic`, `Underline` and `Highlight` sets
its own field of the run's `RunProperties` to a present value built from the arguments, and
leaves the other six fields and `Children` as they were.  The run returned is the receiver:
the result of the embedded method is the receiver after the call. -/
theorem styling_sets_own_field (r : Run) (a b c : String) :
    ((r.Color a).RunProperties = { r.RunProperties with Color := some ⟨a⟩ } ∧
      (r.Color a).RunProperties.Color = some ⟨a⟩ ∧ (r.Color a).Children = r.Children) ∧
    ((r.Size a).RunProperties = { r.RunProperties with Size := some ⟨a⟩ } ∧
      (r.Size a).RunProperties.Size = some ⟨a⟩ ∧ (r.Size a).Children = r.Children) ∧
    ((r.Shade a b c).RunProperties = { r.RunProperties with Shade := some ⟨a, b, c⟩ } ∧
      (r.Shade a b c).RunProperties.Shade = some ⟨a, b, c⟩ ∧
      (r.Shade a b c).Children = r.Children) ∧
    (r.Bold.RunProperties = { r.RunProperties with Bold := some ⟨⟩ } ∧
      r.Bold.RunProperties.Bold = some ⟨⟩ ∧ r.Bold.Children = r.Children) ∧
    (r.Italic.RunProperties = { r.RunProperties with Italic := some ⟨⟩ } ∧
      r.Italic.RunProperties.Italic = some ⟨⟩ ∧ r.Italic.Children = r.Children) ∧
    ((r.Underline a).RunProperties = { r.RunProperties with Underline := some ⟨a⟩ } ∧
      (r.Underline a).RunProperties.Underline = some ⟨a⟩ ∧
      (r.Underline a).Children = r.Children) ∧
    ((r.Highlight a).RunProperties = { r.RunProperties with Highlight := some ⟨a⟩ } ∧
      (r.Highlight a).RunProperties.Highlight = some ⟨a⟩ ∧
      (r.Highlight a).Children = r.Children) := by
  refine ⟨⟨rfl, rfl, rfl⟩, ⟨rfl, rfl, rfl⟩, ⟨rfl, rfl, rfl⟩, ⟨rfl, rfl, rfl⟩, ⟨rfl, rfl, rfl⟩,
    ⟨rfl, rfl, rfl⟩, ⟨rfl, rfl, rfl⟩⟩

theorem getLast_cons_some {β : Type} (x : β) (l : List β) :
    (x :: l).getLast? = some (l.getLast?.getD x) := by
  cases l with
  | nil => rfl
  | cons y l => simp [List.getLast?_cons_cons, List.getLast?_eq_getLast]

theorem chain_field {β : Type} (p : Run → Option β) (f : StyleCall → Option β)
    (hp : ∀ r c, p (StyleCall.apply r c) = (f c).orElse (fun _ => p r)) :
    ∀ (calls : List StyleCall) (r : Run),
      p (r.chain calls) = ((calls.filterMap f).getLast?).orElse (fun _ => p r) := by
  intro calls
  induction calls with
  | nil => intro r; rfl
  | cons c cs ih =>
    intro r
    have e : r.chain (c :: cs) = (StyleCall.apply r c).chain cs := rfl
    rw [e, ih, hp]
    cases hf : f c with
    | none => simp [List.filterMap_cons, hf]
    | some v =>
      simp only [List.filterMap_cons, hf, getLast_cons_some]
      cases (List.filterMap f cs).getLast? <;> rfl

theorem chain_children (calls : List StyleCall) : ∀ (r : Run), (r.chain calls).Children = r.Children := by
  induction calls with
  | nil => intro r; rfl
  | cons c cs ih =>
    intro r
    have e : r.chain (c :: cs) = (StyleCall.apply r c).chain cs := rfl
    rw [e, ih]
    cases c <;> rfl

/-- C6: starting from a run whose `RunProperties` has every field absent, after any chain of
styling calls each field holds the value of the last call to its own method in the chain, and
is absent when the chain has no such call; calls to the other methods, wherever they stand,
do not matter, and `Children` is untouched.  `Bold()`, `Italic()`, `Color("FF0000")` leaves
exactly `Bold`, `Italic` and `Color` present with `Color.Val = "FF0000"`, and setting one of
the three back to absent leaves the other two as they were. -/
theorem styling_last_call_wins (children : List RunChild) (calls : List StyleCall) :
    ((Run.mk {} children).chain calls).RunProperties.Color =
      (calls.filterMap StyleCall.color).getLast? ∧
    ((Run.mk {} children).chain calls).RunProperties.Size =
      (calls.filterMap StyleCall.size).getLast? ∧
    ((Run.mk {} children).chain calls).RunProperties.Shade =
      (calls.filterMap StyleCall.shade).getLast? ∧
    ((Run.mk {} children).chain calls).RunProperties.Bold =
      (calls.filterMap StyleCall.bold).getLast? ∧
    ((Run.mk {} children).chain calls).RunProperties.Italic =
      (calls.filterMap StyleCall.italic).getLast? ∧
    ((Run.mk {} children).chain calls).RunProperties.Underline =
      (calls.filterMap StyleCall.underline).getLast? ∧
    ((Run.mk {} children).chain calls).RunProperties.Highlight =
      (calls.filterMap StyleCall.highlight).getLast? ∧
    ((Run.mk {} children).chain calls).Children = children ∧
    ((Run.mk {} children).Bold.Italic.Color "FF0000").RunProperties =
      { Bold := some {}, Italic := some {}, Color := some ⟨"FF0000"⟩ } ∧
    { ((Run.mk {} children).Bold.Italic.Color "FF0000").RunProperties with Bold := none } =
      { Italic := some {}, Color := some ⟨"FF0000"⟩ } ∧
    { ((Run.mk {} children).Bold.Italic.Color "FF0000").RunProperties with Italic := none } =
      { Bold := some {}, Color := some ⟨"FF0000"⟩ } ∧
    { ((Run.mk {} children).Bold.Italic.Color "FF0000").RunProperties with Color := none } =
      { Bold := some {}, Italic := some {} } := by
  refine ⟨?_, ?_, ?_, ?_, ?_, ?_, ?_, chain_children calls _, rfl, rfl, rfl, rfl⟩
  · rw [chain_field (fun r => r.RunProperties.Color) StyleCall.color
      (by intro r c; cases c <;> rfl)]
    cases (List.filterMap StyleCall.color calls).getLast? <;> rfl
  · rw [chain_field (fun r => r.RunProperties.Size) StyleCall.size
      (by intro r c; cases c <;> rfl)]
    cases (List.filterMap StyleCall.size calls).getLast? <;> rfl
  · rw [chain_field (fun r => r.RunProperties.Shade) StyleCall.shade
      (by intro r c; cases c <;> rfl)]
    cases (List.filterMap StyleCall.shade calls).getLast? <;> rfl
  · rw [chain_field (fun r => r.RunProperties.Bold) StyleCall.bold
      (by intro r c; cases c <;> rfl)]
    cases (List.filterMap StyleCall.bold calls).getLast? <;> rfl
  · rw [chain_field (fun r => r.RunProperties.Italic) StyleCall.italic
      (by intro r c; cases c <;> rfl)]
    cases (List.filterMap StyleCall.italic calls).getLast? <;> rfl
  · rw [chain_field (fun r => r.RunProperties.Underline) StyleCall.underline
      (by intro r c; cases c <;> rfl)]
    cases (List.filterMap StyleCall.underline calls).getLast? <;> rfl
  · rw [chain_field (fun r => r.RunProperties.Highlight) StyleCall.highlight
      (by intro r c; cases c <;> rfl)]
    cases (List.filterMap StyleCall.highlight calls).getLast? <;> rfl

/-! ### The archive -/

theorem Files_set_keys_new (files : Files) (k : String) (v : Reader)
    (h : k ∉ files.map Prod.fst) : (Files.set files k v).map Prod.fst = files.map Prod.fst ++ [k] := by
  have hany : files.any (fun e => decide (e.1 = k)) = false := by
    rw [List.any_eq_false]
    intro e he heq
    simp only [decide_eq_true_eq] at heq
    exact h (List.mem_map.2 ⟨e, he, heq⟩)
  simp [Files.set, hany]

theorem openParts_keys (fs : FS) (path : String → String) (names : List String) :
    ∀ (files files' : Files), openParts fs path names files = .ok files' →
      (files.map Prod.fst ++ names).Nodup →
      files'.map Prod.fst = files.map Prod.fst ++ names := by
  induction names with
  | nil =>
    intro files files' h _
    simp only [openParts, Except.ok.injEq] at h
    simp [h]
  | cons name rest ih =>
    intro files files' h hnd
    rw [openParts] at h
    cases hf : fs (path name) with
    | error e => rw [hf] at h; simp at h
    | ok file =>
      rw [hf] at h
      simp only at h
      have hnew : name ∉ files.map Prod.fst := by
        intro hmem
        have := List.nodup_append.1 hnd
        exact this.2.2 hmem (List.mem_cons_self _ _)
      have hk := Files_set_keys_new files name (Reader.file file) hnew
      have := ih _ _ h (by rw [hk]; simpa using hnd)
      rw [this, hk]; simp

theorem media_keys (mediaString : Media → String) (media : List Media) :
    ∀ (files : Files), (files.map Prod.fst ++ media.map mediaString).Nodup →
      (media.foldl (fun files m => Files.set files (mediaString m) (Reader.bytesReader m.Data))
        files).map Prod.fst = files.map Prod.fst ++ media.map mediaString := by
  induction media with
  | nil => intro files _; simp
  | cons m rest ih =>
    intro files hnd
    have hnew : mediaString m ∉ files.map Prod.fst := by
      intro hmem
      have := List.nodup_append.1 hnd
      exact this.2.2 hmem (by simp)
    have hk := Files_set_keys_new files (mediaString m) (Reader.bytesReader m.Data) hnew
    rw [List.foldl_cons, ih _ (by rw [hk]; simpa using hnd), hk]
    simp

theorem appendLast_keys (l : List (String × Bytes)) (p : Bytes) :
    (appendLast l p).map Prod.fst = l.map Prod.fst := by
  induction l with
  | nil => rfl
  | cons e rest ih =>
    cases rest with
    | nil => obtain ⟨k, b⟩ := e; rfl
    | cons e2 rest => simp only [appendLast, List.map_cons, ih]

theorem Write_keys (z : ZipWriter) (p : Bytes) :
    (z.Write p).1.entries.map Prod.fst = z.entries.map Prod.fst := by
  unfold ZipWriter.Write
  split
  · rfl
  · exact appendLast_keys _ _

theorem Copy_keys (z : ZipWriter) (r : Reader) :
    (Copy z r).1.entries.map Prod.fst = z.entries.map Prod.fst := by
  cases r with
  | file f =>
    simp only [Copy]
    split_ifs
    · rfl
    · have := Write_keys z f.data
      split <;> rename_i heq <;> rw [heq] at this <;> exact this
  | marshaller m =>
    simp only [Copy, marshaller.WriteTo]
    have h1 := Write_keys z xmlHeader
    cases hw : z.Write xmlHeader with
    | mk z1 e1 =>
      rw [hw] at h1
      cases e1 with
      | some e => exact h1
      | none =>
        simp only
        have h2 := Write_keys z1 m.xml
        cases hw2 : z1.Write m.xml with
        | mk z2 e2 =>
          rw [hw2] at h2
          cases e2 with
          | some e => exact h2.trans h1
          | none => exact h2.trans h1
  | bytesReader b =>
    simp only [Copy]
    split_ifs
    · rfl
    · exact Write_keys z b

theorem writeParts_keys (l : List (String × Reader)) : ∀ (z z' : ZipWriter),
    writeParts l z = (z', none) →
      z'.entries.map Prod.fst = z.entries.map Prod.fst ++ l.map Prod.fst := by
  induction l with
  | nil =>
    intro z z' h
    simp only [writeParts, Prod.mk.injEq, and_true] at h
    simp [h]
  | cons e rest ih =>
    intro z z' h
    obtain ⟨path, r⟩ := e
    rw [writeParts] at h
    cases hc : z.Create path with
    | mk z1 e1 =>
      rw [hc] at h
      cases e1 with
      | some e => simp at h
      | none =>
        simp only at h
        have hk := Copy_keys z1 r
        cases hcp : Copy z1 r with
        | mk z2 e2 =>
          rw [hcp] at h hk
          cases e2 with
          | some e => simp at h
          | none =>
            simp only at h
            rw [ih _ _ h, hk]
            unfold ZipWriter.Create at hc
            split at hc
            · simp at hc
            · simp only [Prod.mk.injEq, and_true] at hc
              rw [← hc]
              simp

theorem pack_files_keys (mediaString : Media → String) (f : Docx) (fs : FS)
    (path : String → String) (files : Files)
    (hpaths : (f.paths mediaString).Nodup)
    (ho : openParts fs path f.tmpfslst [] = .ok files) :
    (f.media.foldl (fun files m => Files.set files (mediaString m) (Reader.bytesReader m.Data))
      (Files.set (Files.set files "word/_rels/document.xml.rels" (Reader.marshaller f.docRelation))
        "word/document.xml" (Reader.marshaller f.Document))).map Prod.fst =
      f.paths mediaString := by
  unfold Docx.paths at hpaths ⊢
  have h1 := openParts_keys fs path f.tmpfslst [] files ho
    (by simpa using (List.nodup_append.1 (List.nodup_append.1 hpaths).1).1)
  simp only [List.map_nil, List.nil_append] at h1
  have hnd2 := (List.nodup_append.1 hpaths).1
  have h2 := Files_set_keys_new files "word/_rels/document.xml.rels"
    (Reader.marshaller f.docRelation) (by
      rw [h1]; intro hmem
      exact (List.nodup_append.1 hnd2).2.2 hmem (by simp))
  have h3 := Files_set_keys_new _ "word/document.xml" (Reader.marshaller f.Document) (by
      rw [h2, h1]; intro hmem
      rw [List.mem_append] at hmem
      rcases hmem with hmem | hmem
      · exact (List.nodup_append.1 hnd2).2.2 hmem (by simp)
      · simp at hmem)
  rw [media_keys, h3, h2, h1]
  · simp
  · rw [h3, h2, h1]; simpa using hpaths

/-- C4, as stated, fails: with the template part name `word/document.xml` (N = 1) and no
media (M = 0) a successful pack writes 2 entries, not N + 2 + M = 3: the generated document
takes the place of the template part under the same path in the map. -/
theorem pack_collision_two_entries :
    (Docx.pack (fun _ => .ok ⟨[1], none⟩) (fun m => "word/media/" ++ m.Name) id
      ⟨"", ["word/document.xml"], fun _ => .ok ⟨[1], none⟩, ⟨[2], none⟩, ⟨[3], none⟩, []⟩
      ⟨[], fun _ _ => none, fun _ _ => none⟩).2 = none ∧
    (Docx.pack (fun _ => .ok ⟨[1], none⟩) (fun m => "word/media/" ++ m.Name) id
      ⟨"", ["word/document.xml"], fun _ => .ok ⟨[1], none⟩, ⟨[2], none⟩, ⟨[3], none⟩, []⟩
      ⟨[], fun _ _ => none, fun _ _ => none⟩).1.entries.map Prod.fst =
      ["word/document.xml", "word/_rels/document.xml.rels"] := by
  decide

/-- C4, amended: when the N template part names, `word/_rels/document.xml.rels`,
`word/document.xml` and the M derived media paths are pairwise distinct, a successful pack
adds exactly N + 2 + M entries to the archive, one for each of these paths and no other, in
whatever order the map is iterated. -/
theorem pack_entry_count (TemplateXMLFS : FS) (mediaString : Media → String)
    (range : Files → List (String × Reader)) (f : Docx) (z z' : ZipWriter)
    (hrange : ∀ files, (range files).Perm files)
    (hpaths : (f.paths mediaString).Nodup)
    (hok : f.pack TemplateXMLFS mediaString range z = (z', none)) :
    ∃ added : List String,
      z'.entries.map Prod.fst = z.entries.map Prod.fst ++ added ∧
      added.Perm (f.paths mediaString) ∧ added.Nodup ∧
      added.length = f.tmpfslst.length + 2 + f.media.length := by
  unfold Docx.pack at hok
  simp only at hok
  split at hok
  · simp at hok
  · rename_i files ho
    have hkeys : ∀ fs path, openParts fs path f.tmpfslst [] = .ok files →
        (f.media.foldl (fun files m => Files.set files (mediaString m) (Reader.bytesReader m.Data))
          (Files.set (Files.set files "word/_rels/document.xml.rels"
            (Reader.marshaller f.docRelation))
            "word/document.xml" (Reader.marshaller f.Document))).map Prod.fst =
          f.paths mediaString :=
      fun fs path h => pack_files_keys mediaString f fs path files hpaths h
    have hk : (f.media.foldl
        (fun files m => Files.set files (mediaString m) (Reader.bytesReader m.Data))
          (Files.set (Files.set files "word/_rels/document.xml.rels"
            (Reader.marshaller f.docRelation))
            "word/document.xml" (Reader.marshaller f.Document))).map Prod.fst =
          f.paths mediaString := by
      split_ifs at ho
      · exact hkeys _ _ ho
      · exact hkeys _ _ ho
    have hw := writeParts_keys _ _ _ hok
    have hp := ((hrange (f.media.foldl
        (fun files m => Files.set files (mediaString m) (Reader.bytesReader m.Data))
          (Files.set (Files.set files "word/_rels/document.xml.rels"
            (Reader.marshaller f.docRelation))
            "word/document.xml" (Reader.marshaller f.Document)))).map Prod.fst)
    rw [hk] at hp
    refine ⟨_, hw, hp, hp.nodup_iff.2 hpaths, ?_⟩
    rw [hp.length_eq]
    simp [Docx.paths]; omega

/-- C4 (amended), at one template part, no collision and one media item: four entries. -/
theorem pack_entry_count_witness :
    ∃ added : List String,
      ["word/styles.xml", "word/_rels/document.xml.rels", "word/document.xml", "word/media/m1"] =
        ([] : List (String × Bytes)).map Prod.fst ++ added ∧
      added.Perm (Docx.paths (fun m => "word/media/" ++ m.Name)
        ⟨"", ["word/styles.xml"], fun _ => .ok ⟨[1], none⟩, ⟨[2], none⟩, ⟨[3], none⟩,
          [⟨"m1", [9]⟩]⟩) ∧
      added.Nodup ∧ added.length = 1 + 2 + 1 :=
  pack_entry_count (fun _ => .ok ⟨[1], none⟩) (fun m => "word/media/" ++ m.Name) id
    ⟨"", ["word/styles.xml"], fun _ => .ok ⟨[1], none⟩, ⟨[2], none⟩, ⟨[3], none⟩, [⟨"m1", [9]⟩]⟩
    ⟨[], fun _ _ => none, fun _ _ => none⟩
    ⟨[("word/styles.xml", [1]), ("word/_rels/document.xml.rels", xmlHeader ++ [2]),
      ("word/document.xml", xmlHeader ++ [3]), ("word/media/m1", [9])],
      fun _ _ => none, fun _ _ => none⟩
    (fun _ => List.Perm.refl _) (by decide) (by
      simp only [Docx.pack]
      rfl)

/-! ### `Itoa` and `Atoi` -/

theorem digit_toNat (d : Nat) (h : d < 10) : (Char.ofNat (48 + d)).toNat = 48 + d := by
  interval_cases d <;> rfl

theorem formatBits_append (fuel : Nat) : ∀ (u : Nat) (a : List Char),
    formatBits fuel u a = formatBits fuel u [] ++ a := by
  induction fuel with
  | zero => intro u a; rfl
  | succ fuel ih =>
    intro u a
    simp only [formatBits]
    split_ifs
    · rfl
    · rw [ih (u / 10) (_ :: a), ih (u / 10) [_]]
      simp

/-- The value of a digit string read from the left, starting from `acc`. -/
theorem foldl_digits_ge (L : List Char) : ∀ (acc : Nat),
    acc ≤ L.foldl (fun n c => n * 10 + (c.toNat - 48)) acc := by
  induction L with
  | nil => intro acc; exact Nat.le_refl _
  | cons c cs ih =>
    intro acc
    simp only [List.foldl_cons]
    exact Nat.le_trans (by omega) (ih _)

theorem ParseUintLoop_digits (L : List Char) : ∀ (acc : Nat),
    (∀ c ∈ L, 48 ≤ c.toNat ∧ c.toNat ≤ 57) →
    L.foldl (fun n c => n * 10 + (c.toNat - 48)) acc < 2 ^ 64 →
    ParseUintLoop L acc = (L.foldl (fun n c => n * 10 + (c.toNat - 48)) acc, none) := by
  induction L with
  | nil => intro acc _ _; rfl
  | cons c cs ih =>
    intro acc hd hlt
    have hc := hd c (List.mem_cons_self _ _)
    simp only [List.foldl_cons] at hlt ⊢
    have hge := foldl_digits_ge cs (acc * 10 + (c.toNat - 48))
    have h64 : (2 : Nat) ^ 64 = 18446744073709551616 := by norm_num
    rw [h64] at hlt
    rw [ParseUintLoop, if_pos hc, if_neg (by rw [h64]; omega), if_neg (by rw [h64]; omega)]
    exact ih _ (fun c' hc' => hd c' (List.mem_cons_of_mem _ hc')) (by rw [h64]; exact hlt)

theorem formatBits_spec (fuel : Nat) : ∀ (u : Nat), u < 10 ^ (fuel + 1) →
    (formatBits (fuel + 1) u []).foldl (fun n c => n * 10 + (c.toNat - 48)) 0 = u ∧
    (∀ c ∈ formatBits (fuel + 1) u [], 48 ≤ c.toNat ∧ c.toNat ≤ 57) ∧
    formatBits (fuel + 1) u [] ≠ [] := by
  induction fuel with
  | zero =>
    intro u h
    have h10 : u < 10 := by simpa using h
    have := digit_toNat u h10
    simp only [formatBits, if_pos h10]
    refine ⟨by simp [this], ?_, by simp⟩
    intro c hc
    simp only [List.mem_singleton] at hc
    rw [hc, this]; omega
  | succ fuel ih =>
    intro u h
    rw [formatBits]
    split_ifs with h10
    · have := digit_toNat u h10
      refine ⟨by simp [this], ?_, by simp⟩
      intro c hc
      simp only [List.mem_singleton] at hc
      rw [hc, this]; omega
    · have hq : u / 10 < 10 ^ (fuel + 1) := by
        rw [Nat.div_lt_iff_lt_mul (by norm_num)]
        rw [pow_succ] at h; exact h
      obtain ⟨h1, h2, h3⟩ := ih (u / 10) hq
      have hm := digit_toNat (u % 10) (Nat.mod_lt _ (by norm_num))
      rw [formatBits_append]
      refine ⟨?_, ?_, by simp [h3]⟩
      · rw [List.foldl_append, h1]
        simp only [List.foldl_cons, List.foldl_nil, hm]
        omega
      · intro c hc
        rw [List.mem_append] at hc
        rcases hc with hc | hc
        · exact h2 c hc
        · simp only [List.mem_singleton] at hc
          rw [hc, hm]; omega

theorem ParseUint_formatBits (u : Nat) (h : u < 2 ^ 64) :
    ParseUint (formatBits 20 u []) = (u, none) := by
  have h64 : (2 : Nat) ^ 64 = 18446744073709551616 := by norm_num
  obtain ⟨h1, h2, h3⟩ := formatBits_spec 19 u (by rw [h64] at h; norm_num; omega)
  unfold ParseUint
  split
  · rename_i heq; exact absurd heq h3
  · rw [ParseUintLoop_digits _ 0 h2 (by rw [h1]; exact h), h1]

theorem formatBits_head (u : Nat) (h : u < 2 ^ 64) :
    ∃ c cs, formatBits 20 u [] = c :: cs ∧ c ≠ '+' ∧ c ≠ '-' := by
  have h64 : (2 : Nat) ^ 64 = 18446744073709551616 := by norm_num
  obtain ⟨_, h2, h3⟩ := formatBits_spec 19 u (by rw [h64] at h; norm_num; omega)
  cases hL : formatBits 20 u [] with
  | nil => exact absurd hL h3
  | cons c cs =>
    have hc := h2 c (by rw [hL]; exact List.mem_cons_self _ _)
    refine ⟨c, cs, rfl, ?_, ?_⟩
    · intro he; rw [he] at hc; revert hc; decide
    · intro he; rw [he] at hc; revert hc; decide

theorem Atoi_mk (L : List Char) :
    Atoi ⟨L⟩ = (match L with
      | [] => (0, some (GoError.NumError "Atoi" ⟨L⟩ NumErr.ErrSyntax.Error))
      | c :: cs =>
        match ParseUint (if c = '+' ∨ c = '-' then cs else c :: cs) with
        | (_, some NumErr.ErrSyntax) => (0, some (GoError.NumError "Atoi" ⟨L⟩ NumErr.ErrSyntax.Error))
        | (un, _) =>
          if decide (c = '-') = false ∧ un ≥ intCutoff then
            (((intCutoff - 1 : Nat) : Int), some (GoError.NumError "Atoi" ⟨L⟩ NumErr.ErrRange.Error))
          else if decide (c = '-') = true ∧ un > intCutoff then
            (-(intCutoff : Int), some (GoError.NumError "Atoi" ⟨L⟩ NumErr.ErrRange.Error))
          else
            (if decide (c = '-') then -(un : Int) else (un : Int), none)) := by
  cases L <;> rfl

theorem Atoi_Itoa (n : Int) (h : IsInt n) : Atoi (Itoa n) = (n, none) := by
  have h64 : (2 : Nat) ^ 64 = 18446744073709551616 := by norm_num
  have h63 : intCutoff = 9223372036854775808 := by unfold intCutoff; norm_num
  unfold IsInt at h
  rw [h63] at h
  have hu : n.natAbs < 2 ^ 64 := by rw [h64]; omega
  have hP := ParseUint_formatBits n.natAbs hu
  unfold Itoa
  split_ifs with hneg
  · rw [Atoi_mk]
    simp only [or_true, if_true, hP, decide_True, h63]
    have : ¬ n.natAbs > 9223372036854775808 := by omega
    simp only [Bool.true_eq_false, false_and, if_false, this, and_false, if_true]
    congr 1
    omega
  · obtain ⟨c, cs, hL, hp, hm⟩ := formatBits_head n.natAbs hu
    rw [Atoi_mk, hL]
    simp only [hp, hm, or_self, if_false, ← hL, hP, decide_False, h63]
    have : ¬ n.natAbs ≥ 9223372036854775808 := by omega
    simp only [this, and_false, if_false, Bool.false_eq_true, false_and]
    congr 1
    omega

/-! ### Encoding and decoding a section -/

theorem attrText_valid (s : String) (h : validText s) : attrText s = s := by
  unfold attrText
  have : s.data.map (fun c => if isInCharacterRange c then c else Char.ofNat 0xFFFD) = s.data := by
    conv_rhs => rw [← List.map_id s.data]
    apply List.map_congr_left
    intro c hc
    simp [h c hc]
  rw [this]

theorem validText_Itoa (n : Int) (h : IsInt n) : validText (Itoa n) := by
  have h64 : (2 : Nat) ^ 64 = 18446744073709551616 := by norm_num
  have h63 : intCutoff = 9223372036854775808 := by unfold intCutoff; norm_num
  unfold IsInt at h
  rw [h63] at h
  have hu : n.natAbs < 10 ^ (19 + 1) := by norm_num; omega
  obtain ⟨_, h2, _⟩ := formatBits_spec 19 n.natAbs hu
  have hd : ∀ c ∈ formatBits 20 n.natAbs [], isInCharacterRange c = true := by
    intro c hc
    have := h2 c hc
    unfold isInCharacterRange
    have h1 : decide (0x20 ≤ c.toNat) = true := by simp; omega
    have h3 : decide (c.toNat ≤ 0xD7FF) = true := by simp; omega
    simp [h1, h3]
  unfold validText Itoa
  split_ifs
  · intro c hc
    simp only [List.mem_cons] at hc
    rcases hc with hc | hc
    · rw [hc]; decide
    · exact hd c hc
  · exact hd

theorem PgSz_roundtrip (v : PgSz) (hW : IsInt v.W) (hH : IsInt v.H) :
    PgSz.attrLoop {} (PgSz.attrs v) = (v, none) := by
  simp [PgSz.attrs, PgSz.attrLoop, attrText_valid _ (validText_Itoa _ hW),
    attrText_valid _ (validText_Itoa _ hH), Atoi_Itoa _ hW, Atoi_Itoa _ hH]

theorem HeaderReference_roundtrip (v : HeaderReference) (h1 : validText v.Id)
    (h2 : validText v.Type_) :
    (HeaderReference.attrs v).foldl HeaderReference.setAttr {} = v := by
  simp [HeaderReference.attrs, HeaderReference.setAttr, attrText_valid _ h1, attrText_valid _ h2]

theorem FooterReference_roundtrip (v : FooterReference) (h1 : validText v.Id)
    (h2 : validText v.Type_) :
    (FooterReference.attrs v).foldl FooterReference.setAttr {} = v := by
  simp [FooterReference.attrs, FooterReference.setAttr, attrText_valid _ h1, attrText_valid _ h2]

theorem SectType_roundtrip (v : SectType) (h1 : validText v.Val) :
    (SectType.attrs v).foldl SectType.setAttr {} = v := by
  simp [SectType.attrs, SectType.setAttr, attrText_valid _ h1]

theorem PgMar_roundtrip (v : PgMar) (h1 : validText v.Top) (h2 : validText v.Right)
    (h3 : validText v.Bottom) (h4 : validText v.Left) (h5 : validText v.Header)
    (h6 : validText v.Footer) (h7 : validText v.Gutter) :
    (PgMar.attrs v).foldl PgMar.setAttr {} = v := by
  simp [PgMar.attrs, PgMar.setAttr, attrText_valid _ h1, attrText_valid _ h2,
    attrText_valid _ h3, attrText_valid _ h4, attrText_valid _ h5, attrText_valid _ h6,
    attrText_valid _ h7]

theorem Cols_roundtrip (v : Cols) (h1 : validText v.Space) (h2 : validText v.Num) :
    (Cols.attrs v).foldl Cols.setAttr {} = v := by
  simp [Cols.attrs, Cols.setAttr, attrText_valid _ h1, attrText_valid _ h2]

theorem DocGrid_roundtrip (v : DocGrid) (h1 : validText v.LinePitch)
    (h2 : validText v.CharSpace) :
    (DocGrid.attrs v).foldl DocGrid.setAttr {} = v := by
  simp [DocGrid.attrs, DocGrid.setAttr, attrText_valid _ h1, attrText_valid _ h2]

/-- Go `xml.Unmarshal` on one element with well-formed content: the outcome of
`SectPr.UnmarshalXML` on the content. -/
theorem Unmarshal_element (name : Name) (attr : List Attr) (F : Forest) (sect r : SectPr)
    (h : SectPr.children sect F = some r) :
    Unmarshal (Token.StartElement ⟨name, attr⟩ :: (F.tokens ++ [Token.EndElement name])) sect =
      some (r, none) := by
  unfold Unmarshal NewDecoder
  simp only [List.length_cons, Decoder.firstStart, Token_start_nil]
  unfold SectPr.DecodeElement
  simp only [Decoder.pushEOF, pushEOFStack]
  rw [(UnmarshalXML_content F sect [] GoError.EOF name [] 1 ⟨name, attr⟩).1 r h]
  rfl

/-- C1, as stated, fails.  First: `SectPr.UnmarshalXML` ignores the start element, so the
field `XMLName` of the decoded value is the zero name, whatever the original held; the
encoder names the element by the field's annotation either way.  Second: the encoder writes
U+FFFD for a character XML does not allow, so the text `"\x01"` comes back as `"�"`. -/
theorem roundtrip_not_for_every_value :
    Unmarshal (Marshal ⟨⟨"", "sectPr"⟩, some ⟨12240, 15840⟩, some ⟨"rId1", "default"⟩,
        some ⟨"rId2", "default"⟩, some ⟨"nextPage"⟩,
        some ⟨"1440", "1800", "1440", "1800", "851", "992", "0"⟩, some ⟨"425", "1"⟩,
        some ⟨"312", "0"⟩⟩) {} =
      some (⟨⟨"", ""⟩, some ⟨12240, 15840⟩, some ⟨"rId1", "default"⟩,
        some ⟨"rId2", "default"⟩, some ⟨"nextPage"⟩,
        some ⟨"1440", "1800", "1440", "1800", "851", "992", "0"⟩, some ⟨"425", "1"⟩,
        some ⟨"312", "0"⟩⟩, none) ∧
    Unmarshal (Marshal ⟨⟨"", ""⟩, some ⟨12240, 15840⟩, some ⟨"rId1", "default"⟩,
        some ⟨"rId2", "default"⟩, some ⟨"\x01"⟩,
        some ⟨"1440", "1800", "1440", "1800", "851", "992", "0"⟩, some ⟨"425", "1"⟩,
        some ⟨"312", "0"⟩⟩) {} =
      some (⟨⟨"", ""⟩, some ⟨12240, 15840⟩, some ⟨"rId1", "default"⟩,
        some ⟨"rId2", "default"⟩, some ⟨"�"⟩,
        some ⟨"1440", "1800", "1440", "1800", "851", "992", "0"⟩, some ⟨"425", "1"⟩,
        some ⟨"312", "0"⟩⟩, none) := by
  decide

/-- C1, amended: for every `SectPr` whose `XMLName` is the zero name and whose seven
children are all present, with any `int` dimensions and any attribute texts made of
characters XML allows, encoding it under its field annotations and decoding the result into a
fresh `SectPr` succeeds and yields a value equal to the original in every field. -/
theorem roundtrip_all_present (pgSz : PgSz) (headerReference : HeaderReference)
    (footerReference : FooterReference) (type : SectType) (pgMar : PgMar) (cols : Cols)
    (docGrid : DocGrid)
    (h1 : pgSz.valid) (h2 : headerReference.valid) (h3 : footerReference.valid)
    (h4 : type.valid) (h5 : pgMar.valid) (h6 : cols.valid) (h7 : docGrid.valid) :
    Unmarshal (Marshal ⟨{}, some pgSz, some headerReference, some footerReference, some type,
        some pgMar, some cols, some docGrid⟩) {} =
      some (⟨{}, some pgSz, some headerReference, some footerReference, some type, some pgMar,
        some cols, some docGrid⟩, none) := by
  unfold Marshal
  apply Unmarshal_element
  have e1 := PgSz_roundtrip pgSz h1.1 h1.2
  have e2 := HeaderReference_roundtrip headerReference h2.1 h2.2
  have e3 := FooterReference_roundtrip footerReference h3.1 h3.2
  have e4 := SectType_roundtrip type h4
  have e5 := PgMar_roundtrip pgMar h5.1 h5.2.1 h5.2.2.1 h5.2.2.2.1 h5.2.2.2.2.1 h5.2.2.2.2.2.1
    h5.2.2.2.2.2.2
  have e6 := Cols_roundtrip cols h6.1 h6.2
  have e7 := DocGrid_roundtrip docGrid h7.1 h7.2
  simp only [SectPr.content, optElement, SectPr.children, SectPr.child]
  simp [e1, e2, e3, e4, e5, e6, e7]

/-- C1 (amended), at a letter-size section. -/
theorem roundtrip_all_present_witness :
    Unmarshal (Marshal ⟨{}, some ⟨12240, 15840⟩, some ⟨"rId1", "default"⟩,
        some ⟨"rId2", "default"⟩, some ⟨"nextPage"⟩,
        some ⟨"1440", "1800", "1440", "1800", "851", "992", "0"⟩, some ⟨"425", "1"⟩,
        some ⟨"312", "0"⟩⟩) {} =
      some (⟨{}, some ⟨12240, 15840⟩, some ⟨"rId1", "default"⟩,
        some ⟨"rId2", "default"⟩, some ⟨"nextPage"⟩,
        some ⟨"1440", "1800", "1440", "1800", "851", "992", "0"⟩, some ⟨"425", "1"⟩,
        some ⟨"312", "0"⟩⟩, none) :=
  roundtrip_all_present ⟨12240, 15840⟩ ⟨"rId1", "default"⟩ ⟨"rId2", "default"⟩ ⟨"nextPage"⟩
    ⟨"1440", "1800", "1440", "1800", "851", "992", "0"⟩ ⟨"425", "1"⟩ ⟨"312", "0"⟩
    (by decide) (by decide) (by decide) (by decide) (by decide) (by decide) (by decide)

/-! ### Tab insertion -/

/-- C14: `AddTab` appends exactly one tab marker at the end of `Children`: the length grows by
one, every previous child keeps its position, the last child is the new tab, and
`RunProperties` is unchanged.  The run returned is the receiver: the result of the embedded
method is the receiver after the call. -/
theorem AddTab_appends (r : Run) :
    r.AddTab.Children = r.Children ++ [RunChild.Tab {}] ∧
    r.AddTab.Children.length = r.Children.length + 1 ∧
    (∀ i, i < r.Children.length → r.AddTab.Children[i]? = r.Children[i]?) ∧
    r.AddTab.Children.getLast? = some (RunChild.Tab {}) ∧
    r.AddTab.RunProperties = r.RunProperties := by
  refine ⟨rfl, by simp [Run.AddTab], ?_, by simp [Run.AddTab], rfl⟩
  intro i hi
  simp only [Run.AddTab]
  exact List.getElem?_append_left hi

/-- C14, on a run that holds one text: the text stays first and the tab follows. -/
theorem AddTab_appends_witness :
    (Run.mk {} [RunChild.Text "a"]).AddTab.Children[0]? =
      (Run.mk {} [RunChild.Text "a"]).Children[0]? ∧
    (Run.mk {} [RunChild.Text "a"]).AddTab.Children = [RunChild.Text "a", RunChild.Tab {}] :=
  ⟨(AddTab_appends (Run.mk {} [RunChild.Text "a"])).2.2.1 0 (by decide), by decide⟩

/-- C15 fails on the code: on a run that already holds the text `a`, `AddTab` leaves the text
first and puts the tab marker last, although its comment says "add a tab in front of the
run". -/
theorem AddTab_not_in_front :
    (Run.mk {} [RunChild.Text "a"]).AddTab.Children = [RunChild.Text "a", RunChild.Tab {}] ∧
    (Run.mk {} [RunChild.Text "a"]).AddTab.Children.head? ≠ some (RunChild.Tab {}) := by
  decide

/-! ### A malformed page size -/

theorem attrLoop_error_attr (attrs : List Attr) : ∀ (v v' : PgSz) (e : GoError),
    PgSz.attrLoop v attrs = (v', some e) →
    ∃ a ∈ attrs, (a.Name.Local = "w" ∨ a.Name.Local = "h") ∧ (Atoi a.Value).2 = some e := by
  induction attrs with
  | nil => intro v v' e h; simp [PgSz.attrLoop] at h
  | cons a rest ih =>
    intro v v' e h
    rw [PgSz.attrLoop] at h
    by_cases hw : a.Name.Local = "w"
    · rw [if_pos hw] at h
      cases hA : Atoi a.Value with
      | mk n oe =>
        rw [hA] at h
        cases oe with
        | some e1 =>
          simp only [Prod.mk.injEq, Option.some.injEq] at h
          exact ⟨a, List.mem_cons_self _ _, Or.inl hw, by rw [hA, ← h.2]⟩
        | none =>
          obtain ⟨b, hb, hb2⟩ := ih _ _ _ h
          exact ⟨b, List.mem_cons_of_mem _ hb, hb2⟩
    · rw [if_neg hw] at h
      by_cases hh : a.Name.Local = "h"
      · rw [if_pos hh] at h
        cases hA : Atoi a.Value with
        | mk n oe =>
          rw [hA] at h
          cases oe with
          | some e1 =>
            simp only [Prod.mk.injEq, Option.some.injEq] at h
            exact ⟨a, List.mem_cons_self _ _, Or.inr hh, by rw [hA, ← h.2]⟩
          | none =>
            obtain ⟨b, hb, hb2⟩ := ih _ _ _ h
            exact ⟨b, List.mem_cons_of_mem _ hb, hb2⟩
      · rw [if_neg hh] at h
        obtain ⟨b, hb, hb2⟩ := ih _ _ _ h
        exact ⟨b, List.mem_cons_of_mem _ hb, hb2⟩

/-- C11: when the section content is well-formed children `before`, none of which fails
(`SectPr.UnmarshalXML` on them alone succeeds with the section `sect1`), followed by a `pgSz`
start tag with a `w` or `h` attribute that is no integer, `SectPr.UnmarshalXML` returns the
`strconv.Atoi` error of such an attribute: the error is fatal under the tolerance rule, the
section is `sect1`, with no `PgSz` recorded from that element, and no token after that start
tag has been read. -/
theorem malformed_pgSz_is_fatal (before : Forest) (name : Name) (attr : List Attr)
    (after : List Token) (sect sect1 : SectPr) (d1 : Decoder) (ie : GoError) (n : Name)
    (s : List Stack) (ln : Nat) (st : StartElement)
    (hname : name.Local = "pgSz")
    (hbad : ∃ a ∈ attr, (a.Name.Local = "w" ∨ a.Name.Local = "h") ∧ (Atoi a.Value).2 ≠ none)
    (hbefore : SectPr.UnmarshalXML sect
      ⟨before.tokens ++ [Token.EndElement n], ie, Stack.stkStart n :: Stack.stkEOF :: s, none, ln⟩
      st = some (sect1, d1, none)) :
    ∃ e, (∃ a ∈ attr, (a.Name.Local = "w" ∨ a.Name.Local = "h") ∧ (Atoi a.Value).2 = some e) ∧
      fatal (some e) = true ∧
      SectPr.UnmarshalXML sect
        ⟨before.tokens ++ Token.StartElement ⟨name, attr⟩ :: after, ie,
          Stack.stkStart n :: Stack.stkEOF :: s, none, ln⟩ st =
        some (sect1, ⟨after, ie,
          Stack.stkStart name :: Stack.stkEOF :: Stack.stkStart n :: Stack.stkEOF :: s, none, ln⟩,
          some e) := by
  have hk := children_of_success before sect sect1 d1 [] ie n s ln st hbefore
  have hne := (attrLoop_fails attr {}).2 hbad
  cases hl : PgSz.attrLoop {} attr with
  | mk v oe =>
    rw [hl] at hne
    cases oe with
    | none => exact absurd rfl hne
    | some e =>
      have hf := attrLoop_error attr {} v e hl
      refine ⟨e, attrLoop_error_attr attr {} v e hl, hf, ?_⟩
      rw [(UnmarshalXML_children before sect _ ie n (Stack.stkEOF :: s) ln st).1 sect1 hk,
        UnmarshalXML_unfold, Token_start]
      simp only [SectPr.dispatch, if_pos hname, Decoder.DecodeElement,
        Decoder.unmarshalInterface, PgSz.UnmarshalXML, Decoder.pushEOF, pushEOFStack, hl,
        Decoder.unmarshalDone, Decoder.popEOF]
      rw [afterChild_fatal _ _ _ _ _ hf]

/-- C11, at `<w:cols w:num="2"/><w:pgSz w:w="12240" w:h="tall"/><w:docGrid/>`: the decode
returns the parse error of `h`, keeps the columns, records no page size and stops in front
of the end tag of `pgSz`. -/
theorem malformed_pgSz_is_fatal_witness :
    ∃ e, (∃ a ∈ [(⟨⟨"w", "w"⟩, "12240"⟩ : Attr), ⟨⟨"w", "h"⟩, "tall"⟩],
        (a.Name.Local = "w" ∨ a.Name.Local = "h") ∧ (Atoi a.Value).2 = some e) ∧
      fatal (some e) = true ∧
      SectPr.UnmarshalXML {}
        ⟨(Forest.element ⟨"w", "cols"⟩ [⟨⟨"w", "num"⟩, "2"⟩] Forest.nil Forest.nil).tokens ++
          Token.StartElement ⟨⟨"w", "pgSz"⟩, [⟨⟨"w", "w"⟩, "12240"⟩, ⟨⟨"w", "h"⟩, "tall"⟩]⟩ ::
            [Token.EndElement ⟨"w", "pgSz"⟩, Token.StartElement ⟨⟨"w", "docGrid"⟩, []⟩,
              Token.EndElement ⟨"w", "docGrid"⟩, Token.EndElement ⟨"w", "sectPr"⟩],
          GoError.EOF, Stack.stkStart ⟨"w", "sectPr"⟩ :: Stack.stkEOF :: [], none, 1⟩
        ⟨⟨"w", "sectPr"⟩, []⟩ =
      some ({ Cols := some ⟨"", "2"⟩ },
        ⟨[Token.EndElement ⟨"w", "pgSz"⟩, Token.StartElement ⟨⟨"w", "docGrid"⟩, []⟩,
            Token.EndElement ⟨"w", "docGrid"⟩, Token.EndElement ⟨"w", "sectPr"⟩], GoError.EOF,
          Stack.stkStart ⟨"w", "pgSz"⟩ :: Stack.stkEOF :: Stack.stkStart ⟨"w", "sectPr"⟩ ::
            Stack.stkEOF :: [], none, 1⟩, some e) :=
  malformed_pgSz_is_fatal
    (Forest.element ⟨"w", "cols"⟩ [⟨⟨"w", "num"⟩, "2"⟩] Forest.nil Forest.nil)
    ⟨"w", "pgSz"⟩ [⟨⟨"w", "w"⟩, "12240"⟩, ⟨⟨"w", "h"⟩, "tall"⟩] _ {} { Cols := some ⟨"", "2"⟩ }
    ⟨[], GoError.EOF, [Stack.stkEOF], none, 1⟩ GoError.EOF ⟨"w", "sectPr"⟩ [] 1
    ⟨⟨"w", "sectPr"⟩, []⟩ rfl (by decide) (by decide)

/-! ### A section without children -/

theorem tokens_ofMisc (ms : List Misc) : (Forest.ofMisc ms).tokens = ms.map Misc.token := by
  induction ms with
  | nil => rfl
  | cons m rest ih => simp [Forest.ofMisc, Forest.tokens, ih]

theorem children_ofMisc (ms : List Misc) (sect : SectPr) :
    SectPr.children sect (Forest.ofMisc ms) = some sect := by
  induction ms with
  | nil => rfl
  | cons m rest ih => simpa [Forest.ofMisc, SectPr.children] using ih

/-- C17: a `SectPr` with all seven children absent encodes to the root element alone, a start
tag and an end tag with nothing between; decoding that output into a fresh `SectPr` yields
all seven children absent, and so does decoding any element whose content holds no start
element (text, comments, processing instructions and directives only). -/
theorem absent_children_roundtrip (xmlName name : Name) (attr : List Attr) (ms : List Misc) :
    Marshal ⟨xmlName, none, none, none, none, none, none, none⟩ =
      [Token.StartElement ⟨⟨"w", "sectPr"⟩, []⟩, Token.EndElement ⟨"w", "sectPr"⟩] ∧
    Unmarshal (Marshal ⟨xmlName, none, none, none, none, none, none, none⟩) {} =
      some (⟨{}, none, none, none, none, none, none, none⟩, none) ∧
    Unmarshal (Token.StartElement ⟨name, attr⟩ :: (ms.map Misc.token ++ [Token.EndElement name]))
      {} = some (⟨{}, none, none, none, none, none, none, none⟩, none) := by
  refine ⟨rfl, ?_, ?_⟩
  · exact Unmarshal_element _ _ Forest.nil {} {} rfl
  · rw [← tokens_ofMisc]
    exact Unmarshal_element _ _ (Forest.ofMisc ms) {} {} (children_ofMisc ms {})

/-! ### The sign of a page dimension -/

theorem Atoi_nonneg (s : String) (h : s.data.head? ≠ some '-') : 0 ≤ (Atoi s).1 := by
  obtain ⟨L⟩ := s
  rw [Atoi_mk]
  cases L with
  | nil => simp
  | cons c cs =>
    have hc : c ≠ '-' := by simpa using h
    simp only [hc, decide_False, or_false]
    split
    · simp
    · split_ifs <;> simp_all [intCutoff]

theorem lastAttr_mem (loc : String) (attrs : List Attr) : ∀ (x : String),
    lastAttr loc attrs = some x → ∃ a ∈ attrs, a.Name.Local = loc ∧ a.Value = x := by
  induction attrs with
  | nil => intro x h; simp [lastAttr] at h
  | cons a rest ih =>
    intro x h
    rw [lastAttr] at h
    cases hl : lastAttr loc rest with
    | some y =>
      rw [hl] at h
      simp only [Option.some.injEq] at h
      obtain ⟨b, hb, hb2⟩ := ih y hl
      exact ⟨b, List.mem_cons_of_mem _ hb, hb2.1, hb2.2.trans h⟩
    | none =>
      rw [hl] at h
      simp only at h
      split_ifs at h with ha
      simp only [Option.some.injEq] at h
      exact ⟨a, List.mem_cons_self _ _, ha, h⟩

/-- C18, as stated, fails: `<w:pgSz w:w="-5"/>` decodes without error to the width -5. -/
theorem PgSz_negative_width :
    PgSz.UnmarshalXML {}
        ⟨[Token.EndElement ⟨"w", "pgSz"⟩], GoError.EOF,
          [Stack.stkStart ⟨"w", "pgSz"⟩, Stack.stkEOF], none, 1⟩
        ⟨⟨"w", "pgSz"⟩, [⟨⟨"w", "w"⟩, "-5"⟩]⟩ =
      (⟨-5, 0⟩, ⟨[], GoError.EOF, [Stack.stkEOF], none, 1⟩, none) ∧
    ¬ (0 : Int) ≤ -5 := by
  decide

/-- C18, amended: every `PgSz` value produced by a successful decode of a start tag whose `w`
and `h` attribute values do not begin with a minus sign has non-negative width and height. -/
theorem PgSz_nonnegative_without_sign (d : Decoder) (start : StartElement)
    (hok : (PgSz.UnmarshalXML {} d start).2.2 = none)
    (hsign : ∀ a ∈ start.Attr, (a.Name.Local = "w" ∨ a.Name.Local = "h") →
      a.Value.data.head? ≠ some '-') :
    0 ≤ (PgSz.UnmarshalXML {} d start).1.W ∧ 0 ≤ (PgSz.UnmarshalXML {} d start).1.H := by
  have hv := attrLoop_values start.Attr {}
  unfold PgSz.UnmarshalXML at hok ⊢
  cases hl : PgSz.attrLoop {} start.Attr with
  | mk v oe =>
    rw [hl] at hok hv
    cases oe with
    | some e => simp at hok
    | none =>
      simp only
      rw [(consumeToken_err v d).1]
      obtain ⟨h1, h2⟩ := hv rfl
      simp only at h1 h2
      rw [h1, h2]
      constructor
      · cases hw : lastAttr "w" start.Attr with
        | none => exact le_refl _
        | some x =>
          obtain ⟨a, ha, hn, hx⟩ := lastAttr_mem "w" start.Attr x hw
          exact Atoi_nonneg x (by rw [← hx]; exact hsign a ha (Or.inl hn))
      · cases hh : lastAttr "h" start.Attr with
        | none => exact le_refl _
        | some x =>
          obtain ⟨a, ha, hn, hx⟩ := lastAttr_mem "h" start.Attr x hh
          exact Atoi_nonneg x (by rw [← hx]; exact hsign a ha (Or.inr hn))

/-- C18 (amended), at `<w:pgSz w:w="12240" w:h="+15840"/>`. -/
theorem PgSz_nonnegative_without_sign_witness :
    0 ≤ (PgSz.UnmarshalXML {}
        ⟨[Token.EndElement ⟨"w", "pgSz"⟩], GoError.EOF,
          [Stack.stkStart ⟨"w", "pgSz"⟩, Stack.stkEOF], none, 1⟩
        ⟨⟨"w", "pgSz"⟩, [⟨⟨"w", "w"⟩, "12240"⟩, ⟨⟨"w", "h"⟩, "+15840"⟩]⟩).1.W ∧
    0 ≤ (PgSz.UnmarshalXML {}
        ⟨[Token.EndElement ⟨"w", "pgSz"⟩], GoError.EOF,
          [Stack.stkStart ⟨"w", "pgSz"⟩, Stack.stkEOF], none, 1⟩
        ⟨⟨"w", "pgSz"⟩, [⟨⟨"w", "w"⟩, "12240"⟩, ⟨⟨"w", "h"⟩, "+15840"⟩]⟩).1.H :=
  PgSz_nonnegative_without_sign _ _ (by decide) (by decide)

/-! ### Names are matched by their local part -/

theorem map_unprefixed (attrs attrs' : List Attr) (h : localAttrs attrs = localAttrs attrs') :
    attrs.map (fun a => (⟨⟨"", a.Name.Local⟩, a.Value⟩ : Attr)) =
      attrs'.map (fun a => (⟨⟨"", a.Name.Local⟩, a.Value⟩ : Attr)) := by
  have e : ∀ l : List Attr, l.map (fun a => (⟨⟨"", a.Name.Local⟩, a.Value⟩ : Attr)) =
      (localAttrs l).map (fun p => (⟨⟨"", p.1⟩, p.2⟩ : Attr)) := by
    intro l; simp [localAttrs]
  rw [e, e, h]

theorem foldl_unprefixed {α : Type} (set : α → Attr → α)
    (hset : ∀ v a, set v a = set v ⟨⟨"", a.Name.Local⟩, a.Value⟩) (attrs : List Attr) :
    ∀ (v : α), attrs.foldl set v =
      (attrs.map (fun a => (⟨⟨"", a.Name.Local⟩, a.Value⟩ : Attr))).foldl set v := by
  induction attrs with
  | nil => intro v; rfl
  | cons a rest ih =>
    intro v
    simp only [List.foldl_cons, List.map_cons]
    rw [← hset, ih]

theorem attrLoop_unprefixed (attrs : List Attr) : ∀ (v : PgSz), PgSz.attrLoop v attrs =
    PgSz.attrLoop v (attrs.map (fun a => (⟨⟨"", a.Name.Local⟩, a.Value⟩ : Attr))) := by
  induction attrs with
  | nil => intro v; rfl
  | cons a rest ih =>
    intro v
    simp only [List.map_cons, PgSz.attrLoop, ih]

theorem foldl_local {α : Type} (set : α → Attr → α)
    (hset : ∀ v a, set v a = set v ⟨⟨"", a.Name.Local⟩, a.Value⟩) (attrs attrs' : List Attr)
    (h : localAttrs attrs = localAttrs attrs') (v : α) :
    attrs.foldl set v = attrs'.foldl set v := by
  rw [foldl_unprefixed set hset attrs, foldl_unprefixed set hset attrs', map_unprefixed _ _ h]

theorem attrLoop_local (attrs attrs' : List Attr) (h : localAttrs attrs = localAttrs attrs')
    (v : PgSz) : PgSz.attrLoop v attrs = PgSz.attrLoop v attrs' := by
  rw [attrLoop_unprefixed attrs, attrLoop_unprefixed attrs', map_unprefixed _ _ h]

theorem child_local (sect : SectPr) (name name' : Name) (attr attr' : List Attr) (c : Forest)
    (hname : name.Local = name'.Local) (hattr : localAttrs attr = localAttrs attr') :
    SectPr.child sect name attr c = SectPr.child sect name' attr' c := by
  have e1 := attrLoop_local attr attr' hattr {}
  have e2 := foldl_local HeaderReference.setAttr (fun _ _ => rfl) attr attr' hattr {}
  have e3 := foldl_local FooterReference.setAttr (fun _ _ => rfl) attr attr' hattr {}
  have e4 := foldl_local SectType.setAttr (fun _ _ => rfl) attr attr' hattr {}
  have e5 := foldl_local PgMar.setAttr (fun _ _ => rfl) attr attr' hattr {}
  have e6 := foldl_local Cols.setAttr (fun _ _ => rfl) attr attr' hattr {}
  have e7 := foldl_local DocGrid.setAttr (fun _ _ => rfl) attr attr' hattr {}
  simp only [SectPr.child, hname, e1, e2, e3, e4, e5, e6, e7]

theorem PgSz_success_values (d : Decoder) (start : StartElement)
    (h : (PgSz.UnmarshalXML {} d start).2.2 = none) :
    (PgSz.UnmarshalXML {} d start).1 = ⟨lastInt "w" start.Attr, lastInt "h" start.Attr⟩ := by
  have hv := attrLoop_values start.Attr {}
  unfold PgSz.UnmarshalXML at h ⊢
  cases hl : PgSz.attrLoop {} start.Attr with
  | mk v oe =>
    rw [hl] at hv h
    cases oe with
    | some e => simp at h
    | none =>
      simp only
      rw [(consumeToken_err v d).1]
      obtain ⟨h1, h2⟩ := hv rfl
      simp only at h1 h2
      cases v with
      | mk W H =>
        simp only at h1 h2
        simp only [lastInt, h1, h2, PgSz.mk.injEq]

/-- C19: child dispatch and attribute matching use only the local part of a name.  A child
element keeps its outcome when its name and the names of its attributes get other namespace
prefixes, or none (same local names, same values, same order): the section decode succeeds
on the one exactly when it succeeds on the other, with the same section and decoder state,
and every leaf decoder returns the same value, state and error.  For `HeaderReference` and
`FooterReference` an `id` attribute sets `Id` under any prefix (`r:id`, `w:id`).  Of several
attributes with the same recognized local name the last one determines the field. -/
theorem names_match_by_local_part (sect : SectPr) (name name' : Name) (attr attr' : List Attr)
    (c : Forest) (X : List Token) (ie : GoError) (n : Name) (s : List Stack) (ln : Nat)
    (st : StartElement) (d : Decoder)
    (hname : name.Local = name'.Local) (hattr : localAttrs attr = localAttrs attr') :
    (∀ r dr,
      SectPr.UnmarshalXML sect ⟨Token.StartElement ⟨name, attr⟩ ::
          (c.tokens ++ Token.EndElement name :: X), ie, Stack.stkStart n :: s, none, ln⟩ st =
        some (r, dr, none) ↔
      SectPr.UnmarshalXML sect ⟨Token.StartElement ⟨name', attr'⟩ ::
          (c.tokens ++ Token.EndElement name' :: X), ie, Stack.stkStart n :: s, none, ln⟩ st =
        some (r, dr, none)) ∧
    ((∀ v, PgSz.UnmarshalXML v d ⟨name, attr⟩ = PgSz.UnmarshalXML v d ⟨name', attr'⟩) ∧
     (∀ v, HeaderReference.UnmarshalXML v d ⟨name, attr⟩ =
        HeaderReference.UnmarshalXML v d ⟨name', attr'⟩) ∧
     (∀ v, FooterReference.UnmarshalXML v d ⟨name, attr⟩ =
        FooterReference.UnmarshalXML v d ⟨name', attr'⟩) ∧
     (∀ v, SectType.UnmarshalXML v d ⟨name, attr⟩ = SectType.UnmarshalXML v d ⟨name', attr'⟩) ∧
     (∀ v, PgMar.UnmarshalXML v d ⟨name, attr⟩ = PgMar.UnmarshalXML v d ⟨name', attr'⟩) ∧
     (∀ v, Cols.UnmarshalXML v d ⟨name, attr⟩ = Cols.UnmarshalXML v d ⟨name', attr'⟩) ∧
     (∀ v, DocGrid.UnmarshalXML v d ⟨name, attr⟩ = DocGrid.UnmarshalXML v d ⟨name', attr'⟩)) ∧
    (∀ space value,
      (HeaderReference.UnmarshalXML {} d ⟨name, [⟨⟨space, "id"⟩, value⟩]⟩).1 = ⟨value, ""⟩ ∧
      (FooterReference.UnmarshalXML {} d ⟨name, [⟨⟨space, "id"⟩, value⟩]⟩).1 = ⟨value, ""⟩) ∧
    (((PgSz.UnmarshalXML {} d ⟨name, attr⟩).2.2 = none →
        (PgSz.UnmarshalXML {} d ⟨name, attr⟩).1 = ⟨lastInt "w" attr, lastInt "h" attr⟩) ∧
     (HeaderReference.UnmarshalXML {} d ⟨name, attr⟩).1 =
        ⟨(lastAttr "id" attr).getD "", (lastAttr "type" attr).getD ""⟩ ∧
     (FooterReference.UnmarshalXML {} d ⟨name, attr⟩).1 =
        ⟨(lastAttr "id" attr).getD "", (lastAttr "type" attr).getD ""⟩ ∧
     (SectType.UnmarshalXML {} d ⟨name, attr⟩).1 = ⟨(lastAttr "val" attr).getD ""⟩ ∧
     (PgMar.UnmarshalXML {} d ⟨name, attr⟩).1 =
        ⟨(lastAttr "top" attr).getD "", (lastAttr "right" attr).getD "",
         (lastAttr "bottom" attr).getD "", (lastAttr "left" attr).getD "",
         (lastAttr "header" attr).getD "", (lastAttr "footer" attr).getD "",
         (lastAttr "gutter" attr).getD ""⟩ ∧
     (Cols.UnmarshalXML {} d ⟨name, attr⟩).1 =
        ⟨(lastAttr "space" attr).getD "", (lastAttr "num" attr).getD ""⟩ ∧
     (DocGrid.UnmarshalXML {} d ⟨name, attr⟩).1 =
        ⟨(lastAttr "linePitch" attr).getD "", (lastAttr "charSpace" attr).getD ""⟩) := by
  refine ⟨?_, ⟨?_, ?_, ?_, ?_, ?_, ?_, ?_⟩, ?_, ⟨?_, ?_, ?_, ?_, ?_, ?_, ?_⟩⟩
  · intro r dr
    have hc := child_local sect name name' attr attr' c hname hattr
    have h1 := UnmarshalXML_element sect name attr c X ie n s ln st
    have h2 := UnmarshalXML_element sect name' attr' c X ie n s ln st
    cases hk : SectPr.child sect name attr c with
    | some sect' =>
      rw [h1.1 sect' hk, h2.1 sect' (hc ▸ hk)]
    | none =>
      obtain ⟨s1, d1, e1, he1⟩ := h1.2 hk
      obtain ⟨s2, d2, e2, he2⟩ := h2.2 (hc ▸ hk)
      rw [he1, he2]
      simp
  · intro v
    simp only [PgSz.UnmarshalXML, attrLoop_local attr attr' hattr v]
  · intro v
    simp only [HeaderReference.UnmarshalXML,
      foldl_local HeaderReference.setAttr (fun _ _ => rfl) attr attr' hattr v]
  · intro v
    simp only [FooterReference.UnmarshalXML,
      foldl_local FooterReference.setAttr (fun _ _ => rfl) attr attr' hattr v]
  · intro v
    simp only [SectType.UnmarshalXML,
      foldl_local SectType.setAttr (fun _ _ => rfl) attr attr' hattr v]
  · intro v
    simp only [PgMar.UnmarshalXML, foldl_local PgMar.setAttr (fun _ _ => rfl) attr attr' hattr v]
  · intro v
    simp only [Cols.UnmarshalXML, foldl_local Cols.setAttr (fun _ _ => rfl) attr attr' hattr v]
  · intro v
    simp only [DocGrid.UnmarshalXML,
      foldl_local DocGrid.setAttr (fun _ _ => rfl) attr attr' hattr v]
  · intro space value
    simp [HeaderReference.UnmarshalXML, FooterReference.UnmarshalXML, (consumeToken_err _ d).1,
      HeaderReference.setAttr, FooterReference.setAttr]
  · exact PgSz_success_values d ⟨name, attr⟩
  · simp only [HeaderReference.UnmarshalXML, (consumeToken_err _ d).1]
    exact HeaderReference_fields attr
  · simp only [FooterReference.UnmarshalXML, (consumeToken_err _ d).1]
    exact FooterReference_fields attr
  · simp only [SectType.UnmarshalXML, (consumeToken_err _ d).1]
    exact SectType_fields attr
  · simp only [PgMar.UnmarshalXML, (consumeToken_err _ d).1]
    exact PgMar_fields attr
  · simp only [Cols.UnmarshalXML, (consumeToken_err _ d).1]
    exact Cols_fields attr
  · simp only [DocGrid.UnmarshalXML, (consumeToken_err _ d).1]
    exact DocGrid_fields attr

/-- C19, at `<w:headerReference r:id="rId1" w:id="rId7" w:type="first"/>` and the same element
without prefix on the element and with other prefixes on the attributes: both decode to
`Id = "rId7"`, the last `id`. -/
theorem names_match_by_local_part_witness :
    HeaderReference.UnmarshalXML {}
        ⟨[Token.EndElement ⟨"w", "headerReference"⟩], GoError.EOF,
          [Stack.stkStart ⟨"w", "headerReference"⟩, Stack.stkEOF], none, 1⟩
        ⟨⟨"w", "headerReference"⟩,
          [⟨⟨"r", "id"⟩, "rId1"⟩, ⟨⟨"w", "id"⟩, "rId7"⟩, ⟨⟨"w", "type"⟩, "first"⟩]⟩ =
      HeaderReference.UnmarshalXML {}
        ⟨[Token.EndElement ⟨"w", "headerReference"⟩], GoError.EOF,
          [Stack.stkStart ⟨"w", "headerReference"⟩, Stack.stkEOF], none, 1⟩
        ⟨⟨"", "headerReference"⟩,
          [⟨⟨"x", "id"⟩, "rId1"⟩, ⟨⟨"", "id"⟩, "rId7"⟩, ⟨⟨"", "type"⟩, "first"⟩]⟩ ∧
    (HeaderReference.UnmarshalXML {}
        ⟨[Token.EndElement ⟨"w", "headerReference"⟩], GoError.EOF,
          [Stack.stkStart ⟨"w", "headerReference"⟩, Stack.stkEOF], none, 1⟩
        ⟨⟨"w", "headerReference"⟩,
          [⟨⟨"r", "id"⟩, "rId1"⟩, ⟨⟨"w", "id"⟩, "rId7"⟩, ⟨⟨"w", "type"⟩, "first"⟩]⟩).1 =
      ⟨"rId7", "first"⟩ :=
  ⟨(names_match_by_local_part {} ⟨"w", "headerReference"⟩ ⟨"", "headerReference"⟩
      [⟨⟨"r", "id"⟩, "rId1"⟩, ⟨⟨"w", "id"⟩, "rId7"⟩, ⟨⟨"w", "type"⟩, "first"⟩]
      [⟨⟨"x", "id"⟩, "rId1"⟩, ⟨⟨"", "id"⟩, "rId7"⟩, ⟨⟨"", "type"⟩, "first"⟩]
      Forest.nil [] GoError.EOF ⟨"w", "sectPr"⟩ [] 1 ⟨⟨"w", "sectPr"⟩, []⟩
      ⟨[Token.EndElement ⟨"w", "headerReference"⟩], GoError.EOF,
        [Stack.stkStart ⟨"w", "headerReference"⟩, Stack.stkEOF], none, 1⟩
      rfl (by decide)).2.1.2.1 {},
   by decide⟩

/-! ### The part marshaller -/

theorem appendLast_snoc (l : List (String × Bytes)) (k : String) (b p : Bytes) :
    appendLast (l ++ [(k, b)]) p = l ++ [(k, b ++ p)] := by
  induction l with
  | nil => rfl
  | cons e rest ih =>
    cases rest with
    | nil => simp [appendLast]
    | cons e2 rest =>
      simp only [List.cons_append] at ih ⊢
      rw [appendLast, ih]

/-- C16: `marshaller.WriteTo` writes the XML header first and the encoding of the wrapped
value after it: when it returns no error, the sink's newest entry has grown by the header
followed by the encoding; when the write of the header fails it returns that error and the
sink is as it was, nothing of the encoding written; when the header is written and the write
of the encoding fails, the entry holds the header alone.  The byte count it reports is 0 in
every case. -/
theorem WriteTo_header_then_encoding (m : XMLData) (w : ZipWriter) :
    (marshaller.WriteTo m w).2.1 = 0 ∧
    (∀ e, w.writeErr w.entries xmlHeader = some e →
      (marshaller.WriteTo m w).2.2 = some e ∧ (marshaller.WriteTo m w).1.entries = w.entries) ∧
    (∀ e, w.writeErr w.entries xmlHeader = none →
      w.writeErr (appendLast w.entries xmlHeader) m.xml = some e →
      (marshaller.WriteTo m w).2.2 = some e ∧
      (marshaller.WriteTo m w).1.entries = appendLast w.entries xmlHeader) ∧
    ((marshaller.WriteTo m w).2.2 = none →
      (marshaller.WriteTo m w).1.entries = appendLast (appendLast w.entries xmlHeader) m.xml ∧
      ∀ earlier path b, w.entries = earlier ++ [(path, b)] →
        (marshaller.WriteTo m w).1.entries = earlier ++ [(path, b ++ (xmlHeader ++ m.xml))]) := by
  unfold marshaller.WriteTo ZipWriter.Write
  cases h1 : w.writeErr w.entries xmlHeader with
  | some e1 => simp
  | none =>
    simp only
    cases h2 : w.writeErr (appendLast w.entries xmlHeader) m.xml with
    | some e2 => simp
    | none =>
      simp only [reduceCtorEq, false_implies, implies_true, true_and]
      intro _ earlier path b hb
      rw [hb, appendLast_snoc, appendLast_snoc, List.append_assoc]

/-- C16, on a fresh entry `word/document.xml` of a sink that accepts every write: the entry
holds the header followed by the encoding. -/
theorem WriteTo_header_then_encoding_witness :
    (marshaller.WriteTo ⟨[60, 47, 62], none⟩
        ⟨[("word/document.xml", [])], fun _ _ => none, fun _ _ => none⟩).1.entries =
      [("word/document.xml", [] ++ (xmlHeader ++ [60, 47, 62]))] :=
  ((WriteTo_header_then_encoding ⟨[60, 47, 62], none⟩
      ⟨[("word/document.xml", [])], fun _ _ => none, fun _ _ => none⟩).2.2.2 rfl).2
    [] "word/document.xml" [] rfl

/-! ### The map of parts and the write loop -/

theorem pack_eq_files (TemplateXMLFS : FS) (mediaString : Media → String)
    (range : Files → List (String × Reader)) (f : Docx) (z : ZipWriter) :
    f.pack TemplateXMLFS mediaString range z =
      match f.files TemplateXMLFS mediaString with
      | .error err => (z, some err)
      | .ok files => writeParts (range files) z := by
  unfold Docx.pack Docx.files
  simp only
  split <;> rfl

theorem Write_success (z z' : ZipWriter) (p : Bytes) (l : List (String × Bytes)) (k : String)
    (b : Bytes) (h : z.Write p = (z', none)) (hl : z.entries = l ++ [(k, b)]) :
    z'.entries = l ++ [(k, b ++ p)] ∧ z'.createErr = z.createErr ∧ z'.writeErr = z.writeErr := by
  unfold ZipWriter.Write at h
  split at h
  · simp at h
  · simp only [Prod.mk.injEq, and_true] at h
    rw [← h]
    simp [hl, appendLast_snoc]

theorem Copy_success (z z' : ZipWriter) (r : Reader) (l : List (String × Bytes)) (k : String)
    (b : Bytes) (h : Copy z r = (z', none)) (hl : z.entries = l ++ [(k, b)]) :
    z'.entries = l ++ [(k, b ++ r.bytes)] := by
  cases r with
  | file f =>
    simp only [Copy] at h
    split_ifs at h with he
    · simp only [Prod.mk.injEq] at h
      rw [← h.1, hl]; simp [Reader.bytes, he]
    · cases hw : z.Write f.data with
      | mk z1 e1 =>
        rw [hw] at h
        cases e1 with
        | some e => simp at h
        | none =>
          simp only [Prod.mk.injEq] at h
          rw [← h.1]
          exact (Write_success z z1 f.data l k b hw hl).1
  | marshaller m =>
    simp only [Copy, marshaller.WriteTo] at h
    cases hw : z.Write xmlHeader with
    | mk z1 e1 =>
      rw [hw] at h
      cases e1 with
      | some e => simp at h
      | none =>
        simp only at h
        have h1 := (Write_success z z1 xmlHeader l k b hw hl).1
        cases hw2 : z1.Write m.xml with
        | mk z2 e2 =>
          rw [hw2] at h
          cases e2 with
          | some e => simp at h
          | none =>
            simp only [Prod.mk.injEq] at h
            rw [← h.1, (Write_success z1 z2 m.xml l k _ hw2 h1).1]
            simp [Reader.bytes]
  | bytesReader bs =>
    simp only [Copy] at h
    split_ifs at h with he
    · simp only [Prod.mk.injEq, and_true] at h
      rw [← h, hl]; simp [Reader.bytes, he]
    · exact (Write_success z z' bs l k b h hl).1

theorem writeParts_success (l : List (String × Reader)) : ∀ (z z' : ZipWriter),
    writeParts l z = (z', none) →
      z'.entries = z.entries ++ l.map (fun e => (e.1, e.2.bytes)) := by
  induction l with
  | nil =>
    intro z z' h
    simp only [writeParts, Prod.mk.injEq, and_true] at h
    simp [h]
  | cons e rest ih =>
    intro z z' h
    obtain ⟨path, r⟩ := e
    rw [writeParts] at h
    cases hc : z.Create path with
    | mk z1 e1 =>
      rw [hc] at h
      cases e1 with
      | some e => simp at h
      | none =>
        simp only at h
        have hz1 : z1.entries = z.entries ++ [(path, [])] := by
          unfold ZipWriter.Create at hc
          split at hc
          · simp at hc
          · simp only [Prod.mk.injEq, and_true] at hc
            rw [← hc]
        cases hcp : Copy z1 r with
        | mk z2 e2 =>
          rw [hcp] at h
          cases e2 with
          | some e => simp at h
          | none =>
            simp only at h
            rw [ih _ _ h, Copy_success z1 z2 r _ _ _ hcp hz1]
            simp

theorem writeParts_error (l : List (String × Reader)) : ∀ (z z' : ZipWriter) (e : GoError),
    writeParts l z = (z', some e) →
      ∃ pre path r post z1, l = pre ++ (path, r) :: post ∧ writeParts pre z = (z1, none) ∧
        (z1.Create path = (z', some e) ∨
          ∃ z2, z1.Create path = (z2, none) ∧ Copy z2 r = (z', some e)) := by
  induction l with
  | nil => intro z z' e h; simp [writeParts] at h
  | cons x rest ih =>
    intro z z' e h
    obtain ⟨path, r⟩ := x
    rw [writeParts] at h
    cases hc : z.Create path with
    | mk z1 e1 =>
      rw [hc] at h
      cases e1 with
      | some e0 =>
        simp only [Prod.mk.injEq, Option.some.injEq] at h
        refine ⟨[], path, r, rest, z, rfl, rfl, Or.inl ?_⟩
        rw [hc, h.1, h.2]
      | none =>
        simp only at h
        cases hcp : Copy z1 r with
        | mk z2 e2 =>
          rw [hcp] at h
          cases e2 with
          | some e0 =>
            simp only [Prod.mk.injEq, Option.some.injEq] at h
            refine ⟨[], path, r, rest, z, rfl, rfl, Or.inr ⟨z1, hc, ?_⟩⟩
            rw [hcp, h.1, h.2]
          | none =>
            simp only at h
            obtain ⟨pre, p2, r2, post, z3, hl, hpre, hfail⟩ := ih _ _ _ h
            refine ⟨(path, r) :: pre, p2, r2, post, z3, by rw [hl]; rfl, ?_, hfail⟩
            rw [writeParts, hc]
            simp only [hcp]
            exact hpre

theorem openParts_error (fs : FS) (path : String → String) (pre : List String) :
    ∀ (name : String) (post : List String) (files : Files) (e : GoError),
      (∀ x ∈ pre, ∃ file, fs (path x) = .ok file) → fs (path name) = .error e →
      openParts fs path (pre ++ name :: post) files = .error e := by
  induction pre with
  | nil =>
    intro name post files e _ he
    simp only [List.nil_append, openParts, he]
  | cons x rest ih =>
    intro name post files e hpre he
    obtain ⟨file, hf⟩ := hpre x (List.mem_cons_self _ _)
    simp only [List.cons_append, openParts, hf]
    exact ih name post _ e (fun y hy => hpre y (List.mem_cons_of_mem _ hy)) he

theorem files_open_error (TemplateXMLFS : FS) (mediaString : Media → String) (f : Docx)
    (pre : List String) (name : String) (post : List String) (e : GoError)
    (hl : f.tmpfslst = pre ++ name :: post)
    (hpre : ∀ x ∈ pre, ∃ file, f.source TemplateXMLFS x = .ok file)
    (he : f.source TemplateXMLFS name = .error e) :
    f.files TemplateXMLFS mediaString = .error e := by
  unfold Docx.files
  unfold Docx.source at hpre he
  by_cases ht : f.template ≠ ""
  · simp only [if_pos ht] at hpre he ⊢
    rw [hl, openParts_error TemplateXMLFS _ pre name post [] e hpre he]
  · simp only [if_neg ht] at hpre he ⊢
    rw [hl, openParts_error f.tmplfs _ pre name post [] e hpre he]

theorem writeParts_append (pre rest : List (String × Reader)) : ∀ (z z1 : ZipWriter),
    writeParts pre z = (z1, none) → writeParts (pre ++ rest) z = writeParts rest z1 := by
  induction pre with
  | nil =>
    intro z z1 h
    simp only [writeParts, Prod.mk.injEq, and_true] at h
    rw [List.nil_append, h]
  | cons x pre ih =>
    intro z z1 h
    obtain ⟨path, r⟩ := x
    rw [List.cons_append, writeParts]
    rw [writeParts] at h
    cases hc : z.Create path with
    | mk za e1 =>
      rw [hc] at h
      cases e1 with
      | some e0 => simp at h
      | none =>
        simp only at h ⊢
        cases hcp : Copy za r with
        | mk zb e2 =>
          rw [hcp] at h
          cases e2 with
          | some e0 => simp at h
          | none =>
            simp only at h ⊢
            exact ih zb z1 h

theorem Create_error_entries (z z' : ZipWriter) (path : String) (e : GoError)
    (h : z.Create path = (z', some e)) : z' = z := by
  unfold ZipWriter.Create at h
  split at h
  · simp only [Prod.mk.injEq] at h
    exact h.1.symm
  · simp at h

theorem Create_success_entries (z z' : ZipWriter) (path : String)
    (h : z.Create path = (z', none)) : z'.entries = z.entries ++ [(path, [])] := by
  unfold ZipWriter.Create at h
  split at h
  · simp at h
  · simp only [Prod.mk.injEq, and_true] at h
    rw [← h]

/-- C12: if opening a template part fails, all parts before it having been opened, `pack`
returns that first open error and the zip writer is as it was: no entry has been created,
since every part is opened before the write loop starts.  When all parts are opened and the
write loop has written the bindings `pre` without error: if `Create` of the next path fails,
`pack` returns that error with the writer as `Create` left it, which holds the entries of
`pre` and nothing else; if `Create` succeeds and `Copy` into the entry fails, `pack` returns
that error with the writer as `Copy` left it, the entry of that path being the last one.  In
both cases no binding after the failing one is processed.  And whenever `pack` returns an
error after all parts were opened, it is the error of such a first failing `Create` or
`Copy`. -/
theorem pack_failure_policy (TemplateXMLFS : FS) (mediaString : Media → String)
    (range : Files → List (String × Reader)) (f : Docx) (z : ZipWriter) :
    (∀ pre name post e, f.tmpfslst = pre ++ name :: post →
      (∀ x ∈ pre, ∃ file, f.source TemplateXMLFS x = .ok file) →
      f.source TemplateXMLFS name = .error e →
      f.pack TemplateXMLFS mediaString range z = (z, some e)) ∧
    (∀ files pre path r post z1 z' e, f.files TemplateXMLFS mediaString = .ok files →
      range files = pre ++ (path, r) :: post →
      writeParts pre z = (z1, none) →
      z1.Create path = (z', some e) →
      f.pack TemplateXMLFS mediaString range z = (z', some e) ∧
        z'.entries = z.entries ++ pre.map (fun b => (b.1, b.2.bytes))) ∧
    (∀ files pre path r post z1 z2 z' e, f.files TemplateXMLFS mediaString = .ok files →
      range files = pre ++ (path, r) :: post →
      writeParts pre z = (z1, none) →
      z1.Create path = (z2, none) →
      Copy z2 r = (z', some e) →
      f.pack TemplateXMLFS mediaString range z = (z', some e) ∧
        z'.entries.map Prod.fst = z.entries.map Prod.fst ++ pre.map Prod.fst ++ [path]) ∧
    (∀ z' e files, f.files TemplateXMLFS mediaString = .ok files →
      f.pack TemplateXMLFS mediaString range z = (z', some e) →
      ∃ pre path r post z1, range files = pre ++ (path, r) :: post ∧
        writeParts pre z = (z1, none) ∧
        z1.entries = z.entries ++ pre.map (fun b => (b.1, b.2.bytes)) ∧
        ((z1.Create path = (z', some e) ∧ z'.entries = z1.entries) ∨
         (∃ z2, z1.Create path = (z2, none) ∧ Copy z2 r = (z', some e) ∧
           z'.entries.map Prod.fst = z1.entries.map Prod.fst ++ [path]))) := by
  refine ⟨?_, ?_, ?_, ?_⟩
  · intro pre name post e hl hpre he
    rw [pack_eq_files, files_open_error TemplateXMLFS mediaString f pre name post e hl hpre he]
  · intro files pre path r post z1 z' e hf hl hpre hc
    have hz := Create_error_entries z1 z' path e hc
    constructor
    · rw [pack_eq_files, hf]
      simp only
      rw [hl, writeParts_append pre _ z z1 hpre, writeParts, hc]
    · rw [hz]
      exact writeParts_success pre z z1 hpre
  · intro files pre path r post z1 z2 z' e hf hl hpre hc hcp
    constructor
    · rw [pack_eq_files, hf]
      simp only
      rw [hl, writeParts_append pre _ z z1 hpre, writeParts, hc]
      simp only
      rw [hcp]
    · have hk := Copy_keys z2 r
      rw [hcp] at hk
      simp only at hk
      rw [hk, Create_success_entries z1 z2 path hc, List.map_append,
        writeParts_keys pre z z1 hpre]
      simp
  · intro z' e files hf hp
    rw [pack_eq_files, hf] at hp
    simp only at hp
    obtain ⟨pre, path, r, post, z1, hl, hpre, hfail⟩ := writeParts_error _ _ _ _ hp
    refine ⟨pre, path, r, post, z1, hl, hpre, writeParts_success pre z z1 hpre, ?_⟩
    rcases hfail with hc | ⟨z2, hc, hcp⟩
    · left
      refine ⟨hc, ?_⟩
      rw [Create_error_entries z1 z' path e hc]
    · right
      refine ⟨z2, hc, hcp, ?_⟩
      have hk := Copy_keys z2 r
      rw [hcp] at hk
      simp only at hk
      rw [hk, Create_success_entries z1 z2 path hc]
      simp

/-- C12 at three inputs.  With the part names `a.xml` and `b.xml` of which the second cannot
be opened, `pack` returns the open error and the writer has no entry.  With a writer on
which `Create` of `word/document.xml` fails, `pack` returns that error after the
relationships part alone is written.  With a writer on which the write to the second entry
fails, `pack` returns that error, the second entry being created and empty. -/
theorem pack_failure_policy_witness :
    Docx.pack (fun _ => .ok ⟨[1], none⟩) (fun m => "word/media/" ++ m.Name) id
      ⟨"", ["a.xml", "b.xml"],
        fun n => if n = "b.xml" then .error (GoError.ErrorString "file does not exist")
          else .ok ⟨[1], none⟩,
        ⟨[2], none⟩, ⟨[3], none⟩, []⟩
      ⟨[], fun _ _ => none, fun _ _ => none⟩ =
    (⟨[], fun _ _ => none, fun _ _ => none⟩,
      some (GoError.ErrorString "file does not exist")) ∧
    Docx.pack (fun _ => .ok ⟨[1], none⟩) (fun m => "word/media/" ++ m.Name) id
      ⟨"", [], fun _ => .ok ⟨[1], none⟩, ⟨[2], none⟩, ⟨[3], none⟩, [⟨"m1", [9]⟩]⟩
      ⟨[], fun _ path => if path = "word/document.xml" then
          some (GoError.ErrorString "zip: write to closed writer") else none,
        fun _ _ => none⟩ =
    (⟨[("word/_rels/document.xml.rels", xmlHeader ++ [2])],
        fun _ path => if path = "word/document.xml" then
          some (GoError.ErrorString "zip: write to closed writer") else none,
        fun _ _ => none⟩,
      some (GoError.ErrorString "zip: write to closed writer")) ∧
    Docx.pack (fun _ => .ok ⟨[1], none⟩) (fun m => "word/media/" ++ m.Name) id
      ⟨"", [], fun _ => .ok ⟨[1], none⟩, ⟨[2], none⟩, ⟨[3], none⟩, [⟨"m1", [9]⟩]⟩
      ⟨[], fun _ _ => none,
        fun entries _ => if entries.length = 2 then
          some (GoError.ErrorString "short write") else none⟩ =
    (⟨[("word/_rels/document.xml.rels", xmlHeader ++ [2]), ("word/document.xml", [])],
        fun _ _ => none,
        fun entries _ => if entries.length = 2 then
          some (GoError.ErrorString "short write") else none⟩,
      some (GoError.ErrorString "short write")) :=
  ⟨(pack_failure_policy (fun _ => .ok ⟨[1], none⟩) (fun m => "word/media/" ++ m.Name) id
      ⟨"", ["a.xml", "b.xml"],
        fun n => if n = "b.xml" then .error (GoError.ErrorString "file does not exist")
          else .ok ⟨[1], none⟩,
        ⟨[2], none⟩, ⟨[3], none⟩, []⟩
      ⟨[], fun _ _ => none, fun _ _ => none⟩).1 ["a.xml"] "b.xml" []
      (GoError.ErrorString "file does not exist") rfl
      (fun x hx => by
        simp only [List.mem_singleton] at hx
        subst hx
        exact ⟨⟨[1], none⟩, rfl⟩)
      rfl,
   ((pack_failure_policy (fun _ => .ok ⟨[1], none⟩) (fun m => "word/media/" ++ m.Name) id
      ⟨"", [], fun _ => .ok ⟨[1], none⟩, ⟨[2], none⟩, ⟨[3], none⟩, [⟨"m1", [9]⟩]⟩
      ⟨[], fun _ path => if path = "word/document.xml" then
          some (GoError.ErrorString "zip: write to closed writer") else none,
        fun _ _ => none⟩).2.1
      [("word/_rels/document.xml.rels", Reader.marshaller ⟨[2], none⟩),
        ("word/document.xml", Reader.marshaller ⟨[3], none⟩),
        ("word/media/m1", Reader.bytesReader [9])]
      [("word/_rels/document.xml.rels", Reader.marshaller ⟨[2], none⟩)]
      "word/document.xml" (Reader.marshaller ⟨[3], none⟩)
      [("word/media/m1", Reader.bytesReader [9])]
      ⟨[("word/_rels/document.xml.rels", xmlHeader ++ [2])],
        fun _ path => if path = "word/document.xml" then
          some (GoError.ErrorString "zip: write to closed writer") else none,
        fun _ _ => none⟩
      ⟨[("word/_rels/document.xml.rels", xmlHeader ++ [2])],
        fun _ path => if path = "word/document.xml" then
          some (GoError.ErrorString "zip: write to closed writer") else none,
        fun _ _ => none⟩
      (GoError.ErrorString "zip: write to closed writer") rfl rfl rfl rfl).1,
   ((pack_failure_policy (fun _ => .ok ⟨[1], none⟩) (fun m => "word/media/" ++ m.Name) id
      ⟨"", [], fun _ => .ok ⟨[1], none⟩, ⟨[2], none⟩, ⟨[3], none⟩, [⟨"m1", [9]⟩]⟩
      ⟨[], fun _ _ => none,
        fun entries _ => if entries.length = 2 then
          some (GoError.ErrorString "short write") else none⟩).2.2.1
      [("word/_rels/document.xml.rels", Reader.marshaller ⟨[2], none⟩),
        ("word/document.xml", Reader.marshaller ⟨[3], none⟩),
        ("word/media/m1", Reader.bytesReader [9])]
      [("word/_rels/document.xml.rels", Reader.marshaller ⟨[2], none⟩)]
      "word/document.xml" (Reader.marshaller ⟨[3], none⟩)
      [("word/media/m1", Reader.bytesReader [9])]
      ⟨[("word/_rels/document.xml.rels", xmlHeader ++ [2])], fun _ _ => none,
        fun entries _ => if entries.length = 2 then
          some (GoError.ErrorString "short write") else none⟩
      ⟨[("word/_rels/document.xml.rels", xmlHeader ++ [2]), ("word/document.xml", [])],
        fun _ _ => none,
        fun entries _ => if entries.length = 2 then
          some (GoError.ErrorString "short write") else none⟩
      ⟨[("word/_rels/document.xml.rels", xmlHeader ++ [2]), ("word/document.xml", [])],
        fun _ _ => none,
        fun entries _ => if entries.length = 2 then
          some (GoError.ErrorString "short write") else none⟩
      (GoError.ErrorString "short write") rfl rfl rfl rfl rfl).1⟩

theorem Files_set_any (files : Files) (k : String) :
    files.any (fun e => decide (e.1 = k)) = true ↔ k ∈ files.map Prod.fst := by
  simp only [List.any_eq_true, decide_eq_true_eq, List.mem_map]

theorem Files_set_keys_old (files : Files) (k : String) (v : Reader)
    (h : k ∈ files.map Prod.fst) : (Files.set files k v).map Prod.fst = files.map Prod.fst := by
  have hany := (Files_set_any files k).2 h
  simp only [Files.set, hany, if_true, List.map_map]
  apply List.map_congr_left
  intro e _
  simp only [Function.comp]
  split_ifs with hk
  · exact hk.symm
  · rfl

theorem Files_set_nodup (files : Files) (k : String) (v : Reader)
    (h : (files.map Prod.fst).Nodup) : ((Files.set files k v).map Prod.fst).Nodup := by
  by_cases hk : k ∈ files.map Prod.fst
  · rw [Files_set_keys_old files k v hk]; exact h
  · rw [Files_set_keys_new files k v hk]
    exact List.nodup_append.2 ⟨h, List.nodup_singleton k, by
      intro a ha hb
      simp only [List.mem_singleton] at hb
      exact hk (hb ▸ ha)⟩

theorem mem_Files_set (files : Files) (k : String) (v : Reader) (p : String) (r : Reader) :
    (p, r) ∈ Files.set files k v ↔ (p = k ∧ r = v) ∨ (p ≠ k ∧ (p, r) ∈ files) := by
  by_cases hk : k ∈ files.map Prod.fst
  · have hany := (Files_set_any files k).2 hk
    simp only [Files.set, hany, if_true, List.mem_map]
    constructor
    · rintro ⟨e, he, heq⟩
      split_ifs at heq with h1
      · simp only [Prod.mk.injEq] at heq
        exact Or.inl ⟨heq.1.symm, heq.2.symm⟩
      · right
        obtain ⟨ep, er⟩ := e
        simp only [Prod.mk.injEq] at heq
        obtain ⟨rfl, rfl⟩ := heq
        exact ⟨h1, he⟩
    · rintro (⟨h1, h2⟩ | ⟨h1, h2⟩)
      · obtain ⟨e, he, hek⟩ := List.mem_map.1 hk
        exact ⟨e, he, by rw [if_pos hek, h1, h2]⟩
      · exact ⟨(p, r), h2, by rw [if_neg h1]⟩
  · have hany : files.any (fun e => decide (e.1 = k)) = false := by
      rw [Bool.eq_false_iff]; intro h; exact hk ((Files_set_any files k).1 h)
    simp only [Files.set, hany, Bool.false_eq_true, if_false, List.mem_append,
      List.mem_singleton, Prod.mk.injEq]
    constructor
    · rintro (h | h)
      · right
        refine ⟨?_, h⟩
        intro hp
        exact hk (List.mem_map.2 ⟨(p, r), h, hp⟩)
      · exact Or.inl h
    · rintro (h | h)
      · exact Or.inr h
      · exact Or.inl h.2

/-- The map after a list of assignments, made in order. -/
theorem foldl_set_nodup (B : List (String × Reader)) : ∀ (files : Files),
    (files.map Prod.fst).Nodup →
      ((B.foldl (fun F b => Files.set F b.1 b.2) files).map Prod.fst).Nodup := by
  induction B with
  | nil => intro files h; exact h
  | cons b rest ih =>
    intro files h
    exact ih _ (Files_set_nodup files b.1 b.2 h)

theorem mem_foldl_set_keep (B : List (String × Reader)) : ∀ (files : Files) (p : String)
    (r : Reader), (p, r) ∈ files → p ∉ B.map Prod.fst →
      (p, r) ∈ B.foldl (fun F b => Files.set F b.1 b.2) files := by
  induction B with
  | nil => intro files p r h _; exact h
  | cons b rest ih =>
    intro files p r h hp
    simp only [List.map_cons, List.mem_cons, not_or] at hp
    exact ih _ p r ((mem_Files_set files b.1 b.2 p r).2 (Or.inr ⟨hp.1, h⟩)) hp.2

theorem mem_foldl_set_last (pre post : List (String × Reader)) (p : String) (r : Reader)
    (files : Files) (hp : p ∉ post.map Prod.fst) :
    (p, r) ∈ (pre ++ (p, r) :: post).foldl (fun F b => Files.set F b.1 b.2) files := by
  rw [List.foldl_append, List.foldl_cons]
  exact mem_foldl_set_keep post _ p r ((mem_Files_set _ p r p r).2 (Or.inl ⟨rfl, rfl⟩)) hp

theorem openParts_foldl (fs : FS) (path : String → String) (names : List String) :
    ∀ (files files' : Files), openParts fs path names files = .ok files' →
      files' = (names.filterMap (fun name =>
        match fs (path name) with
        | .ok file => some (name, Reader.file file)
        | .error _ => none)).foldl (fun F b => Files.set F b.1 b.2) files := by
  induction names with
  | nil =>
    intro files files' h
    simp only [openParts, Except.ok.injEq] at h
    simp [h]
  | cons name rest ih =>
    intro files files' h
    rw [openParts] at h
    cases hf : fs (path name) with
    | error e => rw [hf] at h; simp at h
    | ok file =>
      rw [hf] at h
      simp only at h
      rw [ih _ _ h]
      simp [List.filterMap_cons, hf]

theorem files_eq_bindings (TemplateXMLFS : FS) (mediaString : Media → String) (f : Docx)
    (files : Files) (h : f.files TemplateXMLFS mediaString = .ok files) :
    files = (f.bindings TemplateXMLFS mediaString).foldl (fun F b => Files.set F b.1 b.2) [] := by
  unfold Docx.files at h
  unfold Docx.bindings Docx.source
  simp only at h
  split at h
  · simp at h
  · rename_i opened ho
    simp only [Except.ok.injEq] at h
    rw [← h, List.foldl_append, List.foldl_append, List.foldl_map]
    simp only [List.foldl_cons, List.foldl_nil]
    by_cases ht : f.template ≠ ""
    · simp only [if_pos ht] at ho ⊢
      rw [openParts_foldl _ _ _ _ _ ho]
    · simp only [if_neg ht] at ho ⊢
      rw [openParts_foldl _ _ _ _ _ ho]

theorem files_nodup (TemplateXMLFS : FS) (mediaString : Media → String) (f : Docx)
    (files : Files) (h : f.files TemplateXMLFS mediaString = .ok files) :
    (files.map Prod.fst).Nodup := by
  rw [files_eq_bindings TemplateXMLFS mediaString f files h]
  exact foldl_set_nodup _ [] List.nodup_nil

theorem filter_key_of_nodup {β : Type} (l : List (String × β)) (p : String) (x : β)
    (hnd : (l.map Prod.fst).Nodup) (hm : (p, x) ∈ l) :
    l.filter (fun e => decide (e.1 = p)) = [(p, x)] := by
  induction l with
  | nil => simp at hm
  | cons e rest ih =>
    simp only [List.map_cons, List.nodup_cons] at hnd
    rcases List.mem_cons.1 hm with h | h
    · subst h
      have : rest.filter (fun e => decide (e.1 = p)) = [] := by
        rw [List.filter_eq_nil_iff]
        intro a ha hap
        simp only [decide_eq_true_eq] at hap
        exact hnd.1 (List.mem_map.2 ⟨a, ha, hap⟩)
      simp [List.filter_cons, this]
    · have hne : e.1 ≠ p := by
        intro he
        exact hnd.1 (List.mem_map.2 ⟨(p, x), h, he.symm⟩)
      simp only [List.filter_cons, hne, decide_False, Bool.false_eq_true, if_false]
      exact ih hnd.2 h

theorem openParts_all_open (fs : FS) (path : String → String) (names : List String) :
    ∀ (files files' : Files), openParts fs path names files = .ok files' →
      ∀ name ∈ names, ∃ file, fs (path name) = .ok file := by
  induction names with
  | nil => intro _ _ _ name hn; simp at hn
  | cons n rest ih =>
    intro files files' h name hn
    rw [openParts] at h
    cases hf : fs (path n) with
    | error e => rw [hf] at h; simp at h
    | ok file =>
      rw [hf] at h
      simp only at h
      rcases List.mem_cons.1 hn with rfl | hr
      · exact ⟨file, hf⟩
      · exact ih _ _ h name hr

theorem files_all_open (TemplateXMLFS : FS) (mediaString : Media → String) (f : Docx)
    (files : Files) (h : f.files TemplateXMLFS mediaString = .ok files) :
    ∀ name ∈ f.tmpfslst, ∃ file, f.source TemplateXMLFS name = .ok file := by
  unfold Docx.files at h
  unfold Docx.source
  simp only at h
  split at h
  · simp at h
  · rename_i opened ho
    by_cases ht : f.template ≠ ""
    · simp only [if_pos ht] at ho ⊢
      exact openParts_all_open _ _ _ _ _ ho
    · simp only [if_neg ht] at ho ⊢
      exact openParts_all_open _ _ _ _ _ ho

theorem bound_keys (g : String → Except GoError File) (names : List String) :
    ∀ p ∈ (names.filterMap (fun name =>
        match g name with
        | .ok file => some (name, Reader.file file)
        | .error _ => none)).map Prod.fst, p ∈ names := by
  intro p hp
  simp only [List.mem_map, List.mem_filterMap] at hp
  obtain ⟨b, ⟨name, hn, hb⟩, rfl⟩ := hp
  cases hg : g name with
  | error e => rw [hg] at hb; simp at hb
  | ok file =>
    rw [hg] at hb
    simp only [Option.some.injEq] at hb
    rw [← hb]
    exact hn

/-- The entries a successful `pack` adds: one for each binding of the map, holding the bytes
of the binding's source, and none for another path. -/
theorem pack_added (TemplateXMLFS : FS) (mediaString : Media → String)
    (range : Files → List (String × Reader)) (f : Docx) (z z' : ZipWriter)
    (hrange : ∀ files, (range files).Perm files)
    (hok : f.pack TemplateXMLFS mediaString range z = (z', none)) :
    ∃ files added, f.files TemplateXMLFS mediaString = .ok files ∧
      z'.entries = z.entries ++ added ∧
      added = (range files).map (fun b => (b.1, b.2.bytes)) ∧
      (added.map Prod.fst).Nodup ∧
      (∀ path r, (path, r) ∈ files →
        added.filter (fun e => decide (e.1 = path)) = [(path, r.bytes)]) ∧
      (∀ path, path ∉ files.map Prod.fst →
        added.filter (fun e => decide (e.1 = path)) = []) := by
  rw [pack_eq_files] at hok
  cases hf : f.files TemplateXMLFS mediaString with
  | error e => rw [hf] at hok; simp at hok
  | ok files =>
    rw [hf] at hok
    simp only at hok
    have hnd : (((range files).map (fun b => (b.1, b.2.bytes))).map Prod.fst).Nodup := by
      rw [List.map_map]
      exact ((hrange files).map Prod.fst).nodup_iff.2
        (files_nodup TemplateXMLFS mediaString f files hf)
    refine ⟨files, _, rfl, writeParts_success _ _ _ hok, rfl, hnd, ?_, ?_⟩
    · intro path r hm
      apply filter_key_of_nodup _ _ _ hnd
      exact List.mem_map.2 ⟨(path, r), (hrange files).mem_iff.2 hm, rfl⟩
    · intro path hp
      rw [List.filter_eq_nil_iff]
      intro a ha hap
      simp only [decide_eq_true_eq] at hap
      obtain ⟨b, hb, rfl⟩ := List.mem_map.1 ha
      exact hp (List.mem_map.2 ⟨b, (hrange files).mem_iff.1 hb, hap⟩)

/-- C13: on a successful pack, whatever the order `range` in which the map is iterated, the
entries added to the archive are the bindings of the assembled map `Docx.files` in that
order, each at its path and holding the bytes of its source: every path of the map has
exactly one added entry, with the bytes of the path's source; a path outside the map has no
added entry; and no two added entries share a path. -/
theorem pack_one_entry_per_path (TemplateXMLFS : FS) (mediaString : Media → String)
    (range : Files → List (String × Reader)) (f : Docx) (z z' : ZipWriter)
    (hrange : ∀ files, (range files).Perm files)
    (hok : f.pack TemplateXMLFS mediaString range z = (z', none)) :
    ∃ files added, f.files TemplateXMLFS mediaString = .ok files ∧
      z'.entries = z.entries ++ added ∧
      added = (range files).map (fun b => (b.1, b.2.bytes)) ∧
      (∀ path r, (path, r) ∈ files →
        added.filter (fun e => decide (e.1 = path)) = [(path, r.bytes)]) ∧
      (∀ path, path ∉ files.map Prod.fst →
        added.filter (fun e => decide (e.1 = path)) = []) ∧
      (added.map Prod.fst).Nodup := by
  obtain ⟨files, added, h1, h2, h3, h4, h5, h6⟩ :=
    pack_added TemplateXMLFS mediaString range f z z' hrange hok
  exact ⟨files, added, h1, h2, h3, h5, h6, h4⟩

/-- C13 at one template part and one media item, the map iterated backwards. -/
theorem pack_one_entry_per_path_witness :
    ∃ files added,
      Docx.files (fun _ => .ok ⟨[1], none⟩) (fun m => "word/media/" ++ m.Name)
        ⟨"", ["word/styles.xml"], fun _ => .ok ⟨[1], none⟩, ⟨[2], none⟩, ⟨[3], none⟩,
          [⟨"m1", [9]⟩]⟩ = .ok files ∧
      [("word/media/m1", [9]), ("word/document.xml", xmlHeader ++ [3]),
        ("word/_rels/document.xml.rels", xmlHeader ++ [2]), ("word/styles.xml", [1])] =
        ([] : List (String × Bytes)) ++ added ∧
      added = (List.reverse files).map (fun b => (b.1, b.2.bytes)) ∧
      (∀ path r, (path, r) ∈ files →
        added.filter (fun e => decide (e.1 = path)) = [(path, r.bytes)]) ∧
      (∀ path, path ∉ files.map Prod.fst →
        added.filter (fun e => decide (e.1 = path)) = []) ∧
      (added.map Prod.fst).Nodup :=
  pack_one_entry_per_path (fun _ => .ok ⟨[1], none⟩) (fun m => "word/media/" ++ m.Name)
    List.reverse
    ⟨"", ["word/styles.xml"], fun _ => .ok ⟨[1], none⟩, ⟨[2], none⟩, ⟨[3], none⟩, [⟨"m1", [9]⟩]⟩
    ⟨[], fun _ _ => none, fun _ _ => none⟩
    ⟨[("word/media/m1", [9]), ("word/document.xml", xmlHeader ++ [3]),
      ("word/_rels/document.xml.rels", xmlHeader ++ [2]), ("word/styles.xml", [1])],
      fun _ _ => none, fun _ _ => none⟩
    (fun files => List.reverse_perm files) (by
      simp only [Docx.pack]
      rfl)

/-- C20: on a successful pack, a binding of `Docx.bindings` (the assignments to the map, in
the order `pack` makes them) that no later binding repeats the path of is the one written:
the archive gets a single entry for that path, holding the bytes of that binding.  In
particular the generated relationships part and the generated document replace a template
part of the same path (and are themselves replaced only by a media item of that path); a
media item replaces every earlier binding of its derived path; and a template part not
named again by anything later keeps its own file. -/
theorem pack_last_binding_wins (TemplateXMLFS : FS) (mediaString : Media → String)
    (range : Files → List (String × Reader)) (f : Docx) (z z' : ZipWriter)
    (hrange : ∀ files, (range files).Perm files)
    (hok : f.pack TemplateXMLFS mediaString range z = (z', none)) :
    ∃ added, z'.entries = z.entries ++ added ∧
      (∀ pre path r post, f.bindings TemplateXMLFS mediaString = pre ++ (path, r) :: post →
        path ∉ post.map Prod.fst →
        added.filter (fun e => decide (e.1 = path)) = [(path, r.bytes)]) ∧
      ("word/_rels/document.xml.rels" ∉ f.media.map mediaString →
        added.filter (fun e => decide (e.1 = "word/_rels/document.xml.rels")) =
          [("word/_rels/document.xml.rels", xmlHeader ++ f.docRelation.xml)]) ∧
      ("word/document.xml" ∉ f.media.map mediaString →
        added.filter (fun e => decide (e.1 = "word/document.xml")) =
          [("word/document.xml", xmlHeader ++ f.Document.xml)]) ∧
      (∀ pre m post, f.media = pre ++ m :: post → mediaString m ∉ post.map mediaString →
        added.filter (fun e => decide (e.1 = mediaString m)) = [(mediaString m, m.Data)]) ∧
      (∀ pre name post, f.tmpfslst = pre ++ name :: post → name ∉ post →
        name ≠ "word/_rels/document.xml.rels" → name ≠ "word/document.xml" →
        name ∉ f.media.map mediaString →
        ∃ file, f.source TemplateXMLFS name = .ok file ∧
          added.filter (fun e => decide (e.1 = name)) = [(name, file.data)]) := by
  obtain ⟨files, added, hf, hz, _, _, hin, _⟩ :=
    pack_added TemplateXMLFS mediaString range f z z' hrange hok
  have hfb := files_eq_bindings TemplateXMLFS mediaString f files hf
  have hgen : ∀ pre path r post,
      f.bindings TemplateXMLFS mediaString = pre ++ (path, r) :: post →
      path ∉ post.map Prod.fst →
      added.filter (fun e => decide (e.1 = path)) = [(path, r.bytes)] := by
    intro pre path r post hb hp
    apply hin
    rw [hfb, hb]
    exact mem_foldl_set_last pre post path r [] hp
  refine ⟨added, hz, hgen, ?_, ?_, ?_, ?_⟩
  · intro hm
    have := hgen
      (f.tmpfslst.filterMap (fun name =>
        match Docx.source TemplateXMLFS f name with
        | .ok file => some (name, Reader.file file)
        | .error _ => none))
      "word/_rels/document.xml.rels" (Reader.marshaller f.docRelation)
      (("word/document.xml", Reader.marshaller f.Document) ::
        f.media.map (fun m => (mediaString m, Reader.bytesReader m.Data)))
      (by simp [Docx.bindings])
      (by
        simp only [List.map_cons, List.map_map, List.mem_cons, not_or]
        refine ⟨by decide, ?_⟩
        intro h
        apply hm
        simpa [Function.comp] using h)
    simpa [Reader.bytes] using this
  · intro hm
    have := hgen
      (f.tmpfslst.filterMap (fun name =>
        match Docx.source TemplateXMLFS f name with
        | .ok file => some (name, Reader.file file)
        | .error _ => none) ++
        [("word/_rels/document.xml.rels", Reader.marshaller f.docRelation)])
      "word/document.xml" (Reader.marshaller f.Document)
      (f.media.map (fun m => (mediaString m, Reader.bytesReader m.Data)))
      (by simp [Docx.bindings])
      (by
        intro h
        apply hm
        simpa [Function.comp] using h)
    simpa [Reader.bytes] using this
  · intro pre m post hmedia hp
    have := hgen
      (f.tmpfslst.filterMap (fun name =>
        match Docx.source TemplateXMLFS f name with
        | .ok file => some (name, Reader.file file)
        | .error _ => none) ++
        [("word/_rels/document.xml.rels", Reader.marshaller f.docRelation),
         ("word/document.xml", Reader.marshaller f.Document)] ++
        pre.map (fun m => (mediaString m, Reader.bytesReader m.Data)))
      (mediaString m) (Reader.bytesReader m.Data)
      (post.map (fun m => (mediaString m, Reader.bytesReader m.Data)))
      (by simp [Docx.bindings, hmedia])
      (by
        intro h
        apply hp
        simpa [Function.comp] using h)
    simpa [Reader.bytes] using this
  · intro pre name post hnames hpost hrels hdoc hmedia
    obtain ⟨file, hfile⟩ := files_all_open TemplateXMLFS mediaString f files hf name
      (by rw [hnames]; simp)
    refine ⟨file, hfile, ?_⟩
    have := hgen
      (pre.filterMap (fun name =>
        match Docx.source TemplateXMLFS f name with
        | .ok file => some (name, Reader.file file)
        | .error _ => none))
      name (Reader.file file)
      (post.filterMap (fun name =>
        match Docx.source TemplateXMLFS f name with
        | .ok file => some (name, Reader.file file)
        | .error _ => none) ++
        [("word/_rels/document.xml.rels", Reader.marshaller f.docRelation),
         ("word/document.xml", Reader.marshaller f.Document)] ++
        f.media.map (fun m => (mediaString m, Reader.bytesReader m.Data)))
      (by simp [Docx.bindings, hnames, List.filterMap_append, List.filterMap_cons, hfile])
      (by
        simp only [List.map_append, List.mem_append, not_or, List.map_cons, List.map_nil,
          List.mem_cons, List.mem_nil_iff, or_false, List.map_map]
        refine ⟨⟨fun h => hpost (bound_keys _ post name h), hrels, hdoc⟩, ?_⟩
        intro h
        apply hmedia
        simpa [Function.comp] using h)
    simpa [Reader.bytes] using this

/-- C20 at a template that lists `word/document.xml` and two media items of one name: the
archive gets the generated document, not the template part, and the second media item. -/
theorem pack_last_binding_wins_witness :
    ∃ added,
      [("word/document.xml", xmlHeader ++ [3]),
        ("word/_rels/document.xml.rels", xmlHeader ++ [2]), ("word/media/m1", [8])] =
        ([] : List (String × Bytes)) ++ added ∧
      (∀ pre path r post,
        Docx.bindings (fun _ => .ok ⟨[1], none⟩) (fun m => "word/media/" ++ m.Name)
          ⟨"", ["word/document.xml"], fun _ => .ok ⟨[1], none⟩, ⟨[2], none⟩, ⟨[3], none⟩,
      [⟨"m1", [9]⟩, ⟨"m1", [8]⟩]⟩ = pre ++ (path, r) :: post →
        path ∉ post.map Prod.fst →
        added.filter (fun e => decide (e.1 = path)) = [(path, r.bytes)]) ∧
      ("word/_rels/document.xml.rels" ∉ [("m1" : String), "m1"].map (fun n => "word/media/" ++ n) →
        added.filter (fun e => decide (e.1 = "word/_rels/document.xml.rels")) =
          [("word/_rels/document.xml.rels", xmlHeader ++ [2])]) ∧
      ("word/document.xml" ∉ [("m1" : String), "m1"].map (fun n => "word/media/" ++ n) →
        added.filter (fun e => decide (e.1 = "word/document.xml")) =
          [("word/document.xml", xmlHeader ++ [3])]) ∧
      (∀ pre m post, [(⟨"m1", [9]⟩ : Media), ⟨"m1", [8]⟩] = pre ++ m :: post →
        "word/media/" ++ m.Name ∉ post.map (fun m => "word/media/" ++ m.Name) →
        added.filter (fun e => decide (e.1 = "word/media/" ++ m.Name)) =
          [("word/media/" ++ m.Name, m.Data)]) ∧
      (∀ pre name post, ["word/document.xml"] = pre ++ name :: post → name ∉ post →
        name ≠ "word/_rels/document.xml.rels" → name ≠ "word/document.xml" →
        name ∉ [(⟨"m1", [9]⟩ : Media), ⟨"m1", [8]⟩].map (fun m => "word/media/" ++ m.Name) →
        ∃ file, Docx.source (fun _ => .ok ⟨[1], none⟩)
          ⟨"", ["word/document.xml"], fun _ => .ok ⟨[1], none⟩, ⟨[2], none⟩, ⟨[3], none⟩,
      [⟨"m1", [9]⟩, ⟨"m1", [8]⟩]⟩ name = .ok file ∧
          added.filter (fun e => decide (e.1 = name)) = [(name, file.data)]) :=
  pack_last_binding_wins (fun _ => .ok ⟨[1], none⟩) (fun m => "word/media/" ++ m.Name) id
    ⟨"", ["word/document.xml"], fun _ => .ok ⟨[1], none⟩, ⟨[2], none⟩, ⟨[3], none⟩,
      [⟨"m1", [9]⟩, ⟨"m1", [8]⟩]⟩
    ⟨[], fun _ _ => none, fun _ _ => none⟩
    ⟨[("word/document.xml", xmlHeader ++ [3]),
      ("word/_rels/document.xml.rels", xmlHeader ++ [2]), ("word/media/m1", [8])],
      fun _ _ => none, fun _ _ => none⟩
    (fun _ => List.Perm.refl _) (by
      simp only [Docx.pack]
      rfl)

end GoDocx
